import Mathlib

/-!
# Leaf-block engine of the hierarchical-matrix library (complex instantiation)

Shallow embedding of the functions of `src/H/mblock_Z.cpp` that the verified properties
are about.

* Scalars: `double` is embedded as `ℚ` and `dcomp` as the pair type `dcomp` over `ℚ`
  (exact arithmetic, no rounding, no NaN).
* `unsigned` is embedded as `Nat`; the properties below are stated where no wrap-around occurs.
* Arrays (`dcomp*`, `double*`, `unsigned*`) are memories `Nat → α`; a pointer is an offset.
* `for (i = 0; i < n; ++i) body` is `forLoop n body`.
* Results of the external numeric kernels (`gesvd`, `getrf`, `geqrf`, ...) are parameters.
-/

namespace AHMED

/-! ## Scalars -/

/-- The scalar type `dcomp` (complex double), embedded over the rationals. -/
@[ext]
structure dcomp where
  re : ℚ
  im : ℚ
deriving DecidableEq

namespace dcomp

instance : Zero dcomp := ⟨⟨0, 0⟩⟩
instance : One dcomp := ⟨⟨1, 0⟩⟩
instance : Add dcomp := ⟨fun a b => ⟨a.re + b.re, a.im + b.im⟩⟩
instance : Neg dcomp := ⟨fun a => ⟨-a.re, -a.im⟩⟩
instance : Sub dcomp := ⟨fun a b => ⟨a.re - b.re, a.im - b.im⟩⟩
instance : Mul dcomp := ⟨fun a b => ⟨a.re * b.re - a.im * b.im, a.re * b.im + a.im * b.re⟩⟩
instance : Inv dcomp :=
  ⟨fun a => ⟨a.re / (a.re * a.re + a.im * a.im), -a.im / (a.re * a.re + a.im * a.im)⟩⟩
instance : NatCast dcomp := ⟨fun n => ⟨(n : ℚ), 0⟩⟩
instance : IntCast dcomp := ⟨fun n => ⟨(n : ℚ), 0⟩⟩

@[simp] theorem zero_re : (0 : dcomp).re = 0 := rfl
@[simp] theorem zero_im : (0 : dcomp).im = 0 := rfl
@[simp] theorem one_re : (1 : dcomp).re = 1 := rfl
@[simp] theorem one_im : (1 : dcomp).im = 0 := rfl
@[simp] theorem add_re (a b : dcomp) : (a + b).re = a.re + b.re := rfl
@[simp] theorem add_im (a b : dcomp) : (a + b).im = a.im + b.im := rfl
@[simp] theorem neg_re (a : dcomp) : (-a).re = -a.re := rfl
@[simp] theorem neg_im (a : dcomp) : (-a).im = -a.im := rfl
@[simp] theorem sub_re (a b : dcomp) : (a - b).re = a.re - b.re := rfl
@[simp] theorem sub_im (a b : dcomp) : (a - b).im = a.im - b.im := rfl
@[simp] theorem mul_re (a b : dcomp) : (a * b).re = a.re * b.re - a.im * b.im := rfl
@[simp] theorem mul_im (a b : dcomp) : (a * b).im = a.re * b.im + a.im * b.re := rfl
@[simp] theorem inv_re (a : dcomp) : (a⁻¹).re = a.re / (a.re * a.re + a.im * a.im) := rfl
@[simp] theorem inv_im (a : dcomp) : (a⁻¹).im = -a.im / (a.re * a.re + a.im * a.im) := rfl
@[simp] theorem natCast_re (n : Nat) : (n : dcomp).re = n := rfl
@[simp] theorem natCast_im (n : Nat) : (n : dcomp).im = 0 := rfl
@[simp] theorem intCast_re (n : Int) : (n : dcomp).re = n := rfl
@[simp] theorem intCast_im (n : Int) : (n : dcomp).im = 0 := rfl

theorem normSq_pos_of_ne_zero (a : dcomp) (h : a ≠ 0) : 0 < a.re * a.re + a.im * a.im := by
  have hne : a.re ≠ 0 ∨ a.im ≠ 0 := by
    by_contra hc
    push_neg at hc
    exact h (dcomp.ext hc.1 hc.2)
  rcases hne with h1 | h1
  · have := mul_self_pos.mpr h1
    nlinarith [mul_self_nonneg a.im]
  · have := mul_self_pos.mpr h1
    nlinarith [mul_self_nonneg a.re]

instance : CommRing dcomp where
  add_assoc a b c := by ext <;> simp [add_assoc]
  zero_add a := by ext <;> simp
  add_zero a := by ext <;> simp
  nsmul := nsmulRec
  zsmul := zsmulRec
  neg_add_cancel a := by ext <;> simp
  add_comm a b := by ext <;> simp [add_comm]
  sub_eq_add_neg a b := by ext <;> simp [sub_eq_add_neg]
  left_distrib a b c := by ext <;> simp <;> ring
  right_distrib a b c := by ext <;> simp <;> ring
  zero_mul a := by ext <;> simp
  mul_zero a := by ext <;> simp
  mul_assoc a b c := by ext <;> simp <;> ring
  one_mul a := by ext <;> simp
  mul_one a := by ext <;> simp
  natCast_zero := by ext <;> simp
  natCast_succ n := by ext <;> simp
  intCast_ofNat n := by ext <;> simp
  intCast_negSucc n := by ext <;> simp [Int.negSucc_eq]
  mul_comm a b := by ext <;> simp <;> ring

instance : Field dcomp where
  exists_pair_ne := ⟨0, 1, fun h => by simpa using congrArg dcomp.re h⟩
  mul_inv_cancel a h := by
    have hp := (normSq_pos_of_ne_zero a h).ne'
    ext
    · simp only [mul_re, inv_re, inv_im, one_re]
      field_simp
    · simp only [mul_im, inv_re, inv_im, one_im]
      field_simp
      ring
  inv_zero := by ext <;> simp
  nnqsmul := _
  nnqsmul_def := fun _ _ => rfl
  qsmul := _
  qsmul_def := fun _ _ => rfl

@[simp] theorem ofNat_re (n : Nat) [n.AtLeastTwo] :
    (no_index (OfNat.ofNat n) : dcomp).re = OfNat.ofNat n := by
  show ((OfNat.ofNat n : Nat) : ℚ) = OfNat.ofNat n
  exact Nat.cast_ofNat

@[simp] theorem ofNat_im (n : Nat) [n.AtLeastTwo] :
    (no_index (OfNat.ofNat n) : dcomp).im = 0 := rfl

/-- Complex conjugation `conj(z)`. -/
def conj (a : dcomp) : dcomp := ⟨a.re, -a.im⟩

@[simp] theorem conj_re (a : dcomp) : (conj a).re = a.re := rfl
@[simp] theorem conj_im (a : dcomp) : (conj a).im = -a.im := rfl
@[simp] theorem conj_conj (a : dcomp) : conj (conj a) = a := by ext <;> simp
@[simp] theorem conj_zero : conj 0 = 0 := by ext <;> simp
@[simp] theorem conj_one : conj 1 = 1 := by ext <;> simp
theorem conj_add (a b : dcomp) : conj (a + b) = conj a + conj b := by
  ext <;> simp
  ring
theorem conj_mul (a b : dcomp) : conj (a * b) = conj a * conj b := by
  ext <;> simp
  ring

/-- The imaginary unit `dcomp(0., 1.)`. -/
def I : dcomp := ⟨0, 1⟩

/-- The cast `(unsigned) Re(z)` used to read a permutation index from a diagonal slot:
truncation of the real part (defined for non-negative real parts). -/
def toUnsigned (a : dcomp) : Nat := Int.toNat ⌊a.re⌋

@[simp] theorem toUnsigned_natCast (n : Nat) : toUnsigned (n : dcomp) = n := by
  simp [toUnsigned]

end dcomp

/-! ## Control flow and memory -/

/-- The loop `for (i = 0; i < n; ++i) s = body(i, s)`. -/
def forLoop {σ : Type} : Nat → (Nat → σ → σ) → σ → σ
  | 0, _, s => s
  | n + 1, body, s => body n (forLoop n body s)

/-- The store `mem[a] = v`. -/
def wr {α : Type} (mem : Nat → α) (a : Nat) (v : α) : Nat → α :=
  fun i => if i = a then v else mem i

/-- The value of an arithmetic expression of type `unsigned` (32 bits): the result is reduced
modulo `2^32`. -/
def u32 (x : Nat) : Nat := x % 2 ^ 32

/-! ## Rank selection of the truncated SVD -/

/-- The constant `#define EPS0 1e-64`. -/
def EPS0 : ℚ := 1 / 10 ^ 64

/-- The loop `while (kt>0 && (S[kt-1]<=delta*S[0] || S[kt-1]<EPS0)) --kt;`
started at the given value of `kt`. -/
def truncWhile (S : Nat → ℚ) (delta : ℚ) : Nat → Nat
  | 0 => 0
  | kt + 1 => if S kt ≤ delta * S 0 ∨ S kt < EPS0 then truncWhile S delta kt else kt + 1

/-- Modelled from the spec: the macro `MIN(a, b)` of the missing header `basmod.h`. -/
def MIN (a b : Nat) : Nat := if a < b then a else b

/-- Modelled from the spec: the macro `MAX(a, b)` of the missing header `basmod.h`. -/
def MAX (a b : Nat) : Nat := if a > b then a else b

/-- Rank chosen by `convGeM_toLrM(eps)`: `kt = nmin` followed by the truncation loop. -/
def convGeM_toLrM_kt (n1 n2 : Nat) (S : Nat → ℚ) (eps : ℚ) : Nat :=
  let nmin := MIN n1 n2
  truncWhile S eps nmin

/-- Rank chosen by `addtrll` (plain SVD branch, `k > 0`): `kt = MIN(amin, kgoal)` followed by
the truncation loop. -/
def addtrll_kt (n1 n2 bl_rank k : Nat) (S : Nat → ℚ) (delta : ℚ) (kgoal : Nat) : Nat :=
  let ksum := bl_rank + k
  let mmin := MIN n1 ksum
  let nmin := MIN n2 ksum
  let amin := MIN mmin nmin
  truncWhile S delta (MIN amin kgoal)

/-- Rank chosen by `addtrll_rmnd` (`k > 0`). -/
def addtrll_rmnd_kt (n1 n2 bl_rank k : Nat) (S : Nat → ℚ) (delta : ℚ) (kgoal : Nat) : Nat :=
  let ksum := bl_rank + k
  let mmin := MIN n1 ksum
  let nmin := MIN n2 ksum
  let amin := MIN mmin nmin
  truncWhile S delta (MIN amin kgoal)

/-- Rank chosen by `addGeM` on a low-rank block (plain SVD branch). -/
def addGeM_kt (n1 n2 : Nat) (S : Nat → ℚ) (eps : ℚ) (rankmax : Nat) : Nat :=
  let min12 := MIN n1 n2
  truncWhile S eps (MIN min12 rankmax)

/-- Rank chosen by `unify_cols_LrMLrM` (plain SVD branch, `ksum > 0`). -/
def unify_cols_LrMLrM_kt (n1 k1 k2 : Nat) (S : Nat → ℚ) (delta : ℚ) (kgoal : Nat) : Nat :=
  let ksum := k1 + k2
  let kU := MIN n1 ksum
  truncWhile S delta (MIN kU kgoal)

/-- Rank chosen by the dense fall-back of `unify_cols` and of `unify_rows` (plain SVD branch). -/
def unify_dense_kt (n1 n2 : Nat) (S : Nat → ℚ) (delta : ℚ) (kgoal : Nat) : Nat :=
  let nmin := MIN n1 n2
  truncWhile S delta (MIN nmin kgoal)

/-- Rank chosen by `unify_rows_LrMLrM` (plain SVD branch, `ksum > 0`). -/
def unify_rows_LrMLrM_kt (n2 k1 k2 : Nat) (S : Nat → ℚ) (delta : ℚ) (kgoal : Nat) : Nat :=
  let ksum := k1 + k2
  let kV := MIN n2 ksum
  truncWhile S delta (MIN kV kgoal)

/-! ## The block entity -/

/-- The bit-field `info` of a block (`info.is_LrM`, `info.is_UtM`, ...). -/
structure mbl_info where
  is_LrM : Bool
  is_UtM : Bool
  is_LtM : Bool
  is_HeM : Bool
  is_SyM : Bool
deriving DecidableEq

/-- The block `mblock<dcomp>`: size `n1 x n2`, tag bits, rank and the owned buffer `data`. -/
structure mblock where
  n1 : Nat
  n2 : Nat
  info : mbl_info
  bl_rank : Nat
  data : Nat → dcomp

namespace mblock

/-- Tag query `isLrM()`. -/
def isLrM (b : mblock) : Bool := b.info.is_LrM

/-- Modelled from the spec: tag query `isGeM()` of the missing header `mblock.h`; a block is
dense exactly when it is not low-rank (UtM, LtM, HeM and SyM each imply GeM). -/
def isGeM (b : mblock) : Bool := !b.info.is_LrM

/-- Tag query `isUtM()`. -/
def isUtM (b : mblock) : Bool := b.info.is_UtM

/-- Tag query `isLtM()`. -/
def isLtM (b : mblock) : Bool := b.info.is_LtM

/-- Tag query `isHeM()`. -/
def isHeM (b : mblock) : Bool := b.info.is_HeM

/-- Tag query `isSyM()`. -/
def isSyM (b : mblock) : Bool := b.info.is_SyM

/-- Modelled from the spec: `freedata()` of the missing header `mblock.h`; the buffer is
released and the block is marked as rank zero, the tag bits are kept. -/
def freedata (b : mblock) : mblock :=
  { b with bl_rank := 0, data := fun _ => 0 }

/-- Modelled from the spec: `setrank(k)` (`setLrM(r)`) of the missing header `mblock.h`; the
block is tagged low-rank with rank `k` and `data` is reallocated with `k*(n1+n2)` entries. -/
def setrank (b : mblock) (k : Nat) : mblock :=
  { b with
    info := { is_LrM := true, is_UtM := false, is_LtM := false, is_HeM := false,
              is_SyM := false }
    bl_rank := k
    data := fun _ => 0 }

/-- Modelled from the spec: `init0_GeM(n1, n2)` of the missing header `mblock.h`; the block
becomes an all-zero dense block. -/
def init0_GeM (b : mblock) : mblock :=
  { b with
    info := { is_LrM := false, is_UtM := false, is_LtM := false, is_HeM := false,
              is_SyM := false }
    data := fun _ => 0 }

end mblock

/-! ## Dense kernels of the facade `blas::` -/

/-- Modelled from the spec: `blas::copy(n, x, y)` of the missing header `blas.h`,
`y[i] = x[i]` for `i < n`; `xo` and `yo` are the offsets of the two pointers. -/
def copy {α : Type} (n : Nat) (x : Nat → α) (xo : Nat) (y : Nat → α) (yo : Nat) : Nat → α :=
  forLoop n (fun i y => wr y (yo + i) (x (xo + i))) y

/-- Modelled from the spec: `blas::axpy(n, d, x, y)` of the missing header `blas.h`,
`y[i] += d * x[i]` for `i < n`, with `x` and `y` in different buffers. -/
def axpy (n : Nat) (d : dcomp) (x : Nat → dcomp) (xo : Nat) (y : Nat → dcomp) (yo : Nat) :
    Nat → dcomp :=
  forLoop n (fun i y => wr y (yo + i) (y (yo + i) + d * x (xo + i))) y

/-- Modelled from the spec: `blas::axpy(n, d, x, y)` with `x` and `y` pointing into the same
buffer `mem` (offsets `xo`, `yo`). -/
def axpySelf (n : Nat) (d : dcomp) (mem : Nat → dcomp) (xo yo : Nat) : Nat → dcomp :=
  forLoop n (fun i m => wr m (yo + i) (m (yo + i) + d * m (xo + i))) mem

/-- Modelled from the spec: `blas::scal(n, e, x)` of the missing header `blas.h`,
`x[i] *= e` for `i < n`. -/
def scal (n : Nat) (e : dcomp) (x : Nat → dcomp) (xo : Nat) : Nat → dcomp :=
  forLoop n (fun i x => wr x (xo + i) (e * x (xo + i))) x

/-- Modelled from the spec: `blas::gemmh(n1, k, n2, d, A, ldA, B, ldB, C, ldC)` of the missing
header `blas.h`, the product `C = d A B^H` of an `n1 x k` and the conjugate transpose of an
`n2 x k` matrix. -/
def gemmh (n1 k n2 : Nat) (d : dcomp) (A : Nat → dcomp) (ldA : Nat) (B : Nat → dcomp)
    (ldB : Nat) (C : Nat → dcomp) (ldC : Nat) : Nat → dcomp :=
  forLoop n2 (fun j C =>
    forLoop n1 (fun i C =>
      wr C (i + j * ldC)
        (d * ∑ l ∈ Finset.range k, A (i + l * ldA) * dcomp.conj (B (j + l * ldB)))) C) C

/-- Modelled from the spec: `addLrM_toGeM(k, U, ldU, V, ldV)` of the missing header
`mblock.h`, the dense accumulation `data += U V^H`. -/
def addLrM_toGeM_data (n1 n2 k : Nat) (U : Nat → dcomp) (ldU : Nat) (V : Nat → dcomp)
    (ldV : Nat) (data : Nat → dcomp) : Nat → dcomp :=
  forLoop n2 (fun j C =>
    forLoop n1 (fun i C =>
      wr C (i + j * n1)
        (C (i + j * n1) + ∑ l ∈ Finset.range k, U (i + l * ldU) * dcomp.conj (V (j + l * ldV))))
      C) data

namespace mblock

/-- The in-place conversion `convLrM_toGeM()`. -/
def convLrM_toGeM (b : mblock) : mblock :=
  if b.bl_rank > 0 then
    let new_data : Nat → dcomp := fun _ => 0
    let new_data := gemmh b.n1 b.bl_rank b.n2 1 b.data b.n1
      (fun i => b.data (b.bl_rank * b.n1 + i)) b.n2 new_data b.n1
    { b with
      data := new_data
      info := { is_LrM := false, is_UtM := false, is_LtM := false, is_HeM := false,
                is_SyM := false } }
  else init0_GeM b

/-- The function `append(k, U, ldU, V, ldV)`: appends the columns of `U` and `V` to the
factors of a low-rank block. -/
def append (b : mblock) (k : Nat) (U : Nat → dcomp) (ldU : Nat) (V : Nat → dcomp)
    (ldV : Nat) : mblock :=
  let rank_new := b.bl_rank + k
  let tmp : Nat → dcomp := fun _ => 0
  let tmp := copy (b.bl_rank * b.n1) b.data 0 tmp 0
  let tmp := forLoop k (fun i tmp => copy b.n1 U (i * ldU) tmp (b.bl_rank * b.n1 + i * b.n1)) tmp
  let tmp := copy (b.bl_rank * b.n2) b.data (b.bl_rank * b.n1) tmp (rank_new * b.n1)
  let tmp := forLoop k (fun i tmp =>
    copy b.n2 V (i * ldV) tmp (rank_new * b.n1 + b.bl_rank * b.n2 + i * b.n2)) tmp
  { b with data := tmp, bl_rank := rank_new }

/-- The function `addtrll(k, U, ldU, V, ldV, delta, kgoal, haarInfo, ...)` on the tag, the rank
and the buffer of the block.  The outputs of the external kernels are parameters: `S` are the
singular values returned by `gesvd`, `fac` is the content of `data` after the two `ormqr`
calls, and `haar` is `none` for `haarInfo == NULL` and otherwise the pair (rank, buffer)
returned by the rank reducer `addLowRankNB`. -/
def addtrll (b : mblock) (k : Nat) (delta : ℚ) (kgoal : Nat)
    (haar : Option (Nat × (Nat → dcomp))) (S : Nat → ℚ) (fac : Nat → dcomp) : mblock :=
  if k > 0 then
    match haar with
    | none =>
      let b0 := b.freedata
      let kt := addtrll_kt b.n1 b.n2 b.bl_rank k S delta kgoal
      if kt > 0 then { b0.setrank kt with data := fac } else b0
    | some (khat, d) => { b with bl_rank := khat, data := d }
  else b

/-- Remainder rank `kR` computed by `addtrll_rmnd` from the retained rank `kt`: the loop
`while (kl>kt && (S[kl-1]<=1e-16*S[0] || S[kl-1]<EPS0)) --kl;` started at the given value
of `kl`. -/
def rmndWhile (S : Nat → ℚ) (kt : Nat) : Nat → Nat
  | 0 => 0
  | kl + 1 =>
    if kl + 1 > kt ∧ (S kl ≤ (1 / 10 ^ 16) * S 0 ∨ S kl < EPS0) then rmndWhile S kt kl
    else kl + 1

/-- The function `addtrll_rmnd(k, U, ldU, V, ldV, delta, kgoal, kR, UR, VR)` on the tag, the
rank and the buffer of the block, together with the returned remainder rank `kR`.  `S` are
the singular values returned by `gesvd` and `fac` is the content of `data` after the two
`ormqr` calls. -/
def addtrll_rmnd (b : mblock) (k : Nat) (delta : ℚ) (kgoal : Nat) (S : Nat → ℚ)
    (fac : Nat → dcomp) : mblock × Nat :=
  if k > 0 then
    let ksum := b.bl_rank + k
    let mmin := MIN b.n1 ksum
    let nmin := MIN b.n2 ksum
    let amin := MIN mmin nmin
    let b0 := b.freedata
    let kt := addtrll_rmnd_kt b.n1 b.n2 b.bl_rank k S delta kgoal
    let b1 := if kt > 0 then { b0.setrank kt with data := fac } else b0
    let kl := rmndWhile S kt amin
    (b1, kl - kt)
  else (b, 0)

/-- The function `convGeM_toLrM(eps)` on the tag, the rank and the buffer of the block; `S`
are the singular values returned by `gesvd` and `fac` the factors copied into `data`. -/
def convGeM_toLrM (b : mblock) (eps : ℚ) (S : Nat → ℚ) (fac : Nat → dcomp) : mblock :=
  let kt := convGeM_toLrM_kt b.n1 b.n2 S eps
  { b.setrank kt with data := fac }

/-- The accumulation `addGeM_toHeM(A, ldA)` into the packed upper triangle. -/
def addGeM_toHeM (b : mblock) (A : Nat → dcomp) (ldA : Nat) : mblock :=
  let r := forLoop b.n2 (fun j (s : Nat × (Nat → dcomp)) =>
    forLoop (j + 1) (fun i (s : Nat × (Nat → dcomp)) =>
      (s.1 + 1, wr s.2 s.1 (s.2 s.1 + A (i + j * ldA)))) s) (0, b.data)
  { b with data := r.2 }

/-- Modelled from the spec: `addGeM_toGeM(A, ldA)` of the missing header `mblock.h`, the
element-wise accumulation of a dense block. -/
def addGeM_toGeM (b : mblock) (A : Nat → dcomp) (ldA : Nat) : mblock :=
  let new_data := forLoop b.n2 (fun j C =>
    forLoop b.n1 (fun i C => wr C (i + j * b.n1) (C (i + j * b.n1) + A (i + j * ldA))) C) b.data
  { b with data := new_data }

/-- The function `addGeM(A, ldA, eps, rankmax, haarInfo, ...)`; on a low-rank block `S` are
the singular values returned by `gesvd`, `fac` the factors written into `data`, and `haar`
the pair (rank, buffer) returned by the rank reducer when `haarInfo != NULL`. -/
def addGeM (b : mblock) (A : Nat → dcomp) (ldA : Nat) (eps : ℚ) (rankmax : Nat)
    (haar : Option (Nat × (Nat → dcomp))) (S : Nat → ℚ) (fac : Nat → dcomp) : mblock :=
  if b.isLrM then
    let b0 := b.freedata
    match haar with
    | none =>
      let kt := addGeM_kt b.n1 b.n2 S eps rankmax
      if kt > 0 then { b0.setrank kt with data := fac } else b0
    | some (khat, d) => { b0 with bl_rank := khat, data := d }
  else
    if b.isHeM || b.isSyM then b.addGeM_toHeM A ldA else b.addGeM_toGeM A ldA

/-- The function `unify_cols_LrMLrM(delta, kgoal, mbl1, mbl2, haarInfo, ...)` on the tag, the
rank and the buffer of the block. -/
def unify_cols_LrMLrM (b : mblock) (delta : ℚ) (kgoal : Nat) (mbl1 mbl2 : mblock)
    (haar : Option (Nat × (Nat → dcomp))) (S : Nat → ℚ) (fac : Nat → dcomp) : mblock :=
  let k1 := mbl1.bl_rank
  let k2 := mbl2.bl_rank
  let ksum := k1 + k2
  let b0 := b.freedata
  if ksum > 0 then
    match haar with
    | none =>
      let kt := unify_cols_LrMLrM_kt b.n1 k1 k2 S delta kgoal
      if kt > 0 then { b0 with bl_rank := kt, data := fac } else { b0 with bl_rank := kt }
    | some (khat, d) => { b0 with bl_rank := khat, data := d }
  else b0

/-- The function `unify_cols(delta, kgoal, mbl1, mbl2, haarInfo, ...)`. -/
def unify_cols (b : mblock) (delta : ℚ) (kgoal : Nat) (mbl1 mbl2 : mblock)
    (haar : Option (Nat × (Nat → dcomp))) (S : Nat → ℚ) (fac : Nat → dcomp) : mblock :=
  if mbl1.isLrM && mbl2.isLrM then b.unify_cols_LrMLrM delta kgoal mbl1 mbl2 haar S fac
  else
    let b0 := b.freedata
    match haar with
    | none =>
      let kt := unify_dense_kt b.n1 b.n2 S delta kgoal
      if kt > 0 then { b0 with bl_rank := kt, data := fac } else { b0 with bl_rank := kt }
    | some (khat, d) => { b0 with bl_rank := khat, data := d }

/-- The function `unify_rows_LrMLrM(delta, kgoal, mbl1, mbl2, haarInfo, ...)` on the tag, the
rank and the buffer of the block. -/
def unify_rows_LrMLrM (b : mblock) (delta : ℚ) (kgoal : Nat) (mbl1 mbl2 : mblock)
    (haar : Option (Nat × (Nat → dcomp))) (S : Nat → ℚ) (fac : Nat → dcomp) : mblock :=
  let k1 := mbl1.bl_rank
  let k2 := mbl2.bl_rank
  let ksum := k1 + k2
  if ksum > 0 then
    match haar with
    | none =>
      let kt := unify_rows_LrMLrM_kt b.n2 k1 k2 S delta kgoal
      if kt > 0 then { b with bl_rank := kt, data := fac } else { b with bl_rank := kt }
    | some (khat, d) => { b with bl_rank := khat, data := d }
  else b

/-- The function `unify_rows(delta, kgoal, mbl1, mbl2, haarInfo, ...)`. -/
def unify_rows (b : mblock) (delta : ℚ) (kgoal : Nat) (mbl1 mbl2 : mblock)
    (haar : Option (Nat × (Nat → dcomp))) (S : Nat → ℚ) (fac : Nat → dcomp) : mblock :=
  let b0 := b.freedata
  if mbl1.isLrM && mbl2.isLrM then b0.unify_rows_LrMLrM delta kgoal mbl1 mbl2 haar S fac
  else
    match haar with
    | none =>
      let kt := unify_dense_kt b.n1 b.n2 S delta kgoal
      if kt > 0 then { b0 with bl_rank := kt, data := fac } else { b0 with bl_rank := kt }
    | some (khat, d) => { b0 with bl_rank := khat, data := d }

/-- The accumulation `addLrM_toHeM(mult, k, U, ldU, V, ldV)` into the packed upper triangle. -/
def addLrM_toHeM (b : mblock) (mult k : Nat) (U : Nat → dcomp) (ldU : Nat) (V : Nat → dcomp)
    (ldV : Nat) : mblock :=
  let new_data := forLoop k (fun l data =>
    forLoop b.n1 (fun j data =>
      axpy (j + 1) ((mult : dcomp) * dcomp.conj (V (j + l * ldV))) U (ldU * l) data
        (j * (j + 1) / 2)) data) b.data
  { b with data := new_data }

/-- The accumulation `addLrM_toUtM(mult, k, U, ldU, V, ldV)` into the packed upper triangle. -/
def addLrM_toUtM (b : mblock) (mult k : Nat) (U : Nat → dcomp) (ldU : Nat) (V : Nat → dcomp)
    (ldV : Nat) : mblock :=
  let new_data := forLoop k (fun l data =>
    forLoop b.n1 (fun j data =>
      axpy (j + 1) ((mult : dcomp) * dcomp.conj (V (j + l * ldV))) U (ldU * l) data
        (j * (j + 1) / 2)) data) b.data
  { b with data := new_data }

/-- Modelled from the spec: `addLrM_toGeM(k, U, ldU, V, ldV)` of the missing header
`mblock.h` on a dense block. -/
def addLrM_toGeM (b : mblock) (k : Nat) (U : Nat → dcomp) (ldU : Nat) (V : Nat → dcomp)
    (ldV : Nat) : mblock :=
  { b with data := addLrM_toGeM_data b.n1 b.n2 k U ldU V ldV b.data }

/-- The accumulator `addLrM(k, U, ldU, V, ldV, eps, kgoal, haarInfo, ...)`.  The test
`bl_rank*(n1+n2)>n1*n2` is evaluated in `unsigned` arithmetic. -/
def addLrM (b : mblock) (k : Nat) (U : Nat → dcomp) (ldU : Nat) (V : Nat → dcomp) (ldV : Nat)
    (eps : ℚ) (kgoal : Nat) (haar : Option (Nat × (Nat → dcomp))) (S : Nat → ℚ)
    (fac : Nat → dcomp) : mblock :=
  if b.isLrM then
    let b1 := b.addtrll k eps kgoal haar S fac
    if u32 (b1.bl_rank * u32 (b1.n1 + b1.n2)) > u32 (b1.n1 * b1.n2) then b1.convLrM_toGeM
    else b1
  else
    if b.isHeM || b.isSyM then b.addLrM_toHeM 1 k U ldU V ldV
    else if b.isUtM then b.addLrM_toUtM 1 k U ldU V ldV
    else b.addLrM_toGeM k U ldU V ldV

/-- The accumulator `addLrM_Exact(k, U, ldU, V, ldV)`. -/
def addLrM_Exact (b : mblock) (k : Nat) (U : Nat → dcomp) (ldU : Nat) (V : Nat → dcomp)
    (ldV : Nat) : mblock :=
  if b.isLrM then
    let b1 := b.append k U ldU V ldV
    if u32 (b1.bl_rank * u32 (b1.n1 + b1.n2)) > u32 (b1.n1 * b1.n2) then b1.convLrM_toGeM
    else b1
  else
    if b.isHeM || b.isSyM then b.addLrM_toHeM 1 k U ldU V ldV
    else b.addLrM_toGeM k U ldU V ldV

/-- The accumulator `addLrM_rmnd(k, U, ldU, V, ldV, eps, kgoal, kR, UR, VR)`; returns the
block and the remainder rank `kR`.  `UR`, `VR` are the remainder factors produced by the
kernels inside `addtrll_rmnd`. -/
def addLrM_rmnd (b : mblock) (k : Nat) (U : Nat → dcomp) (ldU : Nat) (V : Nat → dcomp)
    (ldV : Nat) (eps : ℚ) (kgoal : Nat) (S : Nat → ℚ) (fac UR VR : Nat → dcomp) :
    mblock × Nat :=
  if b.isLrM then
    let r := b.addtrll_rmnd k eps kgoal S fac
    let b1 := r.1
    let kR := r.2
    if u32 (b1.bl_rank * u32 (b1.n1 + b1.n2)) > u32 (b1.n1 * b1.n2) then
      let b2 := b1.convLrM_toGeM
      let b3 := b2.addLrM_toGeM kR UR b2.n1 VR b2.n2
      (b3, 0)
    else (b1, kR)
  else
    if b.isHeM || b.isSyM then (b.addLrM_toHeM 1 k U ldU V ldV, 0)
    else (b.addLrM_toGeM k U ldU V ldV, 0)

end mblock

/-! ## LU factorisation with the permutation stored in the diagonal of `L` -/

/-- Offset of column `j` in packed upper-triangular storage (`j+1` entries per column). -/
def utOff (j : Nat) : Nat := j * (j + 1) / 2

/-- Offset `o_j = j*n1 - j(j-1)/2` of column `j` in the storage of an `LtM` block (`n1 - j`
entries per column, the diagonal slot first). -/
def ltOff (n1 j : Nat) : Nat := j * n1 - j * (j - 1) / 2

/-- The local variables of `decomp_LU` that change in its loop: the array `perm`, the three
running pointers `pA`, `pL`, `pU` (as offsets) and the buffers `L->data`, `U->data`. -/
structure LUstate where
  perm : Nat → Nat
  pA : Nat
  pL : Nat
  pU : Nat
  L : Nat → dcomp
  U : Nat → dcomp

/-- The three statements `itmp = perm[j]; perm[j] = perm[ipiv[j]-1]; perm[ipiv[j]-1] = itmp;`
of `decomp_LU`. -/
def swapStep (ipiv : Nat → Nat) (j : Nat) (perm : Nat → Nat) : Nat → Nat :=
  let itmp := perm j
  let perm1 := wr perm j (perm (ipiv j - 1))
  wr perm1 (ipiv j - 1) itmp

/-- The array `perm` after the swaps of the steps `j = 0 .. m-1`, started from the identity
`perm[j] = j`. -/
def applySwaps (ipiv : Nat → Nat) (m : Nat) : Nat → Nat :=
  forLoop m (swapStep ipiv) (fun j => j)

/-- A run of `cnt` statements `*pU++ = *pA++;`. -/
def luCopyU (F : Nat → dcomp) (cnt : Nat) (s : LUstate) : LUstate :=
  forLoop cnt (fun _ t => { t with U := wr t.U t.pU (F t.pA), pU := t.pU + 1, pA := t.pA + 1 }) s

/-- A run of `cnt` statements `*pL++ = *pA++;`. -/
def luCopyL (F : Nat → dcomp) (cnt : Nat) (s : LUstate) : LUstate :=
  forLoop cnt (fun _ t => { t with L := wr t.L t.pL (F t.pA), pL := t.pL + 1, pA := t.pA + 1 }) s

/-- Body of the loop `for (j=0; j<n1; ++j)` of `decomp_LU`; `F` is the buffer `data` as
factored in place by `blas::getrf` and `ipiv` its 1-based pivot vector. -/
def decomp_LU_step (n1 : Nat) (F : Nat → dcomp) (ipiv : Nat → Nat) (j : Nat) (s : LUstate) :
    LUstate :=
  let s1 : LUstate := { s with perm := swapStep ipiv j s.perm }
  let s2 := luCopyU F (j + 1) s1
  let s3 : LUstate := { s2 with L := wr s2.L s2.pL ((s2.perm j : Nat) : dcomp), pL := s2.pL + 1 }
  luCopyL F (n1 - (j + 1)) s3

/-- The function `decomp_LU(L, U)` after the call of `blas::getrf`: `F` is the factored
buffer `data` and `ipiv` the pivot vector returned by the kernel (kept in a buffer of its
own); the result holds `L->data`, `U->data` and the final `perm`. -/
def decomp_LU (n1 : Nat) (F : Nat → dcomp) (ipiv : Nat → Nat) : LUstate :=
  forLoop n1 (decomp_LU_step n1 F ipiv)
    { perm := fun j => j, pA := 0, pL := 0, pU := 0, L := fun _ => 0, U := fun _ => 0 }

/-- Entry `(i, j)` of the unit lower-triangular matrix held by an `LtM` buffer: `1` on the
diagonal (the diagonal slot holds the permutation instead), the stored value below it and
`0` above. -/
def LtMentry (n1 : Nat) (data : Nat → dcomp) (i j : Nat) : dcomp :=
  if i = j then 1 else if j < i then data (ltOff n1 j + (i - j)) else 0

/-- Entry `(i, j)` of the upper-triangular matrix held by a `UtM` buffer. -/
def UtMentry (data : Nat → dcomp) (i j : Nat) : dcomp :=
  if i ≤ j then data (utOff j + i) else 0

/-! ## Conversion of a packed Hermitian block -/

namespace mblock

/-- The function `convHeM_toGeM(A, ldA)`: expands the packed upper triangle into the dense
buffer `A`; the state of the loops is the running pointer `p` (an offset into `data`) and
the buffer `A`. -/
def convHeM_toGeM (b : mblock) (A : Nat → dcomp) (ldA : Nat) : Nat → dcomp :=
  (forLoop b.n2 (fun j (s : Nat × (Nat → dcomp)) =>
    let s1 := forLoop j (fun i (s : Nat × (Nat → dcomp)) =>
      let tmp := b.data s.1
      let A1 := wr s.2 (i + j * ldA) tmp
      let A2 := wr A1 (j + i * ldA) (dcomp.conj tmp)
      (s.1 + 1, A2)) s
    (s1.1 + 1, wr s1.2 (j * (ldA + 1)) (b.data s1.1))) (0, A)).2

/-! ## Triangular matrix-vector products and solves -/

/-- The function `mltaUtMVec(d, x, y)`: `y += d A x` for packed upper-triangular `A`; the
state is the running pointer `p` and the vector `y`. -/
def mltaUtMVec (b : mblock) (d : dcomp) (x y : Nat → dcomp) : Nat → dcomp :=
  (forLoop b.n2 (fun j (s : Nat × (Nat → dcomp)) =>
    let e := d * x j
    forLoop (j + 1) (fun i (s : Nat × (Nat → dcomp)) =>
      (s.1 + 1, wr s.2 i (s.2 i + e * b.data s.1))) s) (0, y)).2

/-- The function `mltaUtMhVec(d, x, y)`; the state is the running pointer `p` and the
vector `y`, the inner loop carries the accumulator `e`. -/
def mltaUtMhVec (b : mblock) (d : dcomp) (x y : Nat → dcomp) : Nat → dcomp :=
  (forLoop b.n1 (fun i (s : Nat × (Nat → dcomp)) =>
    let r := forLoop (i + 1) (fun j (r : Nat × dcomp) =>
      (r.1 + 1, r.2 + x j * b.data r.1)) (s.1, (0 : dcomp))
    (r.1, wr s.2 i (s.2 i + d * r.2))) (0, y)).2

/-- The function `utr_solve_left(m, B, ldB, X, ldX)`: solves `X U = B`; the state is the
running pointer `p` and the buffer `X`. -/
def utr_solve_left (b : mblock) (m : Nat) (B : Nat → dcomp) (ldB : Nat) (X : Nat → dcomp)
    (ldX : Nat) : Nat → dcomp :=
  (forLoop b.n1 (fun j (s : Nat × (Nat → dcomp)) =>
    let X1 := copy m B (j * ldB) s.2 (j * ldX)
    let s1 := forLoop j (fun l (s : Nat × (Nat → dcomp)) =>
      let d := - b.data s.1
      (s.1 + 1, axpySelf m d s.2 (l * ldX) (j * ldX))) (s.1, X1)
    let e := 1 / b.data s1.1
    (s1.1 + 1, scal m e s1.2 (j * ldX))) (0, X)).2

/-- The loop `for (j=0; j<n2; ++j) { ip[j] = (unsigned) Re(*p); p += n1-j; }` which reads
the permutation from the diagonal slots (in `ltr_solve` and `ltrh_solve`); the state is the
running pointer `p` and the array `ip`. -/
def decodeIp (b : mblock) : Nat → Nat :=
  (forLoop b.n2 (fun j (s : Nat × (Nat → Nat)) =>
    (s.1 + (b.n1 - j), wr s.2 j (dcomp.toUnsigned (b.data s.1)))) (0, fun _ => 0)).2

end mblock

/-- The local variables of `mltaLtMVec` that change in its first loop: the running pointer
`p`, the array `ip` and the vector `z`. -/
structure LtVecState where
  p : Nat
  ip : Nat → Nat
  z : Nat → dcomp

/-- Modelled from the spec: one right-hand side of `lapack::ltrs` (missing header `blas.h`),
unit-lower forward substitution in place on the stored layout of an `LtM` block (column `j`
at offset `ltOff n j`, the diagonal slot is not read): for every column `j` the solved entry
`z[j]` is eliminated from the rows below. -/
def ltrsCol (n : Nat) (L : Nat → dcomp) (Z : Nat → dcomp) (off : Nat) : Nat → dcomp :=
  forLoop n (fun j Z =>
    forLoop (n - (j + 1)) (fun t Z =>
      wr Z (off + (j + 1 + t)) (Z (off + (j + 1 + t)) - L (ltOff n j + (t + 1)) * Z (off + j)))
      Z) Z

/-- Modelled from the spec: `lapack::ltrs(n, L, m, B, ldB)` of the missing header `blas.h`,
solves `L X = B` for `m` right-hand sides, `X` overwrites `B`. -/
def ltrs (n : Nat) (L : Nat → dcomp) (m : Nat) (B : Nat → dcomp) (ldB : Nat) : Nat → dcomp :=
  forLoop m (fun c B => ltrsCol n L B (c * ldB)) B

/-- Modelled from the spec: one right-hand side of `lapack::ltrhs` (missing header
`blas.h`), back substitution with `L^H` in place on the stored layout of an `LtM` block, for
`j = n-1` down to `0`. -/
def ltrhsCol (n : Nat) (L : Nat → dcomp) (Z : Nat → dcomp) (off : Nat) : Nat → dcomp :=
  forLoop n (fun t Z =>
    wr Z (off + (n - 1 - t))
      (Z (off + (n - 1 - t)) -
        ∑ i ∈ Finset.Ico (n - 1 - t + 1) n,
          dcomp.conj (L (ltOff n (n - 1 - t) + (i - (n - 1 - t)))) * Z (off + i))) Z

/-- Modelled from the spec: `lapack::ltrhs(n, L, m, B, ldB)` of the missing header `blas.h`,
solves `L^H X = B` for `m` right-hand sides, `X` overwrites `B`. -/
def ltrhs (n : Nat) (L : Nat → dcomp) (m : Nat) (B : Nat → dcomp) (ldB : Nat) : Nat → dcomp :=
  forLoop m (fun c B => ltrhsCol n L B (c * ldB)) B

/-- Modelled from the spec: `blas::ltrphv(n, L, z)` of the missing header `blas.h`, the
in-place product `z := L^H z` with the unit-lower `L` of an `LtM` block, for `j = 0` up to
`n-1`. -/
def ltrphv (n : Nat) (L : Nat → dcomp) (z : Nat → dcomp) : Nat → dcomp :=
  forLoop n (fun j z =>
    wr z j (z j + ∑ i ∈ Finset.Ico (j + 1) n, dcomp.conj (L (ltOff n j + (i - j))) * z i)) z

namespace mblock

/-- The first loop of `mltaLtMVec(d, x, y)`: reads `ip` from the diagonal slots and
accumulates `z = d L x` column by column. -/
def mltaLtMVec_loop (b : mblock) (d : dcomp) (x : Nat → dcomp) : LtVecState :=
  forLoop b.n2 (fun j (s : LtVecState) =>
    let ip := wr s.ip j (dcomp.toUnsigned (b.data s.p))
    let e := d * x j
    let z := wr s.z j (s.z j + e)
    forLoop (b.n1 - (j + 1)) (fun t (s : LtVecState) =>
      { s with z := wr s.z (j + 1 + t) (s.z (j + 1 + t) + e * b.data s.p), p := s.p + 1 })
      { p := s.p + 1, ip := ip, z := z })
    { p := 0, ip := fun _ => 0, z := fun _ => 0 }

/-- The function `mltaLtMVec(d, x, y)`: `y += d P L x`. -/
def mltaLtMVec (b : mblock) (d : dcomp) (x y : Nat → dcomp) : Nat → dcomp :=
  let s := b.mltaLtMVec_loop d x
  forLoop b.n1 (fun i y => wr y (s.ip i) (y (s.ip i) + s.z i)) y

/-- The function `mltaLtMhVec(d, x, y)`: `y += d L^H P^{-1} x`; the state of the first loop
is the running pointer `p` and the vector `z`. -/
def mltaLtMhVec (b : mblock) (d : dcomp) (x y : Nat → dcomp) : Nat → dcomp :=
  let z := (forLoop b.n2 (fun j (s : Nat × (Nat → dcomp)) =>
    let ip := dcomp.toUnsigned (b.data s.1)
    (s.1 + (b.n1 - j), wr s.2 j (x ip))) (0, fun _ => 0)).2
  let z := ltrphv b.n1 b.data z
  axpy b.n1 d z 0 y 0

/-- The function `ltr_solve(m, B, ldB)`: solves `P L X = B`, `X` overwrites `B`. -/
def ltr_solve (b : mblock) (m : Nat) (B : Nat → dcomp) (ldB : Nat) : Nat → dcomp :=
  let ip := b.decodeIp
  let Z : Nat → dcomp := fun _ => 0
  let Z := forLoop m (fun j Z =>
    forLoop b.n1 (fun i Z => wr Z (i + j * b.n1) (B (ip i + j * ldB))) Z) Z
  let Z := ltrs b.n1 b.data m Z b.n1
  forLoop m (fun j B => copy b.n1 Z (j * b.n1) B (j * ldB)) B

/-- The function `ltrh_solve(m, B, ldB)`: solves `L^H P^{-1} X = B`, `X` overwrites `B`. -/
def ltrh_solve (b : mblock) (m : Nat) (B : Nat → dcomp) (ldB : Nat) : Nat → dcomp :=
  let ip := b.decodeIp
  let Z : Nat → dcomp := fun _ => 0
  let Z := forLoop m (fun j Z => copy b.n1 B (j * ldB) Z (j * b.n1)) Z
  let Z := ltrhs b.n1 b.data m Z b.n1
  forLoop m (fun j B =>
    forLoop b.n1 (fun i B => wr B (ip i + j * ldB) (Z (i + j * b.n1))) B) B

end mblock

/-! ## Output parameters of `addtrll_rmnd` -/

namespace mblock

/-- The output parameters `kR`, `UR`, `VR` of `addtrll_rmnd`: they are set to `0`, `NULL`,
`NULL` on entry, and the two buffers are allocated only under `if (kR>0)`; `URk`, `VRk` are
the contents produced by the kernels for them and `none` stands for `NULL`. -/
def addtrll_rmnd_out (b : mblock) (k : Nat) (delta : ℚ) (kgoal : Nat) (S : Nat → ℚ)
    (fac URk VRk : Nat → dcomp) : Nat × Option (Nat → dcomp) × Option (Nat → dcomp) :=
  let kR := (b.addtrll_rmnd k delta kgoal S fac).2
  if kR > 0 then (kR, some URk, some VRk) else (kR, none, none)

end mblock

/-! ## The small matrix of `unify_cols_LrMLrM` -/

/-- The double loop of `unify_cols_LrMLrM` that fills the columns `k1 .. ksum-1` of `M` from
`R2` (columns `k1..` of the factored `[U1 | U2]`, leading dimension `n1`) and `V2` (the
factored `V2`, leading dimension `n2b`); the sum over `l` starts at `MAX(i,j+k1)-k1`. -/
def unify_cols_fillM (n1 n2b k1 k2 : Nat) (R2 V2 M : Nat → dcomp) : Nat → dcomp :=
  let ksum := k1 + k2
  let kU := MIN n1 ksum
  forLoop k2 (fun j M =>
    forLoop kU (fun i M =>
      let l0 := MAX i (j + k1) - k1
      let d := forLoop (k2 - l0) (fun t d =>
        d + R2 (i + (l0 + t) * n1) * dcomp.conj (V2 (j + (l0 + t) * n2b))) (0 : dcomp)
      wr M (i + kU * (j + k1)) d) M) M

/-- Entry `(i, l)` of `R[:, k1:ksum]` with the reflector entries below the diagonal of `R`
(`i > l + k1`) replaced by zero. -/
def upperR2 (n1 k1 : Nat) (R2 : Nat → dcomp) (i l : Nat) : dcomp :=
  if i > l + k1 then 0 else R2 (i + l * n1)

/-- Entry `(j, l)` of `T2` with the reflector entries below the diagonal (`j > l`) replaced by
zero. -/
def upperT2 (n2b : Nat) (V2 : Nat → dcomp) (j l : Nat) : dcomp :=
  if j > l then 0 else V2 (j + l * n2b)

/-! ## Givens rotations of the FGMRES driver (`src/solvers/FGMRES.cpp`)

The real routines are embedded over an arbitrary ordered field `K` (exact arithmetic) and
take the square root `sqrt` of the C library as a parameter; the complex routines use
`dcomp`. -/

namespace FGMRES_D

/-- The function `genPlRot(double dx, double dy, double& cs, double& sn)`; returns
`(cs, sn)`. -/
def genPlRot {K : Type} [LinearOrderedField K] (sqrt : K → K) (dx dy : K) : K × K :=
  if dy = 0 then (1, 0)
  else if |dy| > |dx| then
    let tmp := dx / dy
    let sn := 1 / sqrt (1 + tmp * tmp)
    let cs := tmp * sn
    (cs, sn)
  else
    let tmp := dy / dx
    let cs := 1 / sqrt (1 + tmp * tmp)
    let sn := tmp * cs
    (cs, sn)

/-- The function `applPlRot(double& dx, double& dy, double cs, double sn)`; returns the new
`(dx, dy)`. -/
def applPlRot {K : Type} [LinearOrderedField K] (dx dy cs sn : K) : K × K :=
  let tmp := cs * dx + sn * dy
  let dy1 := cs * dy - sn * dx
  (tmp, dy1)

/-- The numerator of the ratio `tmp` formed by `genPlRot` when `dy != 0`. -/
def ratioNum {K : Type} [LinearOrderedField K] (dx dy : K) : K :=
  if |dy| > |dx| then dx else dy

/-- The divisor of the ratio `tmp` formed by `genPlRot` when `dy != 0`. -/
def ratioDen {K : Type} [LinearOrderedField K] (dx dy : K) : K :=
  if |dy| > |dx| then dy else dx

end FGMRES_D

namespace FGMRES_Z

/-- Modelled from the spec: `abs2(a)` of the missing header `blas.h`, the squared modulus. -/
def abs2 (a : dcomp) : ℚ := a.re * a.re + a.im * a.im

/-- The function `genPlRot(dcomp a, dcomp b, double& cs, dcomp& sn)`; returns `(cs, sn)`;
`sqrt` is the square root of the C library. -/
def genPlRot (sqrt : ℚ → ℚ) (a b : dcomp) : ℚ × dcomp :=
  if b.re = 0 ∧ b.im = 0 then (1, ⟨0, 0⟩)
  else if a.re = 0 ∧ a.im = 0 then (0, ⟨1, 0⟩)
  else
    let k : ℚ × ℚ :=
      if a.re ≥ a.im then
        let k1 := a.re * b.re - a.im * b.im
        let k1 := k1 / abs2 a
        let k2 := (k1 * a.im - b.im) / a.re
        (k1, k2)
      else
        let k1 := a.re * b.re + a.im * b.im
        let k1 := k1 / abs2 a
        let k2 := (b.re - k1 * a.re) / a.im
        (k1, k2)
    let cs := 1 / sqrt (1 + k.1 * k.1 + k.2 * k.2)
    (cs, ⟨cs * k.1, cs * k.2⟩)

/-- The function `applPlRot(dcomp& a, dcomp& b, double cs, dcomp sn)`; returns the new
`(a, b)`. -/
def applPlRot (a b : dcomp) (cs : ℚ) (sn : dcomp) : dcomp × dcomp :=
  let ra := cs * a.re + sn.re * b.re - sn.im * b.im
  let ia := cs * a.im + sn.re * b.im + sn.im * b.re
  let rb := cs * b.re - sn.re * a.re - sn.im * a.im
  let ib := cs * b.im - sn.re * a.im + sn.im * a.re
  (⟨ra, ia⟩, ⟨rb, ib⟩)

end FGMRES_Z

/-! ## Control flow of the FGMRES driver

The numeric content of a run (matrix product, preconditioner, norms, triangular solve) is
abstracted into the outcomes of the four residual tests and of the `assert` in `update`; the
real and the complex `FGMRes` have the same control flow. -/

/-- What is observed of a run of `FGMRes`: the return value, the value held in `nsteps` on
return, the number of executions of the inner loop body, and for every call
`update(n, k, H, ...)` the pair of `k` and of the number of Arnoldi columns of `H` and `Z`
generated in the current restart cycle at the time of the call. -/
structure FGResult where
  ret : Nat
  nsteps : Nat
  bodies : Nat
  updates : List (Nat × Nat)
deriving DecidableEq

/-- The loop `for (i=0; i<m && j<=nsteps; i++, j++) { ... }` of `FGMRes` entered with `rem`
iterations left before `i = m`.  `convIn j` is the outcome of the test
`fabs(s[i+1]/normb) < eps` in the body run with counter `j`.  Returns whether the body
returned from the function, and the values of `i`, `j` and of the number of bodies executed. -/
def FGMRes_inner (nsteps : Nat) (convIn : Nat → Bool) :
    Nat → Nat → Nat → Nat → Bool × Nat × Nat × Nat
  | 0, i, j, bodies => (false, i, j, bodies)
  | rem + 1, i, j, bodies =>
    if j ≤ nsteps then
      if convIn j then (true, i, j, bodies + 1)
      else FGMRes_inner nsteps convIn rem (i + 1) (j + 1) (bodies + 1)
    else (false, i, j, bodies)

/-- How a run of `FGMRes` ends: by a `return`, or in the `assert(inf==0)` of `update` (the
triangular solve found a singular `H`), in which case the program aborts and nothing is
returned; the number of bodies executed and the calls of `update` made so far are kept. -/
inductive FGOutcome where
  | returned (r : FGResult)
  | aborted (bodies : Nat) (updates : List (Nat × Nat))
deriving DecidableEq

/-- The loop `while (j<=nsteps) { ... }` of `FGMRes` with the statements that follow it;
`fuel` bounds the number of passes and `none` means that the bound was reached.  `convRe j`
is the outcome of the test `beta/normb < eps` after the update that follows the inner loop,
made when the counter is `j`; `updOk c` is the outcome of `inf==0` in the call of `update`
that is preceded by `c` calls. -/
def FGMRes_while (m nsteps : Nat) (convIn convRe updOk : Nat → Bool) :
    Nat → Nat → Nat → List (Nat × Nat) → Option FGOutcome
  | 0, _, _, _ => none
  | fuel + 1, j, bodies, ups =>
    if j ≤ nsteps then
      let r := FGMRes_inner nsteps convIn m 0 j bodies
      if r.1 then
        let ups1 := ups ++ [(r.2.1 + 1, r.2.1 + 1)]
        if updOk ups.length then
          some (FGOutcome.returned
            { ret := 0, nsteps := r.2.2.1, bodies := r.2.2.2, updates := ups1 })
        else some (FGOutcome.aborted r.2.2.2 ups1)
      else
        let ups1 := ups ++ [(m, r.2.1)]
        if updOk ups.length then
          if convRe r.2.2.1 then
            some (FGOutcome.returned
              { ret := 0, nsteps := r.2.2.1, bodies := r.2.2.2, updates := ups1 })
          else FGMRes_while m nsteps convIn convRe updOk fuel r.2.2.1 r.2.2.2 ups1
        else some (FGOutcome.aborted r.2.2.2 ups1)
    else some (FGOutcome.returned
      { ret := 1, nsteps := nsteps, bodies := bodies, updates := ups })

/-- The function `FGMRes(A, b, x, eps, m, nsteps)`: `normbZero` is the outcome of
`normb == 0.0` and `initConv` of the first test `beta/normb <= eps`. -/
def FGMRes (fuel m nsteps : Nat) (normbZero initConv : Bool)
    (convIn convRe updOk : Nat → Bool) : Option FGOutcome :=
  if normbZero then
    some (FGOutcome.returned { ret := 0, nsteps := 0, bodies := 0, updates := [] })
  else if initConv then
    some (FGOutcome.returned { ret := 0, nsteps := 0, bodies := 0, updates := [] })
  else FGMRes_while m nsteps convIn convRe updOk fuel 1 0 []

/-! ## The FGMRES driver with a machine counter

The counter `unsigned j` has `w` bits: `j++` wraps around modulo `2^w`.  The index `i` stays
below `m` and does not wrap. -/

/-- The loop `for (i=0; i<m && j<=nsteps; i++, j++) { ... }` with `j++` modulo `2^w`. -/
def FGMRes_innerU (w nsteps : Nat) (convIn : Nat → Bool) :
    Nat → Nat → Nat → Nat → Bool × Nat × Nat × Nat
  | 0, i, j, bodies => (false, i, j, bodies)
  | rem + 1, i, j, bodies =>
    if j ≤ nsteps then
      if convIn j then (true, i, j, bodies + 1)
      else FGMRes_innerU w nsteps convIn rem (i + 1) ((j + 1) % 2 ^ w) (bodies + 1)
    else (false, i, j, bodies)

/-- The loop `while (j<=nsteps) { ... }` with the statements that follow it, for a counter of
`w` bits; `fuel` bounds the number of passes and `none` means that the bound was reached. -/
def FGMRes_whileU (w m nsteps : Nat) (convIn convRe updOk : Nat → Bool) :
    Nat → Nat → Nat → List (Nat × Nat) → Option FGOutcome
  | 0, _, _, _ => none
  | fuel + 1, j, bodies, ups =>
    if j ≤ nsteps then
      let r := FGMRes_innerU w nsteps convIn m 0 j bodies
      if r.1 then
        let ups1 := ups ++ [(r.2.1 + 1, r.2.1 + 1)]
        if updOk ups.length then
          some (FGOutcome.returned
            { ret := 0, nsteps := r.2.2.1, bodies := r.2.2.2, updates := ups1 })
        else some (FGOutcome.aborted r.2.2.2 ups1)
      else
        let ups1 := ups ++ [(m, r.2.1)]
        if updOk ups.length then
          if convRe r.2.2.1 then
            some (FGOutcome.returned
              { ret := 0, nsteps := r.2.2.1, bodies := r.2.2.2, updates := ups1 })
          else FGMRes_whileU w m nsteps convIn convRe updOk fuel r.2.2.1 r.2.2.2 ups1
        else some (FGOutcome.aborted r.2.2.2 ups1)
    else some (FGOutcome.returned
      { ret := 1, nsteps := nsteps, bodies := bodies, updates := ups })

/-- The function `FGMRes(A, b, x, eps, m, nsteps)` for a counter of `w` bits. -/
def FGMResU (w fuel m nsteps : Nat) (normbZero initConv : Bool)
    (convIn convRe updOk : Nat → Bool) : Option FGOutcome :=
  if normbZero then
    some (FGOutcome.returned { ret := 0, nsteps := 0, bodies := 0, updates := [] })
  else if initConv then
    some (FGOutcome.returned { ret := 0, nsteps := 0, bodies := 0, updates := [] })
  else FGMRes_whileU w m nsteps convIn convRe updOk fuel 1 0 []

/-- What holds of a run that has ended: a returned value is 0 or 1, and the number of bodies
executed is at most `nsteps`. -/
def FGWithinBudget (nsteps : Nat) : FGOutcome → Prop
  | FGOutcome.returned r => (r.ret = 0 ∨ r.ret = 1) ∧ r.bodies ≤ nsteps
  | FGOutcome.aborted bodies _ => bodies ≤ nsteps

/-! ## Transposition of a matrix in compressed row storage

`double` is embedded as `ℚ` and `unsigned` as `Nat`; the arrays `B`, `jB`, `iB` and the
work array `inz` are disjoint from the inputs `A`, `jA`, `iA`, which are only read. -/

/-- Number of indices `l < L` with `jA[l] = c`, i.e. the number of entries in column `c`
among the first `L` stored entries. -/
def colCount (jA : Nat → Nat) (L c : Nat) : Nat :=
  ((Finset.range L).filter (fun l => jA l = c)).card

/-- The first two loops of `CS_transp`: `inz[i] = 0` for `i < n`, then `inz[jA[l]]++` for
`l < nnz = iA[n]`.  The argument `inz` is the content of the freshly allocated array. -/
def CS_count (n : Nat) (jA iA : Nat → Nat) (inz : Nat → Nat) : Nat → Nat :=
  let nnz := iA n
  let inz := forLoop n (fun i inz => wr inz i 0) inz
  forLoop nnz (fun l inz => wr inz (jA l) (inz (jA l) + 1)) inz

/-- The loop that creates `iB`: `iB[0] = nnz = 0;` then for `i < n`:
`nnz += inz[i]; inz[i] = 0; iB[i+1] = nnz;`.  The state is `(nnz, inz, iB)`. -/
def CS_createIB (n : Nat) (inz iB : Nat → Nat) : Nat × (Nat → Nat) × (Nat → Nat) :=
  forLoop n (fun i st =>
    let nnz := st.1 + st.2.1 i
    (nnz, wr st.2.1 i 0, wr st.2.2 (i + 1) nnz)) (0, inz, wr iB 0 0)

/-- State of the loop that creates `jB` and `B`. -/
structure CSfill where
  l : Nat
  inz : Nat → Nat
  B : Nat → ℚ
  jB : Nat → Nat

/-- The body `j = jA[l]; k = iB[j] + inz[j]++; B[k] = A[l++]; jB[k] = i;` of the inner loop
for row `i`. -/
def CS_fillStep (A : Nat → ℚ) (jA iB : Nat → Nat) (i : Nat) (st : CSfill) : CSfill :=
  let j := jA st.l
  let k := iB j + st.inz j
  { l := st.l + 1, inz := wr st.inz j (st.inz j + 1),
    B := wr st.B k (A st.l), jB := wr st.jB k i }

/-- The loop `while (l<iA[i+1]) { j = jA[l]; k = iB[j] + inz[j]++; B[k] = A[l++]; jB[k] = i; }`
for row `i`, with `hi = iA[i+1]`: every pass increases `l` by one and nothing else changes
the loop test, so the body runs `hi - l` times. -/
def CS_fillRow (A : Nat → ℚ) (jA iB : Nat → Nat) (i hi : Nat) (st : CSfill) : CSfill :=
  forLoop (hi - st.l) (fun _ st => CS_fillStep A jA iB i st) st

/-- The function `CS_transp(n, A, jA, iA, B, jB, iB)`; returns the arrays `B`, `jB`, `iB`. -/
def CS_transp (n : Nat) (A : Nat → ℚ) (jA iA : Nat → Nat) (inz : Nat → Nat)
    (B : Nat → ℚ) (jB iB : Nat → Nat) : (Nat → ℚ) × (Nat → Nat) × (Nat → Nat) :=
  let inz := CS_count n jA iA inz
  let p := CS_createIB n inz iB
  let iB := p.2.2
  let st := forLoop n (fun i st => CS_fillRow A jA iB i (iA (i + 1)) st)
    { l := iA 0, inz := p.2.1, B := B, jB := jB }
  (st.B, st.jB, iB)

/-- The slot of row `jA[l]` of the transpose assigned to the stored entry `l`: the start of
the row plus the number of earlier stored entries in the same column. -/
def CS_pos (iB jA : Nat → Nat) (l : Nat) : Nat :=
  iB (jA l) + colCount jA l (jA l)

/-- The state of the fill loop after the stored entries `l < L` have been placed: the
counters hold the number of entries placed per column, and every placed entry sits in its
slot of `B` with its row index in `jB`. -/
def CS_filled (n : Nat) (A : Nat → ℚ) (jA iA iB : Nat → Nat) (st : CSfill) (L : Nat) : Prop :=
  st.l = L
  ∧ (∀ c, c < n → st.inz c = colCount jA L c)
  ∧ (∀ l, l < L → st.B (CS_pos iB jA l) = A l)
  ∧ (∀ i l, i < n → iA i ≤ l → l < iA (i + 1) → l < L → st.jB (CS_pos iB jA l) = i)

/-! ## Round trip between the low-rank and the dense representation -/

namespace dcomp

/-- The conversion of a `double` to `dcomp` in a product `double * dcomp`. -/
def ofReal (x : ℚ) : dcomp := ⟨x, 0⟩

/-- The squared modulus of a complex number. -/
def normSq (a : dcomp) : ℚ := a.re * a.re + a.im * a.im

end dcomp

/-- The buffer `data` built by `convGeM_toLrM` after `setrank(kt)`:
`blas::copy(kt*n1, tmp, data)` followed by the loops
`data[j+n2*l+kt*n1] = S[l] * conj(VT[nmin*j+l])`.  `tmp` holds the left singular vectors
written by `gesvd` over the copy of the matrix (leading dimension `n1`), `S` the singular
values and `VT` the right singular vectors (leading dimension `nmin`). -/
def convGeM_toLrM_data (n1 n2 kt : Nat) (tmp : Nat → dcomp) (S : Nat → ℚ) (VT : Nat → dcomp)
    (data : Nat → dcomp) : Nat → dcomp :=
  let nmin := MIN n1 n2
  let data := copy (kt * n1) tmp 0 data 0
  forLoop kt (fun l data =>
    forLoop n2 (fun j data =>
      wr data (j + n2 * l + kt * n1)
        (dcomp.ofReal (S l) * dcomp.conj (VT (nmin * j + l)))) data) data

namespace mblock

/-- The function `convGeM_toLrM(eps)` with the outputs `tmp`, `S`, `VT` of `gesvd`. -/
def convGeM_toLrM_svd (b : mblock) (eps : ℚ) (tmp : Nat → dcomp) (S : Nat → ℚ)
    (VT : Nat → dcomp) : mblock :=
  let kt := convGeM_toLrM_kt b.n1 b.n2 S eps
  b.convGeM_toLrM eps S (convGeM_toLrM_data b.n1 b.n2 kt tmp S VT (b.setrank kt).data)

end mblock

/-- Squared Frobenius norm of the `n1 x n2` matrix with entries `M i j`. -/
def frobSq (n1 n2 : Nat) (M : Nat → Nat → dcomp) : ℚ :=
  ∑ j ∈ Finset.range n2, ∑ i ∈ Finset.range n1, dcomp.normSq (M i j)

/-! ## Divisions of the complex `genPlRot` -/

namespace FGMRES_Z

/-- The value of `k1` in `genPlRot(dcomp a, dcomp b, ...)` in the branch where neither `a`
nor `b` is zero. -/
def genPlRot_k1 (a b : dcomp) : ℚ :=
  if a.re ≥ a.im then (a.re * b.re - a.im * b.im) / abs2 a
  else (a.re * b.re + a.im * b.im) / abs2 a

/-- The numerator of `k2` in that branch: `k1 * Im(a) - Im(b)` if `Re(a)>=Im(a)`, else
`Re(b) - k1 * Re(a)`. -/
def genPlRot_k2num (a b : dcomp) : ℚ :=
  if a.re ≥ a.im then genPlRot_k1 a b * a.im - b.im else b.re - genPlRot_k1 a b * a.re

/-- The divisor of `k2` in that branch: `Re(a)` if `Re(a)>=Im(a)`, else `Im(a)`. -/
def genPlRot_k2den (a : dcomp) : ℚ :=
  if a.re ≥ a.im then a.re else a.im

end FGMRES_Z

/-! ## The small matrix handed to the SVD by `addtrll` and by `addtrll_rmnd` -/

/-- Modelled from the spec: `blas::utrmmh(m, k, n, A, ldA, B, ldB, C)` of the missing header
`blas.h`, `C := R_A R_B^H` with `R_A` the upper triangle of the leading `m x k` part of `A`,
`R_B` the upper triangle of the leading `n x k` part of `B`, and `C` stored with leading
dimension `m`. -/
def utrmmh (m k n : Nat) (A : Nat → dcomp) (ldA : Nat) (B : Nat → dcomp) (ldB : Nat)
    (C : Nat → dcomp) : Nat → dcomp :=
  forLoop n (fun j C =>
    forLoop m (fun i C =>
      wr C (i + j * m)
        (∑ l ∈ Finset.range k, (if i ≤ l then A (i + l * ldA) else 0)
          * dcomp.conj (if j ≤ l then B (j + l * ldB) else 0))) C) C

/-- Modelled from the spec: `blas::nrm2(n, x)` of the missing header `blas.h`, the Euclidean
norm of `x[0..n)`; `sqrt` is the square root of the C library. -/
def nrm2 (sqrt : ℚ → ℚ) (n : Nat) (x : Nat → dcomp) : ℚ :=
  sqrt (∑ t ∈ Finset.range n, dcomp.normSq (x t))

/-- Modelled from the spec: `abs(z)` of a `dcomp`, the modulus. -/
def dcomp.abs (sqrt : ℚ → ℚ) (z : dcomp) : ℚ := sqrt (dcomp.normSq z)

/-- The matrix `R` computed by `blas::utrmmh(mmin, ksum, nmin, tmp1, n1, tmp2, n2, R)` in
`addtrll` and in `addtrll_rmnd`; `tmp1`, `tmp2` hold the outputs of the two `geqrf` calls
and `R` is the content of the buffer before the call.  `addtrll_rmnd` hands this matrix to
`gesvd`. -/
def addtrll_rmnd_svdInput (n1 n2 bl_rank k : Nat) (tmp1 tmp2 R : Nat → dcomp) : Nat → dcomp :=
  let ksum := bl_rank + k
  let mmin := MIN n1 ksum
  let nmin := MIN n2 ksum
  utrmmh mmin ksum nmin tmp1 n1 tmp2 n2 R

/-- The value `thresh = delta*blas::nrm2(mmin*nmin, R)/sqrt((float)mmin*nmin)` of `addtrll`. -/
def addtrll_thresh (sqrt : ℚ → ℚ) (n1 n2 bl_rank k : Nat) (tmp1 tmp2 : Nat → dcomp)
    (delta : ℚ) (R : Nat → dcomp) : ℚ :=
  let ksum := bl_rank + k
  let mmin := MIN n1 ksum
  let nmin := MIN n2 ksum
  let R := utrmmh mmin ksum nmin tmp1 n1 tmp2 n2 R
  delta * nrm2 sqrt (mmin * nmin) R / sqrt ((mmin : ℚ) * (nmin : ℚ))

/-- The matrix handed to `gesvd` by `addtrll`: the matrix of `utrmmh` after the loops
`if (abs(R[i+j*mmin])<thresh) R[i+j*mmin] = 0.0;`. -/
def addtrll_svdInput (sqrt : ℚ → ℚ) (n1 n2 bl_rank k : Nat) (tmp1 tmp2 : Nat → dcomp)
    (delta : ℚ) (R : Nat → dcomp) : Nat → dcomp :=
  let ksum := bl_rank + k
  let mmin := MIN n1 ksum
  let nmin := MIN n2 ksum
  let thresh := addtrll_thresh sqrt n1 n2 bl_rank k tmp1 tmp2 delta R
  let R := utrmmh mmin ksum nmin tmp1 n1 tmp2 n2 R
  forLoop mmin (fun i R =>
    forLoop nmin (fun j R =>
      if dcomp.abs sqrt (R (i + j * mmin)) < thresh then wr R (i + j * mmin) 0 else R) R) R

/-- Modelled from the spec: the contract of `blas::gesvd(m, n, A, S, VT, ldVT, ...)` of the
missing header `blas.h` with `ldVT = MIN(m, n)`: `A = U diag(S) VT` for the input `A`, the
columns of `U` and the rows of `VT` are orthonormal, and `S` is non-increasing and
non-negative. -/
def gesvdContract (m n : Nat) (A U : Nat → dcomp) (S : Nat → ℚ) (VT : Nat → dcomp) : Prop :=
  (∀ i j, i < m → j < n → A (i + j * m)
      = ∑ l ∈ Finset.range (MIN m n),
          U (i + l * m) * dcomp.ofReal (S l) * VT (MIN m n * j + l))
  ∧ (∀ l p, l < MIN m n → p < MIN m n →
      ∑ i ∈ Finset.range m, U (i + l * m) * dcomp.conj (U (i + p * m))
        = if l = p then 1 else 0)
  ∧ (∀ l p, l < MIN m n → p < MIN m n →
      ∑ j ∈ Finset.range n, VT (MIN m n * j + l) * dcomp.conj (VT (MIN m n * j + p))
        = if l = p then 1 else 0)
  ∧ (∀ l, l + 1 < MIN m n → S (l + 1) ≤ S l)
  ∧ (∀ l, l < MIN m n → 0 ≤ S l)

/-! ## Concrete inputs used to evaluate the model -/

/-- All tag bits cleared: a generic dense block. -/
def infoGeM : mbl_info :=
  { is_LrM := false, is_UtM := false, is_LtM := false, is_HeM := false, is_SyM := false }

/-- Tag bits of a low-rank block. -/
def infoLrM : mbl_info :=
  { is_LrM := true, is_UtM := false, is_LtM := false, is_HeM := false, is_SyM := false }

/-- The dense `2 x 2` identity block (column-major `1, 0, 0, 1`). -/
def blockId2 : mblock :=
  { n1 := 2, n2 := 2, info := infoGeM, bl_rank := 0,
    data := fun i => if i = 0 ∨ i = 3 then 1 else 0 }

/-- Singular values of the `2 x 2` identity: `1, 1`. -/
def svalsId2 : Nat → ℚ := fun i => if i < 2 then 1 else 0

/-- Factors `[U | V]` of the `2 x 2` identity written by `convGeM_toLrM`. -/
def facId2 : Nat → dcomp := fun i => if i = 0 ∨ i = 3 ∨ i = 4 ∨ i = 7 then 1 else 0

/-- A `3 x 3` low-rank block of rank 1 with `U0 = V0 = (1, 0, 0)`. -/
def blockLr3 : mblock :=
  { n1 := 3, n2 := 3, info := infoLrM, bl_rank := 1,
    data := fun i => if i = 0 ∨ i = 3 then 1 else 0 }

/-- One column `(0, 1, 0)` used as increment `U = V`. -/
def colE2 : Nat → dcomp := fun i => if i = 1 then 1 else 0

/-- The matrix `A = [[4,3],[6,3]]`, column-major. -/
def luA : Nat → dcomp := fun i =>
  if i = 0 then 4 else if i = 1 then 6 else if i = 2 then 3 else if i = 3 then 3 else 0

/-- The buffer `data` after `getrf` on `A = [[4,3],[6,3]]` (row 2 is the pivot row):
column-major `6, 2/3, 3, 1`. -/
def luF : Nat → dcomp := fun i =>
  if i = 0 then 6 else if i = 1 then ⟨2 / 3, 0⟩ else if i = 2 then 3 else if i = 3 then 1 else 0

/-- The pivot vector returned by `getrf` on `A = [[4,3],[6,3]]`: `ipiv = (2, 2)`. -/
def luIpiv : Nat → Nat := fun _ => 2

/-- A `3 x 5` low-rank block of rank 1 with `U0 = (1,0,0)` and `V0 = (1,0,0,0,0)`. -/
def blockLr35 : mblock :=
  { n1 := 3, n2 := 5, info := infoLrM, bl_rank := 1,
    data := fun i => if i = 0 ∨ i = 3 then 1 else 0 }

/-- Tag bits of an upper-triangular block (`UtM`, which implies `GeM`). -/
def infoUtM : mbl_info :=
  { is_LrM := false, is_UtM := true, is_LtM := false, is_HeM := false, is_SyM := false }

/-- Tag bits of a Hermitian block (`HeM`, which implies `GeM`). -/
def infoHeM : mbl_info :=
  { is_LrM := false, is_UtM := false, is_LtM := false, is_HeM := true, is_SyM := false }

/-- The `1 x 1` upper-triangular block with the single entry `i`. -/
def blockUtI : mblock :=
  { n1 := 1, n2 := 1, info := infoUtM, bl_rank := 0, data := fun k => if k = 0 then dcomp.I else 0 }

/-- The `1 x 1` block tagged Hermitian whose stored diagonal entry is `i`. -/
def blockHeI : mblock :=
  { n1 := 1, n2 := 1, info := infoHeM, bl_rank := 0, data := fun k => if k = 0 then dcomp.I else 0 }

/-- The `2 x 2` Hermitian block `[[2, 1+i], [1-i, 3]]`, packed upper triangle `2, 1+i, 3`. -/
def blockHe2 : mblock :=
  { n1 := 2, n2 := 2, info := infoHeM, bl_rank := 0,
    data := fun k => if k = 0 then 2 else if k = 1 then ⟨1, 1⟩ else if k = 2 then 3 else 0 }

/-- The vector `(1, 0, 0, ...)`. -/
def vecE1 : Nat → dcomp := fun k => if k = 0 then 1 else 0

/-- The `2 x 2` upper-triangular block `U = [[6,3],[0,1]]`, packed `6, 3, 1`. -/
def blockUt2 : mblock :=
  { n1 := 2, n2 := 2, info := infoUtM, bl_rank := 0,
    data := fun k => if k = 0 then 6 else if k = 1 then 3 else if k = 2 then 1 else 0 }

/-- The `1 x 2` right-hand side `B = (6, 4)`. -/
def rhsRow : Nat → dcomp := fun k => if k = 0 then 6 else if k = 1 then 4 else 0

/-- Tag bits of a lower-triangular block (`LtM`, which implies `GeM`). -/
def infoLtM : mbl_info :=
  { is_LrM := false, is_UtM := false, is_LtM := true, is_HeM := false, is_SyM := false }

/-- The square block of order `n1` tagged `LtM` (after `setLtM()`) whose buffer is `data`. -/
def LtMblock (n1 : Nat) (data : Nat → dcomp) : mblock :=
  { n1 := n1, n2 := n1, info := infoLtM, bl_rank := 0, data := data }

/-- The block `L` of the factorisation of `A = [[4,3],[6,3]]`: stored `1, 2/3, 0`, that is
`ip = [1,0]` and `L = [[1,0],[2/3,1]]`. -/
def blockLt2 : mblock :=
  LtMblock 2 (fun k => if k = 0 then 1 else if k = 1 then ⟨2 / 3, 0⟩ else 0)

/-- The vector `(1, 2)`. -/
def vecX12 : Nat → dcomp := fun k => if k = 0 then 1 else if k = 1 then 2 else 0

/-- Singular values `3, 2, 1/2, 0, ...` used to evaluate the rank selection. -/
def svalsExample : Nat → ℚ := fun i => if i = 0 then 3 else if i = 1 then 2 else
  if i = 2 then 1 / 2 else 0

/-- The `2 x 2` low-rank block of rank 2 holding the factors of the identity, as left by
`convGeM_toLrM` on the dense identity. -/
def blockLr2full : mblock :=
  { n1 := 2, n2 := 2, info := infoLrM, bl_rank := 2, data := facId2 }

/-- The `2 x 2` low-rank block of rank 1 with `U0 = V0 = (1, 0)`. -/
def blockLr2 : mblock :=
  { n1 := 2, n2 := 2, info := infoLrM, bl_rank := 1,
    data := fun i => if i = 0 ∨ i = 2 then 1 else 0 }

/-- Singular values `1, 1/2`. -/
def svalsHalf : Nat → ℚ := fun i => if i = 0 then 1 else if i = 1 then 1 / 2 else 0

/-- Singular values `1, 1e-20`. -/
def svalsTiny : Nat → ℚ := fun i => if i = 0 then 1 else if i = 1 then 1 / 10 ^ 20 else 0

/-- A factored `3 x 2` array `R2` (leading dimension 3) with entries `1, 2, 3, 4, 5, 6`. -/
def facR2 : Nat → dcomp := fun t => ((t + 1 : Nat) : dcomp)

/-- A factored `2 x 2` array `V2` (leading dimension 2) with entries `i, 2i, 3i, 4i`. -/
def facV2 : Nat → dcomp := fun t => ⟨0, (t + 1 : Nat)⟩

/-- Column indices of the stored entries of the 2x2 matrix with rows `(1, 2)` and `(0, 3)`. -/
def crsJA : Nat → Nat := fun l => if l = 0 then 0 else 1

/-- Row pointers of the 2x2 matrix with rows `(1, 2)` and `(0, 3)`. -/
def crsIA : Nat → Nat := fun i => if i = 0 then 0 else if i = 1 then 2 else 3

/-- Stored values of the 2x2 matrix with rows `(1, 2)` and `(0, 3)`. -/
def crsA : Nat → ℚ := fun l => if l = 0 then 1 else if l = 1 then 2 else 3

/-- The `2 x 2` low-rank block of rank 2 with `U = [(1, 0), (0, 1/2)]` and
`V = [(1, 0), (0, 1)]`, i.e. the matrix `diag(1, 1/2)`. -/
def blockLrDiag2 : mblock :=
  { n1 := 2, n2 := 2, info := infoLrM, bl_rank := 2,
    data := fun t => if t = 0 ∨ t = 4 ∨ t = 7 then 1 else if t = 3 then ⟨1 / 2, 0⟩ else 0 }

/-- The `6 x 6` identity in column-major storage. -/
def id6 : Nat → dcomp := fun t => if t < 36 ∧ t / 6 = t % 6 then 1 else 0

/-- Singular values `1, 1/2, 1/2, 0, 0, 0`. -/
def svals6 : Nat → ℚ := fun l => if l = 0 then 1 else if l < 3 then 1 / 2 else 0

/-- The `6 x 6` low-rank block of rank 3 with `U = [e0, e1/2, e2/2]` and `V = [e0, e1, e2]`,
i.e. the matrix `diag(1, 1/2, 1/2, 0, 0, 0)`; it satisfies `r (n1 + n2) <= n1 n2`. -/
def blockLr6 : mblock :=
  { n1 := 6, n2 := 6, info := infoLrM, bl_rank := 3,
    data := fun t => if t = 0 ∨ t = 18 ∨ t = 25 ∨ t = 32 then 1
      else if t = 7 ∨ t = 14 then ⟨1 / 2, 0⟩ else 0 }

/-- Output of `geqrf` for the factor `[U0 | U]` with columns `(1, 0)` and `(1/7, 1)`
(leading dimension 2): the factor is upper triangular already. -/
def qrU21 : Nat → dcomp :=
  fun t => if t = 0 ∨ t = 3 then 1 else if t = 2 then ⟨1 / 7, 0⟩ else 0

/-- Output of `geqrf` for the factor `[V0 | V]` with columns `(625/7, 0)` and `(12, 84)`
(leading dimension 2). -/
def qrV21 : Nat → dcomp :=
  fun t => if t = 0 then ⟨625 / 7, 0⟩ else if t = 2 then 12 else if t = 3 then 84 else 0

/-- Singular values `91, 84` of `diag(91, 84)`. -/
def svalsThr : Nat → ℚ := fun l => if l = 0 then 91 else if l = 1 then 84 else 0

/-- Singular values `100, 75` of the matrix with rows `(91, 12)` and `(12, 84)`. -/
def svalsRaw : Nat → ℚ := fun l => if l = 0 then 100 else if l = 1 then 75 else 0

/-- The rotation with columns `(4/5, 3/5)` and `(-3/5, 4/5)` (leading dimension 2). -/
def rotQ : Nat → dcomp :=
  fun t => if t = 0 ∨ t = 3 then ⟨4 / 5, 0⟩ else if t = 1 then ⟨3 / 5, 0⟩
    else if t = 2 then ⟨-(3 / 5), 0⟩ else 0

/-- The transpose of `rotQ` (leading dimension 2). -/
def rotQT : Nat → dcomp :=
  fun t => if t = 0 ∨ t = 3 then ⟨4 / 5, 0⟩ else if t = 1 then ⟨-(3 / 5), 0⟩
    else if t = 2 then ⟨3 / 5, 0⟩ else 0

/-- A `65536 x 65536` low-rank block of rank 1 with `U0 = V0 = e0`; `n1*n2 = 2^32`. -/
def blockLrBig : mblock :=
  { n1 := 65536, n2 := 65536, info := infoLrM, bl_rank := 1,
    data := fun i => if i = 0 ∨ i = 65536 then 1 else 0 }

/-! ## Lemmas on the rank selection -/

theorem MIN_eq_min (a b : Nat) : MIN a b = min a b := by
  unfold MIN
  split <;> omega

theorem MAX_eq_max (a b : Nat) : MAX a b = max a b := by
  unfold MAX
  split <;> omega

theorem truncWhile_le (S : Nat → ℚ) (delta : ℚ) (c : Nat) : truncWhile S delta c ≤ c := by
  induction c with
  | zero => simp [truncWhile]
  | succ c ih =>
    unfold truncWhile
    split
    · omega
    · exact le_refl _

theorem truncWhile_spec (S : Nat → ℚ) (delta : ℚ) (c : Nat) :
    truncWhile S delta c = 0 ∨
      (S (truncWhile S delta c - 1) > delta * S 0 ∧ S (truncWhile S delta c - 1) ≥ EPS0) := by
  induction c with
  | zero => left; simp [truncWhile]
  | succ c ih =>
    unfold truncWhile
    split
    · exact ih
    · rename_i h
      right
      push_neg at h
      simpa using h

theorem truncWhile_max (S : Nat → ℚ) (delta : ℚ) (c k : Nat)
    (h1 : truncWhile S delta c < k) (h2 : k ≤ c) :
    ¬ (k = 0 ∨ (S (k - 1) > delta * S 0 ∧ S (k - 1) ≥ EPS0)) := by
  induction c with
  | zero => omega
  | succ c ih =>
    unfold truncWhile at h1
    split at h1
    · rename_i h
      rcases Nat.lt_or_ge c k with hk | hk
      · have hkc : k = c + 1 := by omega
        subst hkc
        rintro (h0 | ⟨ha, hb⟩)
        · omega
        · simp only [Nat.add_sub_cancel] at ha hb
          rcases h with h | h
          · exact absurd ha (not_lt.mpr h)
          · exact absurd hb (not_le.mpr h)
      · exact ih h1 hk
    · omega

theorem truncWhile_floor (S : Nat → ℚ) (delta : ℚ) (c : Nat)
    (hmono : ∀ i j, i ≤ j → j < c → S j ≤ S i) :
    ∀ j, j < truncWhile S delta c → S j ≥ EPS0 := by
  intro j hj
  have hle := truncWhile_le S delta c
  rcases truncWhile_spec S delta c with h0 | ⟨_, hb⟩
  · omega
  · have := hmono j (truncWhile S delta c - 1) (by omega) (by omega)
    exact le_trans hb this


/-! ## Lemmas on loops and memory -/

@[simp] theorem forLoop_zero {σ : Type} (body : Nat → σ → σ) (s : σ) : forLoop 0 body s = s := rfl

theorem forLoop_succ {σ : Type} (n : Nat) (body : Nat → σ → σ) (s : σ) :
    forLoop (n + 1) body s = body n (forLoop n body s) := rfl

@[simp] theorem wr_same {α : Type} (mem : Nat → α) (a : Nat) (v : α) : wr mem a v a = v := by
  simp [wr]

theorem wr_other {α : Type} (mem : Nat → α) (a : Nat) (v : α) (i : Nat) (h : i ≠ a) :
    wr mem a v i = mem i := by
  simp [wr, h]

theorem copy_apply {α : Type} (n : Nat) (x : Nat → α) (xo : Nat) (y : Nat → α) (yo t : Nat) :
    copy n x xo y yo t = if yo ≤ t ∧ t < yo + n then x (xo + (t - yo)) else y t := by
  induction n with
  | zero =>
    have : ¬ (yo ≤ t ∧ t < yo + 0) := by omega
    rw [if_neg this]
    rfl
  | succ n ih =>
    have hstep : copy (n + 1) x xo y yo = wr (copy n x xo y yo) (yo + n) (x (xo + n)) := rfl
    rw [hstep]
    by_cases ht : t = yo + n
    · subst ht
      have : yo ≤ yo + n ∧ yo + n < yo + (n + 1) := by omega
      simp [this]
    · rw [wr_other _ _ _ _ ht, ih]
      by_cases h1 : yo ≤ t ∧ t < yo + n
      · have h2 : yo ≤ t ∧ t < yo + (n + 1) := by omega
        simp [h1, h2]
      · have h2 : ¬ (yo ≤ t ∧ t < yo + (n + 1)) := by omega
        simp [h1, h2]

/-- Column-wise copies `for (i=0; i<k; ++i) copy(n, X+i*ldX, tmp+base+i*n)`: entries written. -/
theorem copyCols_inside {α : Type} (k n : Nat) (X : Nat → α) (ldX : Nat) (tmp : Nat → α)
    (base l i : Nat) (hl : l < k) (hi : i < n) :
    forLoop k (fun c tmp => copy n X (c * ldX) tmp (base + c * n)) tmp (base + l * n + i)
      = X (l * ldX + i) := by
  induction k with
  | zero => omega
  | succ k ih =>
    rw [forLoop_succ, copy_apply]
    rcases Nat.lt_or_ge l k with hlk | hlk
    · have hmul : (l + 1) * n ≤ k * n := Nat.mul_le_mul_right n hlk
      rw [Nat.add_mul] at hmul
      have hnot : ¬ (base + k * n ≤ base + l * n + i ∧ base + l * n + i < base + k * n + n) := by
        omega
      rw [if_neg hnot]
      exact ih hlk
    · have hlk2 : l = k := by omega
      subst hlk2
      have hin : base + l * n ≤ base + l * n + i ∧ base + l * n + i < base + l * n + n := by
        omega
      rw [if_pos hin]
      congr 1
      omega

/-- Column-wise copies leave everything outside `[base, base + k*n)` untouched. -/
theorem copyCols_outside {α : Type} (k n : Nat) (X : Nat → α) (ldX : Nat) (tmp : Nat → α)
    (base t : Nat) (ht : t < base ∨ base + k * n ≤ t) :
    forLoop k (fun c tmp => copy n X (c * ldX) tmp (base + c * n)) tmp t = tmp t := by
  induction k with
  | zero => rfl
  | succ k ih =>
    rw [forLoop_succ, copy_apply]
    rw [Nat.add_mul] at ht
    have hnot : ¬ (base + k * n ≤ t ∧ t < base + k * n + n) := by omega
    rw [if_neg hnot]
    exact ih (by omega)

/-! ## Lemmas on the tag and rank transitions -/

namespace mblock

theorem addtrll_n1 (b : mblock) (k : Nat) (delta : ℚ) (kgoal : Nat)
    (haar : Option (Nat × (Nat → dcomp))) (S : Nat → ℚ) (fac : Nat → dcomp) :
    (b.addtrll k delta kgoal haar S fac).n1 = b.n1 := by
  unfold addtrll
  split
  · split
    · dsimp only
      split <;> rfl
    · rfl
  · rfl

theorem addtrll_n2 (b : mblock) (k : Nat) (delta : ℚ) (kgoal : Nat)
    (haar : Option (Nat × (Nat → dcomp))) (S : Nat → ℚ) (fac : Nat → dcomp) :
    (b.addtrll k delta kgoal haar S fac).n2 = b.n2 := by
  unfold addtrll
  split
  · split
    · dsimp only
      split <;> rfl
    · rfl
  · rfl

theorem addtrll_isLrM (b : mblock) (hb : b.isLrM = true) (k : Nat) (delta : ℚ) (kgoal : Nat)
    (haar : Option (Nat × (Nat → dcomp))) (S : Nat → ℚ) (fac : Nat → dcomp) :
    (b.addtrll k delta kgoal haar S fac).isLrM = true := by
  unfold addtrll
  split
  · split
    · dsimp only
      split
      · rfl
      · exact hb
    · exact hb
  · exact hb

theorem addtrll_rmnd_n1 (b : mblock) (k : Nat) (delta : ℚ) (kgoal : Nat) (S : Nat → ℚ)
    (fac : Nat → dcomp) : (b.addtrll_rmnd k delta kgoal S fac).1.n1 = b.n1 := by
  unfold addtrll_rmnd
  split
  · dsimp only
    split <;> rfl
  · rfl

theorem addtrll_rmnd_n2 (b : mblock) (k : Nat) (delta : ℚ) (kgoal : Nat) (S : Nat → ℚ)
    (fac : Nat → dcomp) : (b.addtrll_rmnd k delta kgoal S fac).1.n2 = b.n2 := by
  unfold addtrll_rmnd
  split
  · dsimp only
    split <;> rfl
  · rfl

theorem addtrll_rmnd_isLrM (b : mblock) (hb : b.isLrM = true) (k : Nat) (delta : ℚ)
    (kgoal : Nat) (S : Nat → ℚ) (fac : Nat → dcomp) :
    (b.addtrll_rmnd k delta kgoal S fac).1.isLrM = true := by
  unfold addtrll_rmnd
  split
  · dsimp only
    split
    · rfl
    · exact hb
  · exact hb

theorem convLrM_toGeM_isGeM (b : mblock) : b.convLrM_toGeM.isGeM = true := by
  unfold convLrM_toGeM
  split <;> rfl

/-- Without overflow the `unsigned` test `bl_rank*(n1+n2)>n1*n2` is the comparison of the
integers. -/
theorem u32_test_iff (r n1 n2 : Nat) (h1 : n1 * n2 < 2 ^ 32) (h2 : r * (n1 + n2) < 2 ^ 32) :
    u32 (r * u32 (n1 + n2)) > u32 (n1 * n2) ↔ r * (n1 + n2) > n1 * n2 := by
  have e1 : u32 (n1 * n2) = n1 * n2 := Nat.mod_eq_of_lt h1
  have e2 : u32 (r * u32 (n1 + n2)) = r * (n1 + n2) := by
    rcases Nat.eq_zero_or_pos r with h0 | hpos
    · rw [h0, Nat.zero_mul, Nat.zero_mul]
      rfl
    · have hle : n1 + n2 ≤ r * (n1 + n2) := Nat.le_mul_of_pos_left _ hpos
      have e3 : u32 (n1 + n2) = n1 + n2 := Nat.mod_eq_of_lt (by omega)
      rw [e3]
      exact Nat.mod_eq_of_lt h2
  rw [e1, e2]

/-- Tag and rank after the test `if (bl_rank*(n1+n2)>n1*n2) convLrM_toGeM();` applied to a
low-rank block, when the products do not overflow. -/
theorem promote_rule (b1 : mblock) (h1 : b1.isLrM = true) (ho1 : b1.n1 * b1.n2 < 2 ^ 32)
    (ho2 : b1.bl_rank * (b1.n1 + b1.n2) < 2 ^ 32) :
    let out := if u32 (b1.bl_rank * u32 (b1.n1 + b1.n2)) > u32 (b1.n1 * b1.n2)
      then b1.convLrM_toGeM else b1
    (out.isGeM = true ↔ b1.bl_rank * (b1.n1 + b1.n2) > b1.n1 * b1.n2) ∧
    (¬ b1.bl_rank * (b1.n1 + b1.n2) > b1.n1 * b1.n2 →
      out.isLrM = true ∧ out.bl_rank = b1.bl_rank) := by
  intro out
  have ht := u32_test_iff b1.bl_rank b1.n1 b1.n2 ho1 ho2
  by_cases h : b1.bl_rank * (b1.n1 + b1.n2) > b1.n1 * b1.n2
  · have hout : out = b1.convLrM_toGeM := if_pos (ht.mpr h)
    rw [hout]
    exact ⟨⟨fun _ => h, fun _ => convLrM_toGeM_isGeM b1⟩, fun hn => absurd h hn⟩
  · have hout : out = b1 := if_neg (fun hc => h (ht.mp hc))
    rw [hout]
    refine ⟨⟨fun hg => ?_, fun hh => absurd hh h⟩, fun _ => ⟨h1, rfl⟩⟩
    have : b1.info.is_LrM = true := h1
    simp [isGeM, this] at hg

end mblock

/-! ## Rank selection (C1) -/

/-- C1: in every plain-SVD truncation the chosen rank `kt` is the largest value in
`[0, min(len, k_goal)]` with `kt = 0` or (`S[kt-1] > delta*S[0]` and `S[kt-1] >= 1e-64`);
hence `kt <= k_goal`, `kt = 0` or `S[kt-1] > delta*S[0]`, and for non-increasing `S` every
retained singular value is `>= 1e-64`.  The rank selections of `addtrll`, `addtrll_rmnd`,
`addGeM`, `unify_cols`, `unify_rows` and `convGeM_toLrM` (cap `nmin`) are instances of it. -/
theorem rank_selection_largest_admissible (S : Nat → ℚ) (delta : ℚ) (len k_goal : Nat) :
    (truncWhile S delta (MIN len k_goal) ≤ min len k_goal
      ∧ (truncWhile S delta (MIN len k_goal) = 0 ∨
          (S (truncWhile S delta (MIN len k_goal) - 1) > delta * S 0 ∧
           S (truncWhile S delta (MIN len k_goal) - 1) ≥ 1 / 10 ^ 64))
      ∧ (∀ k, truncWhile S delta (MIN len k_goal) < k → k ≤ min len k_goal →
          ¬ (k = 0 ∨ (S (k - 1) > delta * S 0 ∧ S (k - 1) ≥ 1 / 10 ^ 64)))
      ∧ truncWhile S delta (MIN len k_goal) ≤ k_goal
      ∧ (truncWhile S delta (MIN len k_goal) = 0 ∨
          S (truncWhile S delta (MIN len k_goal) - 1) > delta * S 0)
      ∧ ((∀ i j, i ≤ j → j < len → S j ≤ S i) →
          ∀ j, j < truncWhile S delta (MIN len k_goal) → S j ≥ 1 / 10 ^ 64))
    ∧ (∀ n1 n2 bl_rank k, addtrll_kt n1 n2 bl_rank k S delta k_goal =
        truncWhile S delta (MIN (min (min n1 (bl_rank + k)) (min n2 (bl_rank + k))) k_goal))
    ∧ (∀ n1 n2 bl_rank k, addtrll_rmnd_kt n1 n2 bl_rank k S delta k_goal =
        truncWhile S delta (MIN (min (min n1 (bl_rank + k)) (min n2 (bl_rank + k))) k_goal))
    ∧ (∀ n1 n2, addGeM_kt n1 n2 S delta k_goal =
        truncWhile S delta (MIN (min n1 n2) k_goal))
    ∧ (∀ n1 k1 k2, unify_cols_LrMLrM_kt n1 k1 k2 S delta k_goal =
        truncWhile S delta (MIN (min n1 (k1 + k2)) k_goal))
    ∧ (∀ n2 k1 k2, unify_rows_LrMLrM_kt n2 k1 k2 S delta k_goal =
        truncWhile S delta (MIN (min n2 (k1 + k2)) k_goal))
    ∧ (∀ n1 n2, unify_dense_kt n1 n2 S delta k_goal =
        truncWhile S delta (MIN (min n1 n2) k_goal))
    ∧ (∀ n1 n2, convGeM_toLrM_kt n1 n2 S delta =
        truncWhile S delta (MIN (min n1 n2) (min n1 n2))) := by
  have hE : (1 : ℚ) / 10 ^ 64 = EPS0 := rfl
  rw [hE]
  refine ⟨⟨?_, ?_, ?_, ?_, ?_, ?_⟩, ?_, ?_, ?_, ?_, ?_, ?_, ?_⟩
  · rw [← MIN_eq_min]
    exact truncWhile_le S delta _
  · exact truncWhile_spec S delta _
  · intro k h1 h2
    rw [← MIN_eq_min] at h2
    exact truncWhile_max S delta _ k h1 h2
  · have h1 := truncWhile_le S delta (MIN len k_goal)
    have h2 := MIN_eq_min len k_goal
    omega
  · rcases truncWhile_spec S delta (MIN len k_goal) with h | h
    · exact Or.inl h
    · exact Or.inr h.1
  · intro hmono
    apply truncWhile_floor
    intro i j hij hj
    rw [MIN_eq_min] at hj
    exact hmono i j hij (by omega)
  · intro n1 n2 r k
    simp only [addtrll_kt, MIN_eq_min]
  · intro n1 n2 r k
    simp only [addtrll_rmnd_kt, MIN_eq_min]
  · intro n1 n2
    simp only [addGeM_kt, MIN_eq_min]
  · intro n1 k1 k2
    simp only [unify_cols_LrMLrM_kt, MIN_eq_min]
  · intro n2 k1 k2
    simp only [unify_rows_LrMLrM_kt, MIN_eq_min]
  · intro n1 n2
    simp only [unify_dense_kt, MIN_eq_min]
  · intro n1 n2
    simp only [convGeM_toLrM_kt, MIN_eq_min, min_self]

/-- C1 evaluated: with `S = (3, 2, 1/2, 0)`, `delta = 1/2` and cap `k_goal = 3` the selected
rank is 2. -/
theorem rank_selection_largest_admissible_witness :
    truncWhile svalsExample (1 / 2) (MIN 4 3) = 2 ∧
    truncWhile svalsExample (1 / 2) (MIN 4 3) ≤ 3 ∧
    (∀ j, j < truncWhile svalsExample (1 / 2) (MIN 4 3) → svalsExample j ≥ 1 / 10 ^ 64) := by
  have h := (rank_selection_largest_admissible svalsExample (1 / 2) 4 3).1
  refine ⟨?_, h.2.2.2.1, h.2.2.2.2.2 ?_⟩
  · simp [truncWhile, MIN, svalsExample, EPS0]
    norm_num
  · intro i j hij hj
    have hi : i = 0 ∨ i = 1 ∨ i = 2 ∨ i = 3 := by omega
    have hj2 : j = 0 ∨ j = 1 ∨ j = 2 ∨ j = 3 := by omega
    rcases hi with rfl | rfl | rfl | rfl <;> rcases hj2 with rfl | rfl | rfl | rfl <;>
      first
        | omega
        | (simp [svalsExample]; try norm_num)

/-! ## Memory-saving invariant (C2) -/

/-- C2 refuted at a concrete input: `convGeM_toLrM` applied to the dense `2 x 2` identity
(singular values `1, 1`) leaves the block tagged low-rank with rank 2, and
`2 * (2 + 2) = 8 > 4 = 2 * 2`. -/
theorem memory_invariant_fails_convGeM_toLrM :
    (blockId2.convGeM_toLrM (1 / 10) svalsId2 facId2).isLrM = true ∧
    (blockId2.convGeM_toLrM (1 / 10) svalsId2 facId2).bl_rank = 2 ∧
    ¬ ((blockId2.convGeM_toLrM (1 / 10) svalsId2 facId2).bl_rank *
        ((blockId2.convGeM_toLrM (1 / 10) svalsId2 facId2).n1 +
          (blockId2.convGeM_toLrM (1 / 10) svalsId2 facId2).n2) ≤
        (blockId2.convGeM_toLrM (1 / 10) svalsId2 facId2).n1 *
          (blockId2.convGeM_toLrM (1 / 10) svalsId2 facId2).n2) := by
  have hk : convGeM_toLrM_kt 2 2 svalsId2 (1 / 10) = 2 := by
    simp [convGeM_toLrM_kt, truncWhile, MIN, svalsId2, EPS0]
    norm_num
  refine ⟨rfl, ?_, ?_⟩
  · simpa [mblock.convGeM_toLrM, mblock.setrank, blockId2] using hk
  · have h2 : (blockId2.convGeM_toLrM (1 / 10) svalsId2 facId2).bl_rank = 2 := by
      simpa [mblock.convGeM_toLrM, mblock.setrank, blockId2] using hk
    rw [h2]
    decide

theorem mul_le_of_cap (r c a m : Nat) (h1 : r ≤ c) (h2 : c * a ≤ m) : r * a ≤ m :=
  le_trans (Nat.mul_le_mul_right a h1) h2

/-- C2 (amended): the truncating operations bound the rank by the cap of the rank selection
only.  After `convGeM_toLrM` the block is low-rank with `r <= min(n1, n2)`; after `addtrll`
and `addtrll_rmnd` (with `k > 0`), `addGeM` on a low-rank block, `unify_cols` and `unify_rows`
in the plain-SVD branch `r <= k_goal`; hence `r*(n1+n2) <= n1*n2` holds after them whenever
`k_goal*(n1+n2) <= n1*n2`. -/
theorem truncation_rank_within_cap (b : mblock) (S : Nat → ℚ) (delta : ℚ) (k_goal : Nat)
    (fac : Nat → dcomp) :
    ((b.convGeM_toLrM delta S fac).isLrM = true ∧
      (b.convGeM_toLrM delta S fac).bl_rank ≤ min b.n1 b.n2)
    ∧ (∀ k, k > 0 →
        (b.addtrll k delta k_goal none S fac).bl_rank ≤ k_goal ∧
        (k_goal * (b.n1 + b.n2) ≤ b.n1 * b.n2 →
          (b.addtrll k delta k_goal none S fac).bl_rank * (b.n1 + b.n2) ≤ b.n1 * b.n2))
    ∧ (∀ k, k > 0 →
        (b.addtrll_rmnd k delta k_goal S fac).1.bl_rank ≤ k_goal ∧
        (k_goal * (b.n1 + b.n2) ≤ b.n1 * b.n2 →
          (b.addtrll_rmnd k delta k_goal S fac).1.bl_rank * (b.n1 + b.n2) ≤ b.n1 * b.n2))
    ∧ (∀ A ldA, b.isLrM = true →
        (b.addGeM A ldA delta k_goal none S fac).bl_rank ≤ k_goal ∧
        (k_goal * (b.n1 + b.n2) ≤ b.n1 * b.n2 →
          (b.addGeM A ldA delta k_goal none S fac).bl_rank * (b.n1 + b.n2) ≤ b.n1 * b.n2))
    ∧ (∀ mbl1 mbl2,
        (b.unify_cols delta k_goal mbl1 mbl2 none S fac).bl_rank ≤ k_goal ∧
        (k_goal * (b.n1 + b.n2) ≤ b.n1 * b.n2 →
          (b.unify_cols delta k_goal mbl1 mbl2 none S fac).bl_rank * (b.n1 + b.n2)
            ≤ b.n1 * b.n2))
    ∧ (∀ mbl1 mbl2,
        (b.unify_rows delta k_goal mbl1 mbl2 none S fac).bl_rank ≤ k_goal ∧
        (k_goal * (b.n1 + b.n2) ≤ b.n1 * b.n2 →
          (b.unify_rows delta k_goal mbl1 mbl2 none S fac).bl_rank * (b.n1 + b.n2)
            ≤ b.n1 * b.n2)) := by
  have hcap : ∀ c, truncWhile S delta (MIN c k_goal) ≤ k_goal := by
    intro c
    have h1 := truncWhile_le S delta (MIN c k_goal)
    have h2 := MIN_eq_min c k_goal
    omega
  refine ⟨⟨rfl, ?_⟩, ?_, ?_, ?_, ?_, ?_⟩
  · have h1 := truncWhile_le S delta (MIN b.n1 b.n2)
    have h2 := MIN_eq_min b.n1 b.n2
    show truncWhile S delta (MIN b.n1 b.n2) ≤ min b.n1 b.n2
    omega
  · intro k hk
    have hr : (b.addtrll k delta k_goal none S fac).bl_rank ≤ k_goal := by
      unfold mblock.addtrll
      rw [if_pos hk]
      dsimp only
      split
      · exact hcap _
      · exact Nat.zero_le _
    exact ⟨hr, fun h => mul_le_of_cap _ _ _ _ hr h⟩
  · intro k hk
    have hr : (b.addtrll_rmnd k delta k_goal S fac).1.bl_rank ≤ k_goal := by
      unfold mblock.addtrll_rmnd
      rw [if_pos hk]
      dsimp only
      split
      · exact hcap _
      · exact Nat.zero_le _
    exact ⟨hr, fun h => mul_le_of_cap _ _ _ _ hr h⟩
  · intro A ldA hb
    have hr : (b.addGeM A ldA delta k_goal none S fac).bl_rank ≤ k_goal := by
      unfold mblock.addGeM
      rw [if_pos hb]
      dsimp only
      split
      · exact hcap _
      · exact Nat.zero_le _
    exact ⟨hr, fun h => mul_le_of_cap _ _ _ _ hr h⟩
  · intro mbl1 mbl2
    have hr : (b.unify_cols delta k_goal mbl1 mbl2 none S fac).bl_rank ≤ k_goal := by
      unfold mblock.unify_cols
      split
      · unfold mblock.unify_cols_LrMLrM
        dsimp only
        split
        · split <;> exact hcap _
        · exact Nat.zero_le _
      · dsimp only
        split <;> exact hcap _
    exact ⟨hr, fun h => mul_le_of_cap _ _ _ _ hr h⟩
  · intro mbl1 mbl2
    have hr : (b.unify_rows delta k_goal mbl1 mbl2 none S fac).bl_rank ≤ k_goal := by
      unfold mblock.unify_rows
      dsimp only
      split
      · unfold mblock.unify_rows_LrMLrM
        dsimp only
        split
        · split <;> exact hcap _
        · exact Nat.zero_le _
      · split <;> exact hcap _
    exact ⟨hr, fun h => mul_le_of_cap _ _ _ _ hr h⟩

/-- C2 (amended) evaluated on the `3 x 3` rank-1 block with an increment of rank 1 and cap
`k_goal = 1`: the rank after `addtrll` is at most 1 and `r * 6 <= 9`. -/
theorem truncation_rank_within_cap_witness :
    (blockLr3.addtrll 1 (1 / 10) 1 none svalsId2 facId2).bl_rank ≤ 1 ∧
    (blockLr3.addtrll 1 (1 / 10) 1 none svalsId2 facId2).bl_rank * (blockLr3.n1 + blockLr3.n2)
      ≤ blockLr3.n1 * blockLr3.n2 := by
  have h := (truncation_rank_within_cap blockLr3 svalsId2 (1 / 10) 1 facId2).2.1 1 (by decide)
  exact ⟨h.1, h.2 (by decide)⟩

/-! ## Promotion rule of the accumulators (C3) -/

namespace mblock

theorem append_bl_rank (b : mblock) (k : Nat) (U : Nat → dcomp) (ldU : Nat) (V : Nat → dcomp)
    (ldV : Nat) : (b.append k U ldU V ldV).bl_rank = b.bl_rank + k := rfl

theorem append_n1 (b : mblock) (k : Nat) (U : Nat → dcomp) (ldU : Nat) (V : Nat → dcomp)
    (ldV : Nat) : (b.append k U ldU V ldV).n1 = b.n1 := rfl

theorem append_n2 (b : mblock) (k : Nat) (U : Nat → dcomp) (ldU : Nat) (V : Nat → dcomp)
    (ldV : Nat) : (b.append k U ldU V ldV).n2 = b.n2 := rfl

theorem append_isLrM (b : mblock) (k : Nat) (U : Nat → dcomp) (ldU : Nat) (V : Nat → dcomp)
    (ldV : Nat) : (b.append k U ldU V ldV).isLrM = b.isLrM := rfl

/-- The buffer written by `append`, as the four successive copies. -/
theorem append_data (b : mblock) (k : Nat) (U : Nat → dcomp) (ldU : Nat) (V : Nat → dcomp)
    (ldV : Nat) :
    (b.append k U ldU V ldV).data =
      forLoop k (fun i tmp =>
          copy b.n2 V (i * ldV) tmp ((b.bl_rank + k) * b.n1 + b.bl_rank * b.n2 + i * b.n2))
        (copy (b.bl_rank * b.n2) b.data (b.bl_rank * b.n1)
          (forLoop k (fun i tmp => copy b.n1 U (i * ldU) tmp (b.bl_rank * b.n1 + i * b.n1))
            (copy (b.bl_rank * b.n1) b.data 0 (fun _ => 0) 0))
          ((b.bl_rank + k) * b.n1)) := rfl

/-- Old columns of `U0` stay in place after `append`. -/
theorem append_U0 (b : mblock) (k : Nat) (U : Nat → dcomp) (ldU : Nat) (V : Nat → dcomp)
    (ldV l i : Nat) (hl : l < b.bl_rank) (hi : i < b.n1) :
    (b.append k U ldU V ldV).data (l * b.n1 + i) = b.data (l * b.n1 + i) := by
  have h1 : (l + 1) * b.n1 ≤ b.bl_rank * b.n1 := Nat.mul_le_mul_right _ hl
  rw [Nat.add_mul] at h1
  rw [append_data, copyCols_outside _ _ _ _ _ _ _ (Or.inl (by rw [Nat.add_mul]; omega)),
    copy_apply, if_neg (by rw [Nat.add_mul]; omega),
    copyCols_outside _ _ _ _ _ _ _ (Or.inl (by omega)), copy_apply, if_pos (by omega)]
  congr 1
  omega

/-- The columns of `U` follow the columns of `U0` after `append`. -/
theorem append_U (b : mblock) (k : Nat) (U : Nat → dcomp) (ldU : Nat) (V : Nat → dcomp)
    (ldV l i : Nat) (hl : l < k) (hi : i < b.n1) :
    (b.append k U ldU V ldV).data ((b.bl_rank + l) * b.n1 + i) = U (l * ldU + i) := by
  have h1 : (l + 1) * b.n1 ≤ k * b.n1 := Nat.mul_le_mul_right _ hl
  rw [Nat.add_mul] at h1
  have e1 : (b.bl_rank + l) * b.n1 + i = b.bl_rank * b.n1 + l * b.n1 + i := by
    rw [Nat.add_mul]
  rw [append_data, copyCols_outside _ _ _ _ _ _ _ (Or.inl (by simp only [Nat.add_mul]; omega)),
    copy_apply, if_neg (by simp only [Nat.add_mul]; omega), e1,
    copyCols_inside _ _ _ _ _ _ _ _ hl hi]

/-- Old columns of `V0` are moved behind the enlarged left factor by `append`. -/
theorem append_V0 (b : mblock) (k : Nat) (U : Nat → dcomp) (ldU : Nat) (V : Nat → dcomp)
    (ldV l j : Nat) (hl : l < b.bl_rank) (hj : j < b.n2) :
    (b.append k U ldU V ldV).data ((b.bl_rank + k) * b.n1 + l * b.n2 + j)
      = b.data (b.bl_rank * b.n1 + l * b.n2 + j) := by
  have h1 : (l + 1) * b.n2 ≤ b.bl_rank * b.n2 := Nat.mul_le_mul_right _ hl
  rw [Nat.add_mul] at h1
  rw [append_data, copyCols_outside _ _ _ _ _ _ _ (Or.inl (by omega)),
    copy_apply, if_pos (by omega)]
  congr 1
  omega

/-- The columns of `V` follow the columns of `V0` after `append`. -/
theorem append_V (b : mblock) (k : Nat) (U : Nat → dcomp) (ldU : Nat) (V : Nat → dcomp)
    (ldV l j : Nat) (hl : l < k) (hj : j < b.n2) :
    (b.append k U ldU V ldV).data ((b.bl_rank + k) * b.n1 + (b.bl_rank + l) * b.n2 + j)
      = V (l * ldV + j) := by
  have e1 : (b.bl_rank + k) * b.n1 + (b.bl_rank + l) * b.n2 + j
      = ((b.bl_rank + k) * b.n1 + b.bl_rank * b.n2) + l * b.n2 + j := by
    rw [Nat.add_mul b.bl_rank l]
    omega
  rw [append_data, e1, copyCols_inside _ _ _ _ _ _ _ _ hl hj]

theorem addLrM_toGeM_isGeM (b : mblock) (k : Nat) (U : Nat → dcomp) (ldU : Nat)
    (V : Nat → dcomp) (ldV : Nat) : (b.addLrM_toGeM k U ldU V ldV).isGeM = b.isGeM := rfl

end mblock

/-- C3: applied to a low-rank block, without `unsigned` overflow in the products `n1*n2` and
`r'*(n1+n2)`, `addLrM`, `addLrM_rmnd` and `addLrM_Exact` leave the
block dense (GeM) exactly when the rank `r'` reached by the update (the rank after `addtrll`,
after `addtrll_rmnd`, resp. `r + k` after `append`) satisfies `r'*(n1+n2) > n1*n2`, and
otherwise low-rank with rank `r'`.  `append` stores `[U0 | U]` followed by `[V0 | V]`, and
an update with `(r+k)(n1+n2) = n1*n2 + 1` yields a GeM block. -/
theorem accumulators_promotion_rule (b : mblock) (hb : b.isLrM = true) (k : Nat)
    (U : Nat → dcomp) (ldU : Nat) (V : Nat → dcomp) (ldV : Nat) (eps : ℚ) (kgoal : Nat)
    (haar : Option (Nat × (Nat → dcomp))) (S : Nat → ℚ) (fac UR VR : Nat → dcomp)
    (ho : b.n1 * b.n2 < 2 ^ 32)
    (ho1 : (b.addtrll k eps kgoal haar S fac).bl_rank * (b.n1 + b.n2) < 2 ^ 32)
    (ho2 : (b.addtrll_rmnd k eps kgoal S fac).1.bl_rank * (b.n1 + b.n2) < 2 ^ 32)
    (ho3 : (b.bl_rank + k) * (b.n1 + b.n2) < 2 ^ 32) :
    (((b.addLrM k U ldU V ldV eps kgoal haar S fac).isGeM = true ↔
        (b.addtrll k eps kgoal haar S fac).bl_rank * (b.n1 + b.n2) > b.n1 * b.n2)
      ∧ (¬ (b.addtrll k eps kgoal haar S fac).bl_rank * (b.n1 + b.n2) > b.n1 * b.n2 →
          (b.addLrM k U ldU V ldV eps kgoal haar S fac).isLrM = true ∧
          (b.addLrM k U ldU V ldV eps kgoal haar S fac).bl_rank
            = (b.addtrll k eps kgoal haar S fac).bl_rank))
    ∧ (((b.addLrM_rmnd k U ldU V ldV eps kgoal S fac UR VR).1.isGeM = true ↔
        (b.addtrll_rmnd k eps kgoal S fac).1.bl_rank * (b.n1 + b.n2) > b.n1 * b.n2)
      ∧ (¬ (b.addtrll_rmnd k eps kgoal S fac).1.bl_rank * (b.n1 + b.n2) > b.n1 * b.n2 →
          (b.addLrM_rmnd k U ldU V ldV eps kgoal S fac UR VR).1.isLrM = true ∧
          (b.addLrM_rmnd k U ldU V ldV eps kgoal S fac UR VR).1.bl_rank
            = (b.addtrll_rmnd k eps kgoal S fac).1.bl_rank))
    ∧ (((b.addLrM_Exact k U ldU V ldV).isGeM = true ↔
        (b.bl_rank + k) * (b.n1 + b.n2) > b.n1 * b.n2)
      ∧ (¬ (b.bl_rank + k) * (b.n1 + b.n2) > b.n1 * b.n2 →
          (b.addLrM_Exact k U ldU V ldV).isLrM = true ∧
          (b.addLrM_Exact k U ldU V ldV).bl_rank = b.bl_rank + k ∧
          (b.addLrM_Exact k U ldU V ldV).data = (b.append k U ldU V ldV).data)
      ∧ ((b.bl_rank + k) * (b.n1 + b.n2) = b.n1 * b.n2 + 1 →
          (b.addLrM_Exact k U ldU V ldV).isGeM = true))
    ∧ ((b.append k U ldU V ldV).bl_rank = b.bl_rank + k
      ∧ (∀ l i, l < b.bl_rank → i < b.n1 →
          (b.append k U ldU V ldV).data (l * b.n1 + i) = b.data (l * b.n1 + i))
      ∧ (∀ l i, l < k → i < b.n1 →
          (b.append k U ldU V ldV).data ((b.bl_rank + l) * b.n1 + i) = U (l * ldU + i))
      ∧ (∀ l j, l < b.bl_rank → j < b.n2 →
          (b.append k U ldU V ldV).data ((b.bl_rank + k) * b.n1 + l * b.n2 + j)
            = b.data (b.bl_rank * b.n1 + l * b.n2 + j))
      ∧ (∀ l j, l < k → j < b.n2 →
          (b.append k U ldU V ldV).data ((b.bl_rank + k) * b.n1 + (b.bl_rank + l) * b.n2 + j)
            = V (l * ldV + j))) := by
  refine ⟨?_, ?_, ?_, ?_⟩
  · have h := mblock.promote_rule (b.addtrll k eps kgoal haar S fac)
      (mblock.addtrll_isLrM b hb k eps kgoal haar S fac)
      (by rw [mblock.addtrll_n1, mblock.addtrll_n2]; exact ho)
      (by rw [mblock.addtrll_n1, mblock.addtrll_n2]; exact ho1)
    simp only [mblock.addtrll_n1, mblock.addtrll_n2] at h
    have e : b.addLrM k U ldU V ldV eps kgoal haar S fac =
        if u32 ((b.addtrll k eps kgoal haar S fac).bl_rank * u32 (b.n1 + b.n2))
            > u32 (b.n1 * b.n2) then
          (b.addtrll k eps kgoal haar S fac).convLrM_toGeM
        else b.addtrll k eps kgoal haar S fac := by
      unfold mblock.addLrM
      rw [if_pos hb]
      simp only [mblock.addtrll_n1, mblock.addtrll_n2]
    rw [e]
    exact h
  · have h := mblock.promote_rule (b.addtrll_rmnd k eps kgoal S fac).1
      (mblock.addtrll_rmnd_isLrM b hb k eps kgoal S fac)
      (by rw [mblock.addtrll_rmnd_n1, mblock.addtrll_rmnd_n2]; exact ho)
      (by rw [mblock.addtrll_rmnd_n1, mblock.addtrll_rmnd_n2]; exact ho2)
    simp only [mblock.addtrll_rmnd_n1, mblock.addtrll_rmnd_n2] at h
    have ht := mblock.u32_test_iff (b.addtrll_rmnd k eps kgoal S fac).1.bl_rank b.n1 b.n2
      ho ho2
    by_cases hc : (b.addtrll_rmnd k eps kgoal S fac).1.bl_rank * (b.n1 + b.n2) > b.n1 * b.n2
    · have e : (b.addLrM_rmnd k U ldU V ldV eps kgoal S fac UR VR).1 =
          ((b.addtrll_rmnd k eps kgoal S fac).1.convLrM_toGeM).addLrM_toGeM
            (b.addtrll_rmnd k eps kgoal S fac).2 UR
            ((b.addtrll_rmnd k eps kgoal S fac).1.convLrM_toGeM).n1 VR
            ((b.addtrll_rmnd k eps kgoal S fac).1.convLrM_toGeM).n2 := by
        unfold mblock.addLrM_rmnd
        rw [if_pos hb]
        simp only [mblock.addtrll_rmnd_n1, mblock.addtrll_rmnd_n2]
        rw [if_pos (ht.mpr hc)]
      rw [e, mblock.addLrM_toGeM_isGeM, mblock.convLrM_toGeM_isGeM]
      exact ⟨⟨fun _ => hc, fun _ => rfl⟩, fun hn => absurd hc hn⟩
    · have e : (b.addLrM_rmnd k U ldU V ldV eps kgoal S fac UR VR).1 =
          (b.addtrll_rmnd k eps kgoal S fac).1 := by
        unfold mblock.addLrM_rmnd
        rw [if_pos hb]
        simp only [mblock.addtrll_rmnd_n1, mblock.addtrll_rmnd_n2]
        rw [if_neg (fun hx => hc (ht.mp hx))]
      rw [e]
      rw [if_neg (fun hx => hc (ht.mp hx))] at h
      exact h
  · have h := mblock.promote_rule (b.append k U ldU V ldV)
      ((mblock.append_isLrM b k U ldU V ldV).trans hb)
      (by rw [mblock.append_n1, mblock.append_n2]; exact ho)
      (by rw [mblock.append_n1, mblock.append_n2, mblock.append_bl_rank]; exact ho3)
    simp only [mblock.append_n1, mblock.append_n2, mblock.append_bl_rank] at h
    have ht := mblock.u32_test_iff (b.bl_rank + k) b.n1 b.n2 ho ho3
    have e : b.addLrM_Exact k U ldU V ldV =
        if u32 ((b.bl_rank + k) * u32 (b.n1 + b.n2)) > u32 (b.n1 * b.n2) then
          (b.append k U ldU V ldV).convLrM_toGeM
        else b.append k U ldU V ldV := by
      unfold mblock.addLrM_Exact
      rw [if_pos hb]
      simp only [mblock.append_n1, mblock.append_n2, mblock.append_bl_rank]
    rw [e]
    refine ⟨h.1, ?_, ?_⟩
    · intro hn
      have h2 := h.2 hn
      refine ⟨h2.1, h2.2, ?_⟩
      rw [if_neg (fun hx => hn (ht.mp hx))]
    · intro heq
      exact h.1.mpr (by omega)
  · exact ⟨rfl, fun l i hl hi => mblock.append_U0 b k U ldU V ldV l i hl hi,
      fun l i hl hi => mblock.append_U b k U ldU V ldV l i hl hi,
      fun l j hl hj => mblock.append_V0 b k U ldU V ldV l j hl hj,
      fun l j hl hj => mblock.append_V b k U ldU V ldV l j hl hj⟩

/-- C3 evaluated: the `3 x 5` rank-1 block plus one column gives
`(1+1)*(3+5) = 16 = 3*5 + 1`, so `addLrM_Exact` returns a dense block. -/
theorem accumulators_promotion_rule_witness :
    blockLr35.isLrM = true ∧
    blockLr35.n1 * blockLr35.n2 < 2 ^ 32 ∧
    (blockLr35.addtrll 1 0 0 none svalsId2 facId2).bl_rank * (blockLr35.n1 + blockLr35.n2)
      < 2 ^ 32 ∧
    (blockLr35.addtrll_rmnd 1 0 0 svalsId2 facId2).1.bl_rank * (blockLr35.n1 + blockLr35.n2)
      < 2 ^ 32 ∧
    (blockLr35.bl_rank + 1) * (blockLr35.n1 + blockLr35.n2) < 2 ^ 32 ∧
    (blockLr35.bl_rank + 1) * (blockLr35.n1 + blockLr35.n2) = blockLr35.n1 * blockLr35.n2 + 1 ∧
    (blockLr35.addLrM_Exact 1 colE2 3 colE2 5).isGeM = true := by
  have h1 : blockLr35.n1 * blockLr35.n2 < 2 ^ 32 := by decide
  have h2 : (blockLr35.addtrll 1 0 0 none svalsId2 facId2).bl_rank
      * (blockLr35.n1 + blockLr35.n2) < 2 ^ 32 := by decide
  have h3 : (blockLr35.addtrll_rmnd 1 0 0 svalsId2 facId2).1.bl_rank
      * (blockLr35.n1 + blockLr35.n2) < 2 ^ 32 := by decide
  have h4 : (blockLr35.bl_rank + 1) * (blockLr35.n1 + blockLr35.n2) < 2 ^ 32 := by decide
  have h := accumulators_promotion_rule blockLr35 rfl 1 colE2 3 colE2 5 0 0 none svalsId2
    facId2 colE2 colE2 h1 h2 h3 h4
  exact ⟨rfl, h1, h2, h3, h4, by decide, h.2.2.1.2.2 (by decide)⟩

/-! ## Lemmas on `decomp_LU` -/

theorem utOff_succ (j : Nat) : utOff (j + 1) = utOff j + (j + 1) := by
  unfold utOff
  have h : (j + 1) * (j + 1 + 1) = j * (j + 1) + (j + 1) * 2 := by ring
  rw [h, Nat.add_mul_div_right _ _ (by norm_num : 0 < 2)]

theorem utOff_mono (c m : Nat) (h : c ≤ m) : utOff c ≤ utOff m := by
  induction m with
  | zero =>
    have : c = 0 := by omega
    subst this
    exact le_refl _
  | succ m ih =>
    rcases Nat.lt_or_ge c (m + 1) with h1 | h1
    · have := ih (by omega)
      rw [utOff_succ]
      omega
    · have : c = m + 1 := by omega
      subst this
      exact le_refl _

theorem triLow_le (j n1 : Nat) (h : j ≤ n1) : j * (j - 1) / 2 ≤ j * n1 :=
  le_trans (Nat.div_le_self _ _) (Nat.mul_le_mul_left j (by omega))

theorem ltOff_succ (n1 j : Nat) (h : j ≤ n1) : ltOff n1 (j + 1) = ltOff n1 j + (n1 - j) := by
  unfold ltOff
  have h1 := Nat.triangle_succ j
  have h2 := triLow_le j n1 h
  have h3 : (j + 1) * n1 = j * n1 + n1 := by ring
  rw [h1, h3]
  omega

theorem ltOff_mono (n1 c m : Nat) (h : c ≤ m) (hm : m ≤ n1) : ltOff n1 c ≤ ltOff n1 m := by
  induction m with
  | zero =>
    have : c = 0 := by omega
    subst this
    exact le_refl _
  | succ m ih =>
    rcases Nat.lt_or_ge c (m + 1) with h1 | h1
    · have := ih (by omega) (by omega)
      rw [ltOff_succ n1 m (by omega)]
      omega
    · have : c = m + 1 := by omega
      subst this
      exact le_refl _

theorem luCopyU_eq (F : Nat → dcomp) (cnt : Nat) (s : LUstate) :
    luCopyU F cnt s =
      { s with U := copy cnt F s.pA s.U s.pU, pU := s.pU + cnt, pA := s.pA + cnt } := by
  induction cnt with
  | zero => rfl
  | succ cnt ih =>
    have hstep : luCopyU F (cnt + 1) s =
        { luCopyU F cnt s with
          U := wr (luCopyU F cnt s).U (luCopyU F cnt s).pU (F (luCopyU F cnt s).pA)
          pU := (luCopyU F cnt s).pU + 1
          pA := (luCopyU F cnt s).pA + 1 } := rfl
    rw [hstep, ih]
    rfl

theorem luCopyL_eq (F : Nat → dcomp) (cnt : Nat) (s : LUstate) :
    luCopyL F cnt s =
      { s with L := copy cnt F s.pA s.L s.pL, pL := s.pL + cnt, pA := s.pA + cnt } := by
  induction cnt with
  | zero => rfl
  | succ cnt ih =>
    have hstep : luCopyL F (cnt + 1) s =
        { luCopyL F cnt s with
          L := wr (luCopyL F cnt s).L (luCopyL F cnt s).pL (F (luCopyL F cnt s).pA)
          pL := (luCopyL F cnt s).pL + 1
          pA := (luCopyL F cnt s).pA + 1 } := rfl
    rw [hstep, ih]
    rfl

/-- One step of `decomp_LU` in closed form. -/
theorem decomp_LU_step_eq (n1 : Nat) (F : Nat → dcomp) (ipiv : Nat → Nat) (j : Nat)
    (s : LUstate) :
    decomp_LU_step n1 F ipiv j s =
      { perm := swapStep ipiv j s.perm
        pA := s.pA + (j + 1) + (n1 - (j + 1))
        pL := s.pL + 1 + (n1 - (j + 1))
        pU := s.pU + (j + 1)
        L := copy (n1 - (j + 1)) F (s.pA + (j + 1))
              (wr s.L s.pL ((swapStep ipiv j s.perm j : Nat) : dcomp)) (s.pL + 1)
        U := copy (j + 1) F s.pA s.U s.pU } := by
  unfold decomp_LU_step
  simp only [luCopyU_eq, luCopyL_eq]

/-- Loop invariant of `decomp_LU` after `m` columns. -/
theorem decomp_LU_inv (n1 : Nat) (F : Nat → dcomp) (ipiv : Nat → Nat) (m : Nat) (hm : m ≤ n1) :
    (forLoop m (decomp_LU_step n1 F ipiv)
        { perm := fun j => j, pA := 0, pL := 0, pU := 0, L := fun _ => 0, U := fun _ => 0 }).perm
      = applySwaps ipiv m
    ∧ (forLoop m (decomp_LU_step n1 F ipiv)
        { perm := fun j => j, pA := 0, pL := 0, pU := 0, L := fun _ => 0, U := fun _ => 0 }).pA
      = m * n1
    ∧ (forLoop m (decomp_LU_step n1 F ipiv)
        { perm := fun j => j, pA := 0, pL := 0, pU := 0, L := fun _ => 0, U := fun _ => 0 }).pU
      = utOff m
    ∧ (forLoop m (decomp_LU_step n1 F ipiv)
        { perm := fun j => j, pA := 0, pL := 0, pU := 0, L := fun _ => 0, U := fun _ => 0 }).pL
      = ltOff n1 m
    ∧ (∀ c i, c < m → i ≤ c →
        (forLoop m (decomp_LU_step n1 F ipiv)
          { perm := fun j => j, pA := 0, pL := 0, pU := 0, L := fun _ => 0,
            U := fun _ => 0 }).U (utOff c + i) = F (i + c * n1))
    ∧ (∀ c, c < m →
        (forLoop m (decomp_LU_step n1 F ipiv)
          { perm := fun j => j, pA := 0, pL := 0, pU := 0, L := fun _ => 0,
            U := fun _ => 0 }).L (ltOff n1 c) = ((applySwaps ipiv (c + 1) c : Nat) : dcomp))
    ∧ (∀ c i, c < m → c < i → i < n1 →
        (forLoop m (decomp_LU_step n1 F ipiv)
          { perm := fun j => j, pA := 0, pL := 0, pU := 0, L := fun _ => 0,
            U := fun _ => 0 }).L (ltOff n1 c + (i - c)) = F (i + c * n1)) := by
  induction m with
  | zero =>
    refine ⟨rfl, by simp, rfl, by simp [ltOff], ?_, ?_, ?_⟩
    · intro c i hc
      omega
    · intro c hc
      omega
    · intro c i hc
      omega
  | succ m ih =>
    obtain ⟨hperm, hpA, hpU, hpL, hU, hLd, hLl⟩ := ih (by omega)
    rw [forLoop_succ, decomp_LU_step_eq]
    simp only
    rw [hperm, hpA, hpU, hpL]
    have hut := utOff_succ m
    have hlt := ltOff_succ n1 m (by omega)
    have hmn : (m + 1) * n1 = m * n1 + n1 := by ring
    refine ⟨rfl, by omega, by omega, by omega, ?_, ?_, ?_⟩
    · intro c i hc hi
      rw [copy_apply]
      rcases Nat.lt_or_ge c m with hcm | hcm
      · have h1 := utOff_mono (c + 1) m hcm
        rw [utOff_succ] at h1
        rw [if_neg (by omega)]
        exact hU c i hcm hi
      · have hcm2 : c = m := by omega
        subst hcm2
        rw [if_pos (by omega)]
        congr 1
        omega
    · intro c hc
      rw [copy_apply]
      rcases Nat.lt_or_ge c m with hcm | hcm
      · have h1 := ltOff_mono n1 (c + 1) m hcm (by omega)
        rw [ltOff_succ n1 c (by omega)] at h1
        rw [if_neg (by omega), wr_other _ _ _ _ (by omega)]
        exact hLd c hcm
      · have hcm2 : c = m := by omega
        subst hcm2
        rw [if_neg (by omega), wr_same]
        rfl
    · intro c i hc hci hi
      rw [copy_apply]
      rcases Nat.lt_or_ge c m with hcm | hcm
      · have h1 := ltOff_mono n1 (c + 1) m hcm (by omega)
        rw [ltOff_succ n1 c (by omega)] at h1
        rw [if_neg (by omega), wr_other _ _ _ _ (by omega)]
        exact hLl c i hcm hci hi
      · have hcm2 : c = m := by omega
        subst hcm2
        rw [if_pos (by omega)]
        congr 1
        omega

theorem swapStep_apply (ipiv : Nat → Nat) (j : Nat) (perm : Nat → Nat) (t : Nat) :
    swapStep ipiv j perm t =
      perm (if t = ipiv j - 1 then j else if t = j then ipiv j - 1 else t) := by
  unfold swapStep wr
  split_ifs <;> simp_all

theorem applySwaps_succ (ipiv : Nat → Nat) (m : Nat) :
    applySwaps ipiv (m + 1) = swapStep ipiv m (applySwaps ipiv m) := rfl

/-- A slot `c` is not touched by the swaps of the steps `c+1, ..., m-1`, because
`ipiv[j]-1 >= j`. -/
theorem applySwaps_stable (ipiv : Nat → Nat) (n1 : Nat)
    (hpiv : ∀ j, j < n1 → j + 1 ≤ ipiv j ∧ ipiv j ≤ n1) (c m : Nat) (hc : c < m)
    (hm : m ≤ n1) : applySwaps ipiv m c = applySwaps ipiv (c + 1) c := by
  induction m with
  | zero => omega
  | succ m ih =>
    rcases Nat.lt_or_ge c m with h1 | h1
    · have hp := hpiv m (by omega)
      rw [applySwaps_succ, swapStep_apply, if_neg (by omega), if_neg (by omega)]
      exact ih h1 (by omega)
    · have : c = m := by omega
      subst this
      rfl

/-- The array `perm` is a permutation of `[0, n1)` after every step of the loop. -/
theorem applySwaps_perm (ipiv : Nat → Nat) (n1 : Nat)
    (hpiv : ∀ j, j < n1 → j + 1 ≤ ipiv j ∧ ipiv j ≤ n1) (m : Nat) (hm : m ≤ n1) :
    (∀ j, j < n1 → applySwaps ipiv m j < n1)
    ∧ (∀ i j, i < n1 → j < n1 → applySwaps ipiv m i = applySwaps ipiv m j → i = j)
    ∧ (∀ v, v < n1 → ∃ j, j < n1 ∧ applySwaps ipiv m j = v) := by
  induction m with
  | zero =>
    refine ⟨fun j hj => hj, fun i j _ _ h => h, fun v hv => ⟨v, hv, rfl⟩⟩
  | succ m ih =>
    obtain ⟨hr, hi, hs⟩ := ih (by omega)
    have hp := hpiv m (by omega)
    have hσ : ∀ t, t < n1 →
        (if t = ipiv m - 1 then m else if t = m then ipiv m - 1 else t) < n1 := by
      intro t ht
      split
      · omega
      · split <;> omega
    refine ⟨?_, ?_, ?_⟩
    · intro j hj
      rw [applySwaps_succ, swapStep_apply]
      exact hr _ (hσ j hj)
    · intro i j hi1 hj1 h
      rw [applySwaps_succ, swapStep_apply, swapStep_apply] at h
      have h2 := hi _ _ (hσ i hi1) (hσ j hj1) h
      split at h2 <;> split at h2 <;> (try split at h2) <;> (try split at h2) <;> omega
    · intro v hv
      obtain ⟨j, hj, hjv⟩ := hs v hv
      refine ⟨if j = ipiv m - 1 then m else if j = m then ipiv m - 1 else j, hσ j hj, ?_⟩
      rw [applySwaps_succ, swapStep_apply, ← hjv]
      congr 1
      split <;> (try split) <;> (try split) <;> (try split) <;> omega

/-! ## Permutation validity and stored layout of `decomp_LU` (C4, C5) -/

/-- C4: if the pivot vector satisfies `j+1 <= ipiv[j] <= n1`, the values written by
`decomp_LU` into the diagonal slots of `L` (`perm[j]` as it stands at step `j`) are the final
array obtained by applying all swaps `perm[j] <-> perm[ipiv[j]-1]`, `j = 0..n1-1`, to the
identity, they are read back by the cast `(unsigned) Re(.)`, and they form a permutation of
`[0, n1)`. -/
theorem decomp_LU_permutation_valid (n1 : Nat) (F : Nat → dcomp) (ipiv : Nat → Nat)
    (hpiv : ∀ j, j < n1 → j + 1 ≤ ipiv j ∧ ipiv j ≤ n1) :
    (decomp_LU n1 F ipiv).perm = applySwaps ipiv n1
    ∧ (∀ j, j < n1 →
        (decomp_LU n1 F ipiv).L (ltOff n1 j) = ((applySwaps ipiv n1 j : Nat) : dcomp))
    ∧ (∀ j, j < n1 →
        dcomp.toUnsigned ((decomp_LU n1 F ipiv).L (ltOff n1 j)) = applySwaps ipiv n1 j)
    ∧ (∀ j, j < n1 → applySwaps ipiv n1 j < n1)
    ∧ (∀ i j, i < n1 → j < n1 → applySwaps ipiv n1 i = applySwaps ipiv n1 j → i = j)
    ∧ (∀ v, v < n1 → ∃ j, j < n1 ∧ applySwaps ipiv n1 j = v) := by
  have hinv := decomp_LU_inv n1 F ipiv n1 (le_refl _)
  have hL : ∀ j, j < n1 →
      (decomp_LU n1 F ipiv).L (ltOff n1 j) = ((applySwaps ipiv n1 j : Nat) : dcomp) := by
    intro j hj
    rw [applySwaps_stable ipiv n1 hpiv j n1 hj (le_refl _)]
    exact hinv.2.2.2.2.2.1 j hj
  refine ⟨hinv.1, hL, ?_, applySwaps_perm ipiv n1 hpiv n1 (le_refl _)⟩
  intro j hj
  rw [hL j hj, dcomp.toUnsigned_natCast]

/-- C4 evaluated for `n1 = 2`, `ipiv = (2, 2)`: the diagonal slots of `L` hold `1, 0`. -/
theorem decomp_LU_permutation_valid_witness :
    (∀ j, j < 2 → j + 1 ≤ luIpiv j ∧ luIpiv j ≤ 2)
    ∧ dcomp.toUnsigned ((decomp_LU 2 luF luIpiv).L (ltOff 2 0)) = 1
    ∧ dcomp.toUnsigned ((decomp_LU 2 luF luIpiv).L (ltOff 2 1)) = 0 := by
  have hp : ∀ j, j < 2 → j + 1 ≤ luIpiv j ∧ luIpiv j ≤ 2 := by
    intro j hj
    simp only [luIpiv]
    omega
  have h := (decomp_LU_permutation_valid 2 luF luIpiv hp).2.2.1
  refine ⟨hp, ?_, ?_⟩
  · rw [h 0 (by decide)]
    decide
  · rw [h 1 (by decide)]
    decide

/-- C5: `decomp_LU` stores `U.data[j(j+1)/2 + i] = F[i + j*n1]` for `i <= j < n1`, and column
`j` of `L` at offset `o_j = j*n1 - j(j-1)/2` with `L.data[o_j] = perm[j]` (as it stands at
step `j`, cast to the scalar type) and `L.data[o_j + (i-j)] = F[i + j*n1]` for `j < i < n1`.
For `A = [[4,3],[6,3]]` (factored buffer `6, 2/3, 3, 1`, pivots `2, 2`) the stored layout
gives `ip = [1,0]`, `L = [[1,0],[2/3,1]]`, `U = [[6,3],[0,1]]`, and row `ip[i]` of `A` is
row `i` of `L U`. -/
theorem decomp_LU_stored_layout :
    (∀ (n1 : Nat) (F : Nat → dcomp) (ipiv : Nat → Nat),
      (∀ i j, i ≤ j → j < n1 →
        (decomp_LU n1 F ipiv).U (j * (j + 1) / 2 + i) = F (i + j * n1))
      ∧ (∀ j, j < n1 →
        (decomp_LU n1 F ipiv).L (j * n1 - j * (j - 1) / 2)
          = ((applySwaps ipiv (j + 1) j : Nat) : dcomp))
      ∧ (∀ i j, j < i → i < n1 →
        (decomp_LU n1 F ipiv).L (j * n1 - j * (j - 1) / 2 + (i - j)) = F (i + j * n1)))
    ∧ (dcomp.toUnsigned ((decomp_LU 2 luF luIpiv).L (ltOff 2 0)) = 1
      ∧ dcomp.toUnsigned ((decomp_LU 2 luF luIpiv).L (ltOff 2 1)) = 0
      ∧ LtMentry 2 (decomp_LU 2 luF luIpiv).L 0 0 = 1
      ∧ LtMentry 2 (decomp_LU 2 luF luIpiv).L 0 1 = 0
      ∧ LtMentry 2 (decomp_LU 2 luF luIpiv).L 1 0 = ⟨2 / 3, 0⟩
      ∧ LtMentry 2 (decomp_LU 2 luF luIpiv).L 1 1 = 1
      ∧ UtMentry (decomp_LU 2 luF luIpiv).U 0 0 = 6
      ∧ UtMentry (decomp_LU 2 luF luIpiv).U 0 1 = 3
      ∧ UtMentry (decomp_LU 2 luF luIpiv).U 1 0 = 0
      ∧ UtMentry (decomp_LU 2 luF luIpiv).U 1 1 = 1
      ∧ (∀ i j, i < 2 → j < 2 →
          luA (dcomp.toUnsigned ((decomp_LU 2 luF luIpiv).L (ltOff 2 i)) + j * 2)
            = ∑ l ∈ Finset.range 2,
                LtMentry 2 (decomp_LU 2 luF luIpiv).L i l *
                  UtMentry (decomp_LU 2 luF luIpiv).U l j)) := by
  have hgen : ∀ (n1 : Nat) (F : Nat → dcomp) (ipiv : Nat → Nat),
      (∀ i j, i ≤ j → j < n1 →
        (decomp_LU n1 F ipiv).U (j * (j + 1) / 2 + i) = F (i + j * n1))
      ∧ (∀ j, j < n1 →
        (decomp_LU n1 F ipiv).L (j * n1 - j * (j - 1) / 2)
          = ((applySwaps ipiv (j + 1) j : Nat) : dcomp))
      ∧ (∀ i j, j < i → i < n1 →
        (decomp_LU n1 F ipiv).L (j * n1 - j * (j - 1) / 2 + (i - j)) = F (i + j * n1)) := by
    intro n1 F ipiv
    have hinv := decomp_LU_inv n1 F ipiv n1 (le_refl _)
    exact ⟨fun i j hij hj => hinv.2.2.2.2.1 j i hj hij, fun j hj => hinv.2.2.2.2.2.1 j hj,
      fun i j hji hi => hinv.2.2.2.2.2.2 j i (by omega) hji hi⟩
  refine ⟨hgen, ?_⟩
  obtain ⟨hU, hLd, hLl⟩ := hgen 2 luF luIpiv
  have hd0 : (decomp_LU 2 luF luIpiv).L (ltOff 2 0) = 1 := by
    have h := hLd 0 (by decide)
    have e : applySwaps luIpiv (0 + 1) 0 = 1 := by decide
    rw [e] at h
    simpa [ltOff] using h
  have hd1 : (decomp_LU 2 luF luIpiv).L (ltOff 2 1) = 0 := by
    have h := hLd 1 (by decide)
    have e : applySwaps luIpiv (1 + 1) 1 = 0 := by decide
    rw [e] at h
    simpa [ltOff] using h
  have hl10 : (decomp_LU 2 luF luIpiv).L (ltOff 2 0 + (1 - 0)) = ⟨2 / 3, 0⟩ := by
    have h := hLl 1 0 (by decide) (by decide)
    simpa [ltOff, luF] using h
  have hu00 : (decomp_LU 2 luF luIpiv).U (utOff 0 + 0) = 6 := by
    have h := hU 0 0 (by decide) (by decide)
    simpa [utOff, luF] using h
  have hu01 : (decomp_LU 2 luF luIpiv).U (utOff 1 + 0) = 3 := by
    have h := hU 0 1 (by decide) (by decide)
    simpa [utOff, luF] using h
  have hu11 : (decomp_LU 2 luF luIpiv).U (utOff 1 + 1) = 1 := by
    have h := hU 1 1 (by decide) (by decide)
    simpa [utOff, luF] using h
  have t1 : dcomp.toUnsigned (1 : dcomp) = 1 := by
    have := dcomp.toUnsigned_natCast 1
    simpa using this
  have t0 : dcomp.toUnsigned (0 : dcomp) = 0 := by
    have := dcomp.toUnsigned_natCast 0
    simpa using this
  have e00 : LtMentry 2 (decomp_LU 2 luF luIpiv).L 0 0 = 1 := by simp [LtMentry]
  have e01 : LtMentry 2 (decomp_LU 2 luF luIpiv).L 0 1 = 0 := by simp [LtMentry]
  have e10 : LtMentry 2 (decomp_LU 2 luF luIpiv).L 1 0 = ⟨2 / 3, 0⟩ := by
    simp only [LtMentry]
    rw [if_neg (by decide), if_pos (by decide), hl10]
  have e11 : LtMentry 2 (decomp_LU 2 luF luIpiv).L 1 1 = 1 := by simp [LtMentry]
  have f00 : UtMentry (decomp_LU 2 luF luIpiv).U 0 0 = 6 := by
    simp only [UtMentry]
    rw [if_pos (by decide), hu00]
  have f01 : UtMentry (decomp_LU 2 luF luIpiv).U 0 1 = 3 := by
    simp only [UtMentry]
    rw [if_pos (by decide), hu01]
  have f10 : UtMentry (decomp_LU 2 luF luIpiv).U 1 0 = 0 := by
    simp only [UtMentry]
    rw [if_neg (by decide)]
  have f11 : UtMentry (decomp_LU 2 luF luIpiv).U 1 1 = 1 := by
    simp only [UtMentry]
    rw [if_pos (by decide), hu11]
  refine ⟨by rw [hd0, t1], by rw [hd1, t0], e00, e01, e10, e11, f00, f01, f10, f11, ?_⟩
  intro i j hi hj
  have hi2 : i = 0 ∨ i = 1 := by omega
  have hj2 : j = 0 ∨ j = 1 := by omega
  rcases hi2 with rfl | rfl <;> rcases hj2 with rfl | rfl
  · rw [hd0, t1, Finset.sum_range_succ, Finset.sum_range_one, e00, e01, f00, f10]
    simp only [luA]
    ext <;> simp
  · rw [hd0, t1, Finset.sum_range_succ, Finset.sum_range_one, e00, e01, f01, f11]
    simp only [luA]
    ext <;> simp
  · rw [hd1, t0, Finset.sum_range_succ, Finset.sum_range_one, e10, e11, f00, f10]
    simp only [luA]
    ext <;> norm_num
  · rw [hd1, t0, Finset.sum_range_succ, Finset.sum_range_one, e10, e11, f01, f11]
    simp only [luA]
    ext <;> norm_num

/-! ## Packed upper-triangular products (C9) -/

/-- The accumulator loop `for (j=0; j<=i; ++j) e += x[j] * *p++;` of `mltaUtMhVec`. -/
theorem mltaUtMhVec_inner (data x : Nat → dcomp) (cnt p : Nat) :
    forLoop cnt (fun j (r : Nat × dcomp) => (r.1 + 1, r.2 + x j * data r.1)) (p, (0 : dcomp))
      = (p + cnt, ∑ j ∈ Finset.range cnt, x j * data (p + j)) := by
  induction cnt with
  | zero => simp
  | succ cnt ih =>
    rw [forLoop_succ, ih, Finset.sum_range_succ]
    rfl

/-- What `mltaUtMhVec` computes: `y[i] += d * sum_{j<=i} x[j] * data[i(i+1)/2 + j]`, the
product with the plain transpose of the packed matrix. -/
theorem mltaUtMhVec_closed (b : mblock) (d : dcomp) (x y : Nat → dcomp) (i : Nat)
    (hi : i < b.n1) :
    b.mltaUtMhVec d x y i
      = y i + d * ∑ j ∈ Finset.range (i + 1), x j * b.data (i * (i + 1) / 2 + j) := by
  have hdef : b.mltaUtMhVec d x y =
      (forLoop b.n1 (fun i (s : Nat × (Nat → dcomp)) =>
        (s.1 + (i + 1),
          wr s.2 i (s.2 i + d * ∑ j ∈ Finset.range (i + 1), x j * b.data (s.1 + j))))
        (0, y)).2 := by
    unfold mblock.mltaUtMhVec
    simp only [mltaUtMhVec_inner]
  have key : ∀ m, m ≤ b.n1 →
      (forLoop m (fun i (s : Nat × (Nat → dcomp)) =>
        (s.1 + (i + 1),
          wr s.2 i (s.2 i + d * ∑ j ∈ Finset.range (i + 1), x j * b.data (s.1 + j))))
        (0, y)).1 = utOff m
      ∧ ∀ t, (forLoop m (fun i (s : Nat × (Nat → dcomp)) =>
        (s.1 + (i + 1),
          wr s.2 i (s.2 i + d * ∑ j ∈ Finset.range (i + 1), x j * b.data (s.1 + j))))
        (0, y)).2 t
          = if t < m then y t + d * ∑ j ∈ Finset.range (t + 1), x j * b.data (utOff t + j)
            else y t := by
    intro m
    induction m with
    | zero =>
      intro _
      exact ⟨rfl, fun t => by simp⟩
    | succ m ih =>
      intro hm
      obtain ⟨hp, hy⟩ := ih (by omega)
      rw [forLoop_succ]
      dsimp only
      rw [hp]
      refine ⟨by rw [utOff_succ], fun t => ?_⟩
      by_cases ht : t = m
      · subst ht
        rw [wr_same, hy, if_neg (by omega), if_pos (by omega)]
      · rw [wr_other _ _ _ _ ht, hy]
        by_cases h2 : t < m
        · rw [if_pos h2, if_pos (by omega)]
        · rw [if_neg h2, if_neg (by omega)]
  have h := (key b.n1 (le_refl _)).2 i
  rw [if_pos hi] at h
  rw [hdef]
  exact h

/-- C9 fails on the code: for the `1 x 1` block with entry `i`, `x = (1)`, `y = (0)` and
`d = 1`, `mltaUtMhVec` returns `y[0] = i`, whereas `y_in[0] + d * conj(A[0,0]) * x[0] = -i`. -/
theorem mltaUtMhVec_omits_conjugation :
    blockUtI.mltaUtMhVec 1 vecE1 (fun _ => 0) 0 = dcomp.I
    ∧ (0 + 1 * ∑ j ∈ Finset.range (0 + 1),
          dcomp.conj (blockUtI.data (0 * (0 + 1) / 2 + j)) * vecE1 j) = -dcomp.I
    ∧ blockUtI.mltaUtMhVec 1 vecE1 (fun _ => 0) 0
        ≠ (0 + 1 * ∑ j ∈ Finset.range (0 + 1),
            dcomp.conj (blockUtI.data (0 * (0 + 1) / 2 + j)) * vecE1 j) := by
  have h1 : blockUtI.mltaUtMhVec 1 vecE1 (fun _ => 0) 0 = dcomp.I := by
    rw [mltaUtMhVec_closed blockUtI 1 vecE1 (fun _ => 0) 0 (by decide)]
    simp [blockUtI, vecE1]
  have h2 : (0 + 1 * ∑ j ∈ Finset.range (0 + 1),
      dcomp.conj (blockUtI.data (0 * (0 + 1) / 2 + j)) * vecE1 j) = -dcomp.I := by
    simp [blockUtI, vecE1]
    ext <;> simp [dcomp.I]
  refine ⟨h1, h2, ?_⟩
  rw [h1, h2]
  intro h
  have := congrArg dcomp.im h
  simp [dcomp.I] at this
  norm_num at this

/-! ## Expansion of a packed Hermitian block (C10) -/

/-- Column-major addresses `r + c*ld` with `r < ld` determine row and column. -/
theorem addr_ne (ld r1 c1 r2 c2 : Nat) (h1 : r1 < ld) (h2 : r2 < ld)
    (h : r1 ≠ r2 ∨ c1 ≠ c2) : r1 + c1 * ld ≠ r2 + c2 * ld := by
  intro he
  have hmod := congrArg (fun t => t % ld) he
  have hdiv := congrArg (fun t => t / ld) he
  simp only [Nat.add_mul_mod_self_right, Nat.mod_eq_of_lt h1, Nat.mod_eq_of_lt h2] at hmod
  have hpos : 0 < ld := by omega
  simp only [Nat.add_mul_div_right _ _ hpos, Nat.div_eq_of_lt h1, Nat.div_eq_of_lt h2,
    Nat.zero_add] at hdiv
  omega

/-- The inner loop of `convHeM_toGeM` for column `j`, after `k <= j` steps. -/
theorem convHeM_inner (data : Nat → dcomp) (ld j : Nat) (hj : j < ld) (k : Nat) (hk : k ≤ j)
    (s : Nat × (Nat → dcomp)) :
    (forLoop k (fun i (s : Nat × (Nat → dcomp)) =>
        (s.1 + 1, wr (wr s.2 (i + j * ld) (data s.1)) (j + i * ld) (dcomp.conj (data s.1))))
        s).1 = s.1 + k
    ∧ (∀ i, i < k →
        (forLoop k (fun i (s : Nat × (Nat → dcomp)) =>
          (s.1 + 1, wr (wr s.2 (i + j * ld) (data s.1)) (j + i * ld) (dcomp.conj (data s.1))))
          s).2 (i + j * ld) = data (s.1 + i))
    ∧ (∀ i, i < k →
        (forLoop k (fun i (s : Nat × (Nat → dcomp)) =>
          (s.1 + 1, wr (wr s.2 (i + j * ld) (data s.1)) (j + i * ld) (dcomp.conj (data s.1))))
          s).2 (j + i * ld) = dcomp.conj (data (s.1 + i)))
    ∧ (∀ t, (∀ i, i < k → t ≠ i + j * ld ∧ t ≠ j + i * ld) →
        (forLoop k (fun i (s : Nat × (Nat → dcomp)) =>
          (s.1 + 1, wr (wr s.2 (i + j * ld) (data s.1)) (j + i * ld) (dcomp.conj (data s.1))))
          s).2 t = s.2 t) := by
  induction k with
  | zero =>
    refine ⟨rfl, ?_, ?_, fun t _ => rfl⟩
    · intro i hi
      omega
    · intro i hi
      omega
  | succ k ih =>
    obtain ⟨hp, ha, hb, hc⟩ := ih (by omega)
    rw [forLoop_succ]
    dsimp only
    rw [hp]
    refine ⟨by omega, ?_, ?_, ?_⟩
    · intro i hi
      rw [wr_other _ _ _ _ (addr_ne ld i j j k (by omega) hj (Or.inl (by omega)))]
      by_cases hik : i = k
      · subst hik
        rw [wr_same]
      · rw [wr_other _ _ _ _ (addr_ne ld i j k j (by omega) (by omega) (Or.inl hik))]
        exact ha i (by omega)
    · intro i hi
      by_cases hik : i = k
      · subst hik
        rw [wr_same]
      · rw [wr_other _ _ _ _ (addr_ne ld j i j k hj hj (Or.inr hik)),
          wr_other _ _ _ _ (addr_ne ld j i k j hj (by omega) (Or.inl (by omega)))]
        exact hb i (by omega)
    · intro t ht
      have h1 := ht k (by omega)
      rw [wr_other _ _ _ _ h1.2, wr_other _ _ _ _ h1.1]
      exact hc t (fun i hi => ht i (by omega))

/-- Loop invariant of `convHeM_toGeM` after `m` columns. -/
theorem convHeM_toGeM_inv (data : Nat → dcomp) (A : Nat → dcomp) (ld m : Nat) (hm : m ≤ ld) :
    (forLoop m (fun j (s : Nat × (Nat → dcomp)) =>
        ((forLoop j (fun i (s : Nat × (Nat → dcomp)) =>
            (s.1 + 1, wr (wr s.2 (i + j * ld) (data s.1)) (j + i * ld) (dcomp.conj (data s.1))))
            s).1 + 1,
          wr (forLoop j (fun i (s : Nat × (Nat → dcomp)) =>
            (s.1 + 1, wr (wr s.2 (i + j * ld) (data s.1)) (j + i * ld) (dcomp.conj (data s.1))))
            s).2 (j * (ld + 1))
            (data (forLoop j (fun i (s : Nat × (Nat → dcomp)) =>
              (s.1 + 1,
                wr (wr s.2 (i + j * ld) (data s.1)) (j + i * ld) (dcomp.conj (data s.1))))
              s).1))) (0, A)).1 = utOff m
    ∧ (∀ i j, i ≤ j → j < m →
        (forLoop m (fun j (s : Nat × (Nat → dcomp)) =>
          ((forLoop j (fun i (s : Nat × (Nat → dcomp)) =>
              (s.1 + 1,
                wr (wr s.2 (i + j * ld) (data s.1)) (j + i * ld) (dcomp.conj (data s.1))))
              s).1 + 1,
            wr (forLoop j (fun i (s : Nat × (Nat → dcomp)) =>
              (s.1 + 1,
                wr (wr s.2 (i + j * ld) (data s.1)) (j + i * ld) (dcomp.conj (data s.1))))
              s).2 (j * (ld + 1))
              (data (forLoop j (fun i (s : Nat × (Nat → dcomp)) =>
                (s.1 + 1,
                  wr (wr s.2 (i + j * ld) (data s.1)) (j + i * ld) (dcomp.conj (data s.1))))
                s).1))) (0, A)).2 (i + j * ld) = data (utOff j + i))
    ∧ (∀ i j, i < j → j < m →
        (forLoop m (fun j (s : Nat × (Nat → dcomp)) =>
          ((forLoop j (fun i (s : Nat × (Nat → dcomp)) =>
              (s.1 + 1,
                wr (wr s.2 (i + j * ld) (data s.1)) (j + i * ld) (dcomp.conj (data s.1))))
              s).1 + 1,
            wr (forLoop j (fun i (s : Nat × (Nat → dcomp)) =>
              (s.1 + 1,
                wr (wr s.2 (i + j * ld) (data s.1)) (j + i * ld) (dcomp.conj (data s.1))))
              s).2 (j * (ld + 1))
              (data (forLoop j (fun i (s : Nat × (Nat → dcomp)) =>
                (s.1 + 1,
                  wr (wr s.2 (i + j * ld) (data s.1)) (j + i * ld) (dcomp.conj (data s.1))))
                s).1))) (0, A)).2 (j + i * ld) = dcomp.conj (data (utOff j + i))) := by
  induction m with
  | zero =>
    refine ⟨rfl, ?_, ?_⟩
    · intro i j _ hj
      omega
    · intro i j _ hj
      omega
  | succ m ih =>
    obtain ⟨hp, hU, hL⟩ := ih (by omega)
    rw [forLoop_succ]
    dsimp only
    obtain ⟨ip, ia, ib, ic⟩ := convHeM_inner data ld m (by omega) m (le_refl _)
      (forLoop m (fun j (s : Nat × (Nat → dcomp)) =>
        ((forLoop j (fun i (s : Nat × (Nat → dcomp)) =>
            (s.1 + 1, wr (wr s.2 (i + j * ld) (data s.1)) (j + i * ld) (dcomp.conj (data s.1))))
            s).1 + 1,
          wr (forLoop j (fun i (s : Nat × (Nat → dcomp)) =>
            (s.1 + 1, wr (wr s.2 (i + j * ld) (data s.1)) (j + i * ld) (dcomp.conj (data s.1))))
            s).2 (j * (ld + 1))
            (data (forLoop j (fun i (s : Nat × (Nat → dcomp)) =>
              (s.1 + 1,
                wr (wr s.2 (i + j * ld) (data s.1)) (j + i * ld) (dcomp.conj (data s.1))))
              s).1))) (0, A))
    rw [hp] at ip ia ib
    have hdiag : m * (ld + 1) = m + m * ld := by ring
    rw [ip, hdiag]
    refine ⟨by rw [utOff_succ]; omega, ?_, ?_⟩
    · intro i j hij hj
      rcases Nat.lt_or_ge j m with hjm | hjm
      · rw [wr_other _ _ _ _ (addr_ne ld i j m m (by omega) (by omega) (Or.inl (by omega))),
          ic _ (fun i2 hi2 =>
            ⟨addr_ne ld i j i2 m (by omega) (by omega) (Or.inr (by omega)),
             addr_ne ld i j m i2 (by omega) (by omega) (Or.inl (by omega))⟩)]
        exact hU i j hij hjm
      · have hjm2 : j = m := by omega
        subst hjm2
        by_cases hi : i = j
        · subst hi
          rw [wr_same]
        · rw [wr_other _ _ _ _ (addr_ne ld i j j j (by omega) (by omega) (Or.inl hi))]
          exact ia i (by omega)
    · intro i j hij hj
      rcases Nat.lt_or_ge j m with hjm | hjm
      · rw [wr_other _ _ _ _ (addr_ne ld j i m m (by omega) (by omega) (Or.inl (by omega))),
          ic _ (fun i2 hi2 =>
            ⟨addr_ne ld j i i2 m (by omega) (by omega) (Or.inr (by omega)),
             addr_ne ld j i m i2 (by omega) (by omega) (Or.inl (by omega))⟩)]
        exact hL i j hij hjm
      · have hjm2 : j = m := by omega
        subst hjm2
        rw [wr_other _ _ _ _ (addr_ne ld j i j j (by omega) (by omega) (Or.inr (by omega)))]
        exact ib i hij

/-- C10 refuted at a concrete input: for the `1 x 1` block tagged Hermitian whose stored
diagonal entry is `i`, `convHeM_toGeM` writes `A[0] = i`, and `i` differs from `conj(i)`. -/
theorem convHeM_toGeM_diagonal_not_hermitian :
    blockHeI.convHeM_toGeM (fun _ => 0) 1 (0 + 0 * 1) = dcomp.I
    ∧ blockHeI.convHeM_toGeM (fun _ => 0) 1 (0 + 0 * 1)
        ≠ dcomp.conj (blockHeI.convHeM_toGeM (fun _ => 0) 1 (0 + 0 * 1)) := by
  have h1 : blockHeI.convHeM_toGeM (fun _ => 0) 1 (0 + 0 * 1) = dcomp.I := by
    simp [mblock.convHeM_toGeM, blockHeI, forLoop, wr]
  refine ⟨h1, ?_⟩
  rw [h1]
  intro h
  have := congrArg dcomp.im h
  simp [dcomp.I] at this
  norm_num at this

/-- C10 (amended): for a square block of order `n` and `ld >= n`, `convHeM_toGeM` writes the
packed data into the upper triangle, `A[i + j*ld] = data[j(j+1)/2 + i]` for `i <= j < n`
(the diagonal is copied unchanged), and mirrors it with conjugation, so
`A[i + j*ld] = conj(A[j + i*ld])` for all `i, j < n` with `i != j`; on the diagonal this
equation holds exactly when the stored diagonal entry is real. -/
theorem convHeM_toGeM_hermitian_off_diagonal (b : mblock) (A : Nat → dcomp) (ld : Nat)
    (hld : b.n2 ≤ ld) :
    (∀ i j, i ≤ j → j < b.n2 →
      b.convHeM_toGeM A ld (i + j * ld) = b.data (j * (j + 1) / 2 + i))
    ∧ (∀ i j, i < b.n2 → j < b.n2 → i ≠ j →
      b.convHeM_toGeM A ld (i + j * ld) = dcomp.conj (b.convHeM_toGeM A ld (j + i * ld)))
    ∧ (∀ j, j < b.n2 →
      (b.convHeM_toGeM A ld (j + j * ld) = dcomp.conj (b.convHeM_toGeM A ld (j + j * ld))
        ↔ (b.data (j * (j + 1) / 2 + j)).im = 0)) := by
  obtain ⟨_, hU, hL⟩ := convHeM_toGeM_inv b.data A ld b.n2 hld
  have hU2 : ∀ i j, i ≤ j → j < b.n2 →
      b.convHeM_toGeM A ld (i + j * ld) = b.data (j * (j + 1) / 2 + i) :=
    fun i j hij hj => hU i j hij hj
  have hL2 : ∀ i j, i < j → j < b.n2 →
      b.convHeM_toGeM A ld (j + i * ld) = dcomp.conj (b.data (j * (j + 1) / 2 + i)) :=
    fun i j hij hj => hL i j hij hj
  refine ⟨hU2, ?_, ?_⟩
  · intro i j hi hj hij
    rcases Nat.lt_or_ge i j with h | h
    · rw [hU2 i j (by omega) hj, hL2 i j h hj, dcomp.conj_conj]
    · rw [hL2 j i (by omega) hi, hU2 j i (by omega) hi]
  · intro j hj
    rw [hU2 j j (le_refl _) hj]
    constructor
    · intro h
      have := congrArg dcomp.im h
      simp only [dcomp.conj_im] at this
      linarith
    · intro h
      ext
      · rfl
      · simp [h]

/-- C10 (amended) evaluated on the `2 x 2` Hermitian block `[[2, 1+i], [1-i, 3]]` with
`ld = 2`: `A[0 + 1*2] = 1+i` and `A[1 + 0*2] = 1-i`. -/
theorem convHeM_toGeM_hermitian_off_diagonal_witness :
    blockHe2.n2 ≤ 2
    ∧ blockHe2.convHeM_toGeM (fun _ => 0) 2 (0 + 1 * 2) = ⟨1, 1⟩
    ∧ blockHe2.convHeM_toGeM (fun _ => 0) 2 (0 + 1 * 2)
        = dcomp.conj (blockHe2.convHeM_toGeM (fun _ => 0) 2 (1 + 0 * 2)) := by
  have h := convHeM_toGeM_hermitian_off_diagonal blockHe2 (fun _ => 0) 2 (by decide)
  refine ⟨by decide, ?_, h.2.1 0 1 (by decide) (by decide) (by decide)⟩
  rw [h.1 0 1 (by decide) (by decide)]
  simp [blockHe2]

/-! ## Solve with a packed upper-triangular factor from the left (C8) -/

theorem axpySelf_apply (m : Nat) (d : dcomp) (mem : Nat → dcomp) (xo yo : Nat)
    (hdisj : xo + m ≤ yo ∨ yo + m ≤ xo) :
    ∀ t, axpySelf m d mem xo yo t =
      if yo ≤ t ∧ t < yo + m then mem t + d * mem (xo + (t - yo)) else mem t := by
  induction m with
  | zero =>
    intro t
    rw [if_neg (by omega)]
    rfl
  | succ m ih =>
    have ih2 := ih (by omega)
    have hstep : axpySelf (m + 1) d mem xo yo =
        wr (axpySelf m d mem xo yo) (yo + m)
          (axpySelf m d mem xo yo (yo + m) + d * axpySelf m d mem xo yo (xo + m)) := rfl
    intro t
    rw [hstep]
    by_cases ht : t = yo + m
    · subst ht
      rw [wr_same, ih2, ih2, if_neg (by omega), if_neg (by omega), if_pos (by omega)]
      congr 3
      omega
    · rw [wr_other _ _ _ _ ht, ih2]
      by_cases h1 : yo ≤ t ∧ t < yo + m
      · rw [if_pos h1, if_pos (by omega)]
      · rw [if_neg h1, if_neg (by omega)]

theorem scal_apply (n : Nat) (e : dcomp) (x : Nat → dcomp) (xo : Nat) :
    ∀ t, scal n e x xo t = if xo ≤ t ∧ t < xo + n then e * x t else x t := by
  induction n with
  | zero =>
    intro t
    rw [if_neg (by omega)]
    rfl
  | succ n ih =>
    have hstep : scal (n + 1) e x xo = wr (scal n e x xo) (xo + n) (e * scal n e x xo (xo + n)) :=
      rfl
    intro t
    rw [hstep]
    by_cases ht : t = xo + n
    · subst ht
      rw [wr_same, ih, if_neg (by omega), if_pos (by omega)]
    · rw [wr_other _ _ _ _ ht, ih]
      by_cases h1 : xo ≤ t ∧ t < xo + n
      · rw [if_pos h1, if_pos (by omega)]
      · rw [if_neg h1, if_neg (by omega)]

/-- The elimination loop `for (l=0; l<j; ++l) { d = -*p++; axpy(m, d, X+l*ldX, X+j*ldX); }`
of `utr_solve_left` after `k <= j` steps. -/
theorem utr_inner (data : Nat → dcomp) (m ldX j : Nat) (hld : m ≤ ldX) (k : Nat) (hk : k ≤ j)
    (p : Nat) (X1 : Nat → dcomp) :
    (forLoop k (fun l (s : Nat × (Nat → dcomp)) =>
        (s.1 + 1, axpySelf m (-data s.1) s.2 (l * ldX) (j * ldX))) (p, X1)).1 = p + k
    ∧ (∀ t, t < m →
        (forLoop k (fun l (s : Nat × (Nat → dcomp)) =>
          (s.1 + 1, axpySelf m (-data s.1) s.2 (l * ldX) (j * ldX))) (p, X1)).2 (j * ldX + t)
          = X1 (j * ldX + t) - ∑ l ∈ Finset.range k, data (p + l) * X1 (l * ldX + t))
    ∧ (∀ a, (a < j * ldX ∨ j * ldX + m ≤ a) →
        (forLoop k (fun l (s : Nat × (Nat → dcomp)) =>
          (s.1 + 1, axpySelf m (-data s.1) s.2 (l * ldX) (j * ldX))) (p, X1)).2 a = X1 a) := by
  induction k with
  | zero =>
    refine ⟨rfl, fun t _ => ?_, fun a _ => rfl⟩
    simp
  | succ k ih =>
    obtain ⟨hp, hc, hf⟩ := ih (by omega)
    have hmul : (k + 1) * ldX ≤ j * ldX := Nat.mul_le_mul_right _ hk
    rw [Nat.add_mul] at hmul
    rw [forLoop_succ]
    dsimp only
    rw [hp]
    refine ⟨by omega, ?_, ?_⟩
    · intro t ht
      rw [axpySelf_apply m _ _ _ _ (Or.inl (by omega)), if_pos (by omega), hc t ht,
        hf (k * ldX + (j * ldX + t - j * ldX)) (Or.inl (by omega)), Finset.sum_range_succ]
      have e : k * ldX + (j * ldX + t - j * ldX) = k * ldX + t := by omega
      rw [e]
      ring
    · intro a ha
      rw [axpySelf_apply m _ _ _ _ (Or.inl (by omega)), if_neg (by omega)]
      exact hf a ha

/-- One column step of `utr_solve_left` in closed form. -/
theorem utr_step (data B : Nat → dcomp) (m ldB ldX j : Nat) (hld : m ≤ ldX) (p : Nat)
    (X : Nat → dcomp) :
    ((forLoop j (fun l (s : Nat × (Nat → dcomp)) =>
        (s.1 + 1, axpySelf m (-data s.1) s.2 (l * ldX) (j * ldX)))
        (p, copy m B (j * ldB) X (j * ldX))).1 = p + j)
    ∧ (∀ t, t < m →
        scal m (1 / data (p + j))
          (forLoop j (fun l (s : Nat × (Nat → dcomp)) =>
            (s.1 + 1, axpySelf m (-data s.1) s.2 (l * ldX) (j * ldX)))
            (p, copy m B (j * ldB) X (j * ldX))).2 (j * ldX) (j * ldX + t)
          = (1 / data (p + j)) *
              (B (j * ldB + t) - ∑ l ∈ Finset.range j, data (p + l) * X (l * ldX + t)))
    ∧ (∀ a, (a < j * ldX ∨ j * ldX + m ≤ a) →
        scal m (1 / data (p + j))
          (forLoop j (fun l (s : Nat × (Nat → dcomp)) =>
            (s.1 + 1, axpySelf m (-data s.1) s.2 (l * ldX) (j * ldX)))
            (p, copy m B (j * ldB) X (j * ldX))).2 (j * ldX) a = X a) := by
  obtain ⟨hp, hc, hf⟩ := utr_inner data m ldX j hld j (le_refl _) p
    (copy m B (j * ldB) X (j * ldX))
  refine ⟨hp, ?_, ?_⟩
  · intro t ht
    rw [scal_apply, if_pos (by omega), hc t ht, copy_apply, if_pos (by omega)]
    have e : j * ldB + (j * ldX + t - j * ldX) = j * ldB + t := by omega
    rw [e]
    congr 2
    apply Finset.sum_congr rfl
    intro l hl
    have hl2 : l < j := Finset.mem_range.mp hl
    have hmul : (l + 1) * ldX ≤ j * ldX := Nat.mul_le_mul_right _ hl2
    rw [Nat.add_mul] at hmul
    rw [copy_apply, if_neg (by omega)]
  · intro a ha
    rw [scal_apply, if_neg (by omega), hf a ha, copy_apply, if_neg (by omega)]

/-- Loop invariant of `utr_solve_left` after `J` columns: the columns computed so far solve
their equations. -/
theorem utr_solve_left_inv (data B X : Nat → dcomp) (m ldB ldX : Nat) (hld : m ≤ ldX) (n : Nat)
    (hdiag : ∀ j, j < n → data (utOff j + j) ≠ 0) (J : Nat) (hJ : J ≤ n) :
    (forLoop J (fun j (s : Nat × (Nat → dcomp)) =>
        ((forLoop j (fun l (s : Nat × (Nat → dcomp)) =>
            (s.1 + 1, axpySelf m (-data s.1) s.2 (l * ldX) (j * ldX)))
            (s.1, copy m B (j * ldB) s.2 (j * ldX))).1 + 1,
          scal m (1 / data (forLoop j (fun l (s : Nat × (Nat → dcomp)) =>
              (s.1 + 1, axpySelf m (-data s.1) s.2 (l * ldX) (j * ldX)))
              (s.1, copy m B (j * ldB) s.2 (j * ldX))).1)
            (forLoop j (fun l (s : Nat × (Nat → dcomp)) =>
              (s.1 + 1, axpySelf m (-data s.1) s.2 (l * ldX) (j * ldX)))
              (s.1, copy m B (j * ldB) s.2 (j * ldX))).2 (j * ldX))) (0, X)).1 = utOff J
    ∧ (∀ j t, j < J → t < m →
        ∑ l ∈ Finset.range (j + 1),
          (forLoop J (fun j (s : Nat × (Nat → dcomp)) =>
            ((forLoop j (fun l (s : Nat × (Nat → dcomp)) =>
                (s.1 + 1, axpySelf m (-data s.1) s.2 (l * ldX) (j * ldX)))
                (s.1, copy m B (j * ldB) s.2 (j * ldX))).1 + 1,
              scal m (1 / data (forLoop j (fun l (s : Nat × (Nat → dcomp)) =>
                  (s.1 + 1, axpySelf m (-data s.1) s.2 (l * ldX) (j * ldX)))
                  (s.1, copy m B (j * ldB) s.2 (j * ldX))).1)
                (forLoop j (fun l (s : Nat × (Nat → dcomp)) =>
                  (s.1 + 1, axpySelf m (-data s.1) s.2 (l * ldX) (j * ldX)))
                  (s.1, copy m B (j * ldB) s.2 (j * ldX))).2 (j * ldX))) (0, X)).2
              (l * ldX + t) * data (utOff j + l)
          = B (j * ldB + t)) := by
  induction J with
  | zero =>
    refine ⟨rfl, ?_⟩
    intro j t hj
    omega
  | succ J ih =>
    obtain ⟨hp, hsol⟩ := ih (by omega)
    rw [forLoop_succ]
    dsimp only
    generalize forLoop J (fun j (s : Nat × (Nat → dcomp)) =>
        ((forLoop j (fun l (s : Nat × (Nat → dcomp)) =>
            (s.1 + 1, axpySelf m (-data s.1) s.2 (l * ldX) (j * ldX)))
            (s.1, copy m B (j * ldB) s.2 (j * ldX))).1 + 1,
          scal m (1 / data (forLoop j (fun l (s : Nat × (Nat → dcomp)) =>
              (s.1 + 1, axpySelf m (-data s.1) s.2 (l * ldX) (j * ldX)))
              (s.1, copy m B (j * ldB) s.2 (j * ldX))).1)
            (forLoop j (fun l (s : Nat × (Nat → dcomp)) =>
              (s.1 + 1, axpySelf m (-data s.1) s.2 (l * ldX) (j * ldX)))
              (s.1, copy m B (j * ldB) s.2 (j * ldX))).2 (j * ldX))) (0, X) = sJ at hp hsol ⊢
    obtain ⟨p, Xc⟩ := sJ
    dsimp only at hp hsol ⊢
    subst hp
    obtain ⟨h1, h2, h3⟩ := utr_step data B m ldB ldX J hld (utOff J) Xc
    rw [h1]
    have hframe : ∀ l t, l < J → t < m →
        scal m (1 / data (utOff J + J))
          (forLoop J (fun l (s : Nat × (Nat → dcomp)) =>
            (s.1 + 1, axpySelf m (-data s.1) s.2 (l * ldX) (J * ldX)))
            (utOff J, copy m B (J * ldB) Xc (J * ldX))).2 (J * ldX) (l * ldX + t)
          = Xc (l * ldX + t) := by
      intro l t hl ht
      have hmul : (l + 1) * ldX ≤ J * ldX := Nat.mul_le_mul_right _ hl
      rw [Nat.add_mul] at hmul
      exact h3 _ (Or.inl (by omega))
    refine ⟨by rw [utOff_succ]; omega, ?_⟩
    intro j t hj ht
    rcases Nat.lt_or_ge j J with hjJ | hjJ
    · rw [← hsol j t hjJ ht]
      apply Finset.sum_congr rfl
      intro l hl
      have hl2 : l < j + 1 := Finset.mem_range.mp hl
      rw [hframe l t (by omega) ht]
    · have hjJ2 : j = J := by omega
      subst hjJ2
      rw [Finset.sum_range_succ, h2 t ht]
      have hd := hdiag j (by omega)
      have hsum : ∑ l ∈ Finset.range j,
          scal m (1 / data (utOff j + j))
            (forLoop j (fun l (s : Nat × (Nat → dcomp)) =>
              (s.1 + 1, axpySelf m (-data s.1) s.2 (l * ldX) (j * ldX)))
              (utOff j, copy m B (j * ldB) Xc (j * ldX))).2 (j * ldX) (l * ldX + t)
            * data (utOff j + l)
          = ∑ l ∈ Finset.range j, data (utOff j + l) * Xc (l * ldX + t) := by
        apply Finset.sum_congr rfl
        intro l hl
        have hl2 : l < j := Finset.mem_range.mp hl
        rw [hframe l t hl2 ht, mul_comm]
      rw [hsum]
      field_simp

/-- C8: for a packed upper-triangular `U` of order `n1` with non-zero diagonal, `m <= ldX`
and a right-hand side `B` in a buffer of its own, the `X` computed by `utr_solve_left`
satisfies `sum_{l <= j} X[t,l] * U[l,j] = B[t,j]` for every column `j < n1` and row `t < m`,
where `U[l,j] = data[j(j+1)/2 + l]`; `B` is only read. -/
theorem utr_solve_left_solves (b : mblock) (m : Nat) (B : Nat → dcomp) (ldB : Nat)
    (X : Nat → dcomp) (ldX : Nat) (hld : m ≤ ldX)
    (hdiag : ∀ j, j < b.n1 → b.data (j * (j + 1) / 2 + j) ≠ 0) :
    ∀ j t, j < b.n1 → t < m →
      ∑ l ∈ Finset.range (j + 1),
        b.utr_solve_left m B ldB X ldX (t + l * ldX) * b.data (j * (j + 1) / 2 + l)
      = B (t + j * ldB) := by
  intro j t hj ht
  have h := (utr_solve_left_inv b.data B X m ldB ldX hld b.n1 hdiag b.n1 (le_refl _)).2 j t hj ht
  rw [Nat.add_comm t (j * ldB)]
  rw [← h]
  apply Finset.sum_congr rfl
  intro l _
  rw [Nat.add_comm t (l * ldX)]
  rfl

/-- C8 evaluated: `U = [[6,3],[0,1]]`, `B = (6, 4)` (one row), `ldB = ldX = 1`; the computed
`X = (1, 1)` satisfies `X U = B`. -/
theorem utr_solve_left_solves_witness :
    (1 ≤ 1) ∧ (∀ j, j < blockUt2.n1 → blockUt2.data (j * (j + 1) / 2 + j) ≠ 0)
    ∧ ∑ l ∈ Finset.range (1 + 1),
        blockUt2.utr_solve_left 1 rhsRow 1 (fun _ => 0) 1 (0 + l * 1) *
          blockUt2.data (1 * (1 + 1) / 2 + l) = rhsRow (0 + 1 * 1) := by
  have hd : ∀ j, j < blockUt2.n1 → blockUt2.data (j * (j + 1) / 2 + j) ≠ 0 := by
    intro j hj
    have hj2 : j = 0 ∨ j = 1 := by
      have : blockUt2.n1 = 2 := rfl
      omega
    rcases hj2 with rfl | rfl
    · intro h
      have := congrArg dcomp.re h
      simp [blockUt2] at this
    · intro h
      have := congrArg dcomp.re h
      simp [blockUt2] at this
  exact ⟨le_refl _, hd,
    utr_solve_left_solves blockUt2 1 rhsRow 1 (fun _ => 0) 1 (le_refl _) hd 1 0 (by decide)
      (by decide)⟩

/-! ## Lemmas shared by the triangular products and solves with embedded permutation -/

theorem conj_sum {ι : Type} (t : Finset ι) (f : ι → dcomp) :
    dcomp.conj (∑ i ∈ t, f i) = ∑ i ∈ t, dcomp.conj (f i) := by
  classical
  induction t using Finset.induction_on with
  | empty => simp
  | insert hnot ih => rw [Finset.sum_insert hnot, Finset.sum_insert hnot, dcomp.conj_add, ih]

/-- A map of `[0, n)` into itself that is injective is onto. -/
theorem perm_surj (n : Nat) (ip : Nat → Nat) (hr : ∀ j, j < n → ip j < n)
    (hinj : ∀ i j, i < n → j < n → ip i = ip j → i = j) :
    ∀ v, v < n → ∃ j, j < n ∧ ip j = v := by
  intro v hv
  have hfi : Function.Injective (fun i : Fin n => (⟨ip i.1, hr i.1 i.2⟩ : Fin n)) := by
    intro a c hac
    have h1 : ip a.1 = ip c.1 := congrArg Fin.val hac
    exact Fin.ext (hinj a.1 c.1 a.2 c.2 h1)
  obtain ⟨j, hj⟩ := Finite.surjective_of_injective hfi ⟨v, hv⟩
  exact ⟨j.1, j.2, congrArg Fin.val hj⟩

/-- A loop of stores `Z[addr(i)] = val(i)` to pairwise different addresses. -/
theorem writeLoop {α : Type} (k : Nat) (addr : Nat → Nat) (val : Nat → α)
    (hinj : ∀ i1 i2, i1 < k → i2 < k → addr i1 = addr i2 → i1 = i2) (Z : Nat → α) :
    (∀ i, i < k → forLoop k (fun i Z => wr Z (addr i) (val i)) Z (addr i) = val i)
    ∧ (∀ a, (∀ i, i < k → a ≠ addr i) →
        forLoop k (fun i Z => wr Z (addr i) (val i)) Z a = Z a) := by
  induction k with
  | zero =>
    refine ⟨?_, fun a _ => rfl⟩
    intro i hi
    omega
  | succ k ih =>
    obtain ⟨h1, h2⟩ := ih (fun i1 i2 hi1 hi2 h => hinj i1 i2 (by omega) (by omega) h)
    refine ⟨?_, ?_⟩
    · intro i hi
      rw [forLoop_succ]
      by_cases hik : i = k
      · subst hik
        rw [wr_same]
      · have hne : addr i ≠ addr k := fun h => hik (hinj i k hi (by omega) h)
        rw [wr_other _ _ _ _ hne]
        exact h1 i (by omega)
    · intro a ha
      rw [forLoop_succ, wr_other _ _ _ _ (ha k (by omega))]
      exact h2 a (fun i hi => ha i (by omega))

/-- Two nested loops of stores `Z[addr(i,j)] = val(i,j)` to pairwise different addresses. -/
theorem writeLoop2 {α : Type} (m n : Nat) (addr : Nat → Nat → Nat) (val : Nat → Nat → α)
    (hinj : ∀ i1 j1 i2 j2, i1 < n → j1 < m → i2 < n → j2 < m →
      addr i1 j1 = addr i2 j2 → i1 = i2 ∧ j1 = j2) (Z : Nat → α) :
    (∀ c i, c < m → i < n →
      forLoop m (fun j Z => forLoop n (fun i Z => wr Z (addr i j) (val i j)) Z) Z (addr i c)
        = val i c)
    ∧ (∀ a, (∀ c i, c < m → i < n → a ≠ addr i c) →
      forLoop m (fun j Z => forLoop n (fun i Z => wr Z (addr i j) (val i j)) Z) Z a = Z a) := by
  induction m with
  | zero =>
    refine ⟨?_, fun a _ => rfl⟩
    intro c i hc
    omega
  | succ m ih =>
    obtain ⟨h1, h2⟩ := ih (fun i1 j1 i2 j2 hi1 hj1 hi2 hj2 h =>
      hinj i1 j1 i2 j2 hi1 (by omega) hi2 (by omega) h)
    obtain ⟨w1, w2⟩ := writeLoop n (fun i => addr i m) (fun i => val i m)
      (fun i1 i2 hi1 hi2 h => (hinj i1 m i2 m hi1 (by omega) hi2 (by omega) h).1)
      (forLoop m (fun j Z => forLoop n (fun i Z => wr Z (addr i j) (val i j)) Z) Z)
    refine ⟨?_, ?_⟩
    · intro c i hc hi
      rw [forLoop_succ]
      by_cases hcm : c = m
      · subst hcm
        exact w1 i hi
      · rw [w2 _ (fun i2 hi2 h =>
          hcm (hinj i c i2 m hi (by omega) hi2 (by omega) h).2)]
        exact h1 c i (by omega) hi
    · intro a ha
      rw [forLoop_succ, w2 a (fun i hi => ha m i (by omega) hi)]
      exact h2 a (fun c i hc hi => ha c i (by omega) hi)

theorem axpy_apply (n : Nat) (d : dcomp) (x : Nat → dcomp) (xo : Nat) (y : Nat → dcomp)
    (yo : Nat) :
    ∀ t, axpy n d x xo y yo t =
      if yo ≤ t ∧ t < yo + n then y t + d * x (xo + (t - yo)) else y t := by
  induction n with
  | zero =>
    intro t
    rw [if_neg (by omega)]
    rfl
  | succ n ih =>
    have hstep : axpy (n + 1) d x xo y yo =
        wr (axpy n d x xo y yo) (yo + n) (axpy n d x xo y yo (yo + n) + d * x (xo + n)) := rfl
    intro t
    rw [hstep]
    by_cases ht : t = yo + n
    · subst ht
      rw [wr_same, ih, if_neg (by omega), if_pos (by omega)]
      congr 3
      omega
    · rw [wr_other _ _ _ _ ht, ih]
      by_cases h1 : yo ≤ t ∧ t < yo + n
      · rw [if_pos h1, if_pos (by omega)]
      · rw [if_neg h1, if_neg (by omega)]

/-- Column-wise copies with destination stride `ldT >= n`. -/
theorem copyStrided_inside {α : Type} (k n : Nat) (X : Nat → α) (ldX : Nat) (tmp : Nat → α)
    (ldT l i : Nat) (hld : n ≤ ldT) (hl : l < k) (hi : i < n) :
    forLoop k (fun c tmp => copy n X (c * ldX) tmp (c * ldT)) tmp (l * ldT + i)
      = X (l * ldX + i) := by
  induction k with
  | zero => omega
  | succ k ih =>
    rw [forLoop_succ, copy_apply]
    rcases Nat.lt_or_ge l k with hlk | hlk
    · have hmul : (l + 1) * ldT ≤ k * ldT := Nat.mul_le_mul_right ldT hlk
      rw [Nat.add_mul] at hmul
      rw [if_neg (by omega)]
      exact ih hlk
    · have hlk2 : l = k := by omega
      subst hlk2
      rw [if_pos (by omega)]
      congr 1
      omega

namespace mblock

/-- The loop `ip[j] = (unsigned) Re(*p); p += n1-j;` reads the diagonal slot of column `j`,
which lies at offset `ltOff n1 j`. -/
theorem decodeIp_eq (b : mblock) (hsq : b.n1 = b.n2) (j : Nat) (hj : j < b.n1) :
    b.decodeIp j = dcomp.toUnsigned (b.data (ltOff b.n1 j)) := by
  have key : ∀ J, J ≤ b.n1 →
      (forLoop J (fun j (s : Nat × (Nat → Nat)) =>
        (s.1 + (b.n1 - j), wr s.2 j (dcomp.toUnsigned (b.data s.1)))) (0, fun _ => 0)).1
        = ltOff b.n1 J
      ∧ ∀ j, j < J →
        (forLoop J (fun j (s : Nat × (Nat → Nat)) =>
          (s.1 + (b.n1 - j), wr s.2 j (dcomp.toUnsigned (b.data s.1)))) (0, fun _ => 0)).2 j
          = dcomp.toUnsigned (b.data (ltOff b.n1 j)) := by
    intro J
    induction J with
    | zero =>
      intro _
      refine ⟨by simp [ltOff], ?_⟩
      intro j hj
      omega
    | succ J ih =>
      intro hJ
      obtain ⟨hp, hv⟩ := ih (by omega)
      rw [forLoop_succ]
      dsimp only
      rw [hp]
      refine ⟨(ltOff_succ b.n1 J (by omega)).symm, ?_⟩
      intro j hj
      by_cases hjJ : j = J
      · subst hjJ
        rw [wr_same]
      · rw [wr_other _ _ _ _ hjJ]
        exact hv j (by omega)
  have h := (key b.n1 (le_refl _)).2 j hj
  unfold decodeIp
  rw [← hsq]
  exact h

end mblock

/-- A loop that visits the diagonal slots by `p += n1-j` and stores `f(*p)` in slot `j`. -/
theorem diagLoop_eq {α : Type} (n1 : Nat) (data : Nat → dcomp) (f : dcomp → α) (z0 : Nat → α)
    (J : Nat) (hJ : J ≤ n1) :
    (forLoop J (fun j (s : Nat × (Nat → α)) =>
        (s.1 + (n1 - j), wr s.2 j (f (data s.1)))) (0, z0)).1 = ltOff n1 J
    ∧ (∀ j, j < J →
        (forLoop J (fun j (s : Nat × (Nat → α)) =>
          (s.1 + (n1 - j), wr s.2 j (f (data s.1)))) (0, z0)).2 j = f (data (ltOff n1 j))) := by
  induction J with
  | zero =>
    refine ⟨by simp [ltOff], ?_⟩
    intro j hj
    omega
  | succ J ih =>
    obtain ⟨hp, hv⟩ := ih (by omega)
    rw [forLoop_succ]
    dsimp only
    rw [hp]
    refine ⟨(ltOff_succ n1 J (by omega)).symm, ?_⟩
    intro j hj
    by_cases hjJ : j = J
    · subst hjJ
      rw [wr_same]
    · rw [wr_other _ _ _ _ hjJ]
      exact hv j (by omega)

/-- The product `z := L^H z` of `ltrphv` in closed form. -/
theorem ltrphv_apply (n : Nat) (L z : Nat → dcomp) (j : Nat) :
    ltrphv n L z j =
      if j < n then
        z j + ∑ i ∈ Finset.Ico (j + 1) n, dcomp.conj (L (ltOff n j + (i - j))) * z i
      else z j := by
  have key : ∀ J, J ≤ n → ∀ a,
      forLoop J (fun j z =>
        wr z j (z j + ∑ i ∈ Finset.Ico (j + 1) n, dcomp.conj (L (ltOff n j + (i - j))) * z i))
        z a
      = if a < J then
          z a + ∑ i ∈ Finset.Ico (a + 1) n, dcomp.conj (L (ltOff n a + (i - a))) * z i
        else z a := by
    intro J
    induction J with
    | zero =>
      intro _ a
      rw [if_neg (by omega)]
      rfl
    | succ J ih =>
      intro hJ a
      have ih2 := ih (by omega)
      rw [forLoop_succ]
      by_cases haJ : a = J
      · subst haJ
        rw [wr_same, ih2, if_neg (by omega), if_pos (by omega)]
        congr 1
        apply Finset.sum_congr rfl
        intro i hi
        have hi2 := Finset.mem_Ico.mp hi
        rw [ih2, if_neg (by omega)]
      · rw [wr_other _ _ _ _ haJ, ih2]
        by_cases h1 : a < J
        · rw [if_pos h1, if_pos (by omega)]
        · rw [if_neg h1, if_neg (by omega)]
  have h := key n (le_refl _) j
  exact h

/-- Back substitution with `L^H` undoes the product with `L^H` on one column. -/
theorem ltrhsCol_solves (n : Nat) (L Z : Nat → dcomp) (off : Nat) (g : Nat → dcomp)
    (hZ : ∀ j, j < n → Z (off + j) =
      g j + ∑ i ∈ Finset.Ico (j + 1) n, dcomp.conj (L (ltOff n j + (i - j))) * g i) :
    (∀ j, j < n → ltrhsCol n L Z off (off + j) = g j)
    ∧ (∀ a, (a < off ∨ off + n ≤ a) → ltrhsCol n L Z off a = Z a) := by
  have key : ∀ T, T ≤ n →
      (∀ j, n - T ≤ j → j < n →
        forLoop T (fun t Z =>
          wr Z (off + (n - 1 - t))
            (Z (off + (n - 1 - t)) -
              ∑ i ∈ Finset.Ico (n - 1 - t + 1) n,
                dcomp.conj (L (ltOff n (n - 1 - t) + (i - (n - 1 - t)))) * Z (off + i))) Z
          (off + j) = g j)
      ∧ (∀ a, (a < off + (n - T) ∨ off + n ≤ a) →
        forLoop T (fun t Z =>
          wr Z (off + (n - 1 - t))
            (Z (off + (n - 1 - t)) -
              ∑ i ∈ Finset.Ico (n - 1 - t + 1) n,
                dcomp.conj (L (ltOff n (n - 1 - t) + (i - (n - 1 - t)))) * Z (off + i))) Z a
          = Z a) := by
    intro T
    induction T with
    | zero =>
      intro _
      refine ⟨?_, fun a _ => rfl⟩
      intro j h1 h2
      omega
    | succ T ih =>
      intro hT
      obtain ⟨h1, h2⟩ := ih (by omega)
      refine ⟨?_, ?_⟩
      · intro j hj1 hj2
        rw [forLoop_succ]
        by_cases hj : j = n - 1 - T
        · subst hj
          rw [wr_same, h2 _ (Or.inl (by omega)), hZ _ (by omega)]
          have hs : ∑ i ∈ Finset.Ico (n - 1 - T + 1) n,
              dcomp.conj (L (ltOff n (n - 1 - T) + (i - (n - 1 - T)))) *
                forLoop T (fun t Z =>
                  wr Z (off + (n - 1 - t))
                    (Z (off + (n - 1 - t)) -
                      ∑ i ∈ Finset.Ico (n - 1 - t + 1) n,
                        dcomp.conj (L (ltOff n (n - 1 - t) + (i - (n - 1 - t)))) *
                          Z (off + i))) Z (off + i)
              = ∑ i ∈ Finset.Ico (n - 1 - T + 1) n,
                dcomp.conj (L (ltOff n (n - 1 - T) + (i - (n - 1 - T)))) * g i := by
            apply Finset.sum_congr rfl
            intro i hi
            have hi2 := Finset.mem_Ico.mp hi
            rw [h1 i (by omega) (by omega)]
          rw [hs]
          ring
        · rw [wr_other _ _ _ _ (by omega)]
          exact h1 j (by omega) hj2
      · intro a ha
        rw [forLoop_succ, wr_other _ _ _ _ (by omega)]
        exact h2 a (by omega)
  obtain ⟨k1, k2⟩ := key n (le_refl _)
  exact ⟨fun j hj => k1 j (by omega) hj, fun a ha => k2 a (by omega)⟩

/-- The solve `ltrhs` with `m` right-hand sides undoes the product with `L^H` column by
column. -/
theorem ltrhs_solves (n : Nat) (L : Nat → dcomp) (m : Nat) (Z : Nat → dcomp) (ld : Nat)
    (hld : n ≤ ld) (g : Nat → Nat → dcomp)
    (hZ : ∀ c j, c < m → j < n → Z (c * ld + j) =
      g c j + ∑ i ∈ Finset.Ico (j + 1) n, dcomp.conj (L (ltOff n j + (i - j))) * g c i) :
    ∀ c j, c < m → j < n → ltrhs n L m Z ld (c * ld + j) = g c j := by
  have key : ∀ C, C ≤ m →
      (∀ c j, c < C → j < n →
        forLoop C (fun c B => ltrhsCol n L B (c * ld)) Z (c * ld + j) = g c j)
      ∧ (∀ a, C * ld ≤ a → forLoop C (fun c B => ltrhsCol n L B (c * ld)) Z a = Z a) := by
    intro C
    induction C with
    | zero =>
      intro _
      refine ⟨?_, fun a _ => rfl⟩
      intro c j hc
      omega
    | succ C ih =>
      intro hC
      obtain ⟨h1, h2⟩ := ih (by omega)
      have hcol : ∀ j, j < n →
          forLoop C (fun c B => ltrhsCol n L B (c * ld)) Z (C * ld + j) =
            g C j + ∑ i ∈ Finset.Ico (j + 1) n,
              dcomp.conj (L (ltOff n j + (i - j))) * g C i := by
        intro j hj
        rw [h2 _ (by omega)]
        exact hZ C j (by omega) hj
      obtain ⟨s1, s2⟩ := ltrhsCol_solves n L
        (forLoop C (fun c B => ltrhsCol n L B (c * ld)) Z) (C * ld) (g C) hcol
      have hmul : (C + 1) * ld = C * ld + ld := by ring
      refine ⟨?_, ?_⟩
      · intro c j hc hj
        rw [forLoop_succ]
        by_cases hcC : c = C
        · subst hcC
          exact s1 j hj
        · have hlt : c < C := by omega
          have hm : (c + 1) * ld ≤ C * ld := Nat.mul_le_mul_right _ hlt
          rw [Nat.add_mul] at hm
          rw [s2 _ (Or.inl (by omega))]
          exact h1 c j hlt hj
      · intro a ha
        rw [forLoop_succ, s2 a (Or.inr (by omega))]
        exact h2 a (by omega)
  exact fun c j hc hj => (key m (le_refl _)).1 c j hc hj

/-- The loop `for (i=j+1; i<n1; ++i) z[i] = z[i] + e * *p++;` of `mltaLtMVec`. -/
theorem ltVec_inner (data : Nat → dcomp) (e : dcomp) (j cnt : Nat) (s : LtVecState) :
    forLoop cnt (fun t (s : LtVecState) =>
        { s with z := wr s.z (j + 1 + t) (s.z (j + 1 + t) + e * data s.p), p := s.p + 1 }) s
      = { p := s.p + cnt, ip := s.ip,
          z := fun a => if j + 1 ≤ a ∧ a < j + 1 + cnt
            then s.z a + e * data (s.p + (a - (j + 1))) else s.z a } := by
  induction cnt with
  | zero =>
    have hz : (fun a => if j + 1 ≤ a ∧ a < j + 1 + 0
        then s.z a + e * data (s.p + (a - (j + 1))) else s.z a) = s.z := by
      funext a
      rw [if_neg (by omega)]
    rw [hz]
    rfl
  | succ cnt ih =>
    rw [forLoop_succ, ih]
    dsimp only
    congr 1
    funext a
    by_cases ha : a = j + 1 + cnt
    · subst ha
      rw [wr_same, if_neg (by omega), if_pos (by omega)]
      congr 3
      omega
    · rw [wr_other _ _ _ _ ha]
      by_cases h1 : j + 1 ≤ a ∧ a < j + 1 + cnt
      · rw [if_pos h1, if_pos (by omega)]
      · rw [if_neg h1, if_neg (by omega)]

theorem LtMentry_diag (n : Nat) (data : Nat → dcomp) (i : Nat) : LtMentry n data i i = 1 := by
  simp [LtMentry]

theorem LtMentry_below (n : Nat) (data : Nat → dcomp) (i j : Nat) (h : j < i) :
    LtMentry n data i j = data (ltOff n j + (i - j)) := by
  unfold LtMentry
  rw [if_neg (by omega), if_pos h]

theorem LtMentry_above (n : Nat) (data : Nat → dcomp) (i j : Nat) (h : i < j) :
    LtMentry n data i j = 0 := by
  unfold LtMentry
  rw [if_neg (by omega), if_neg (by omega)]

namespace mblock

/-- The first loop of `mltaLtMVec` in closed form: `ip` holds the decoded diagonal slots and
`z = d L x` with the unit lower-triangular `L` of the block. -/
theorem mltaLtMVec_loop_eq (b : mblock) (hsq : b.n1 = b.n2) (d : dcomp) (x : Nat → dcomp) :
    (∀ j, j < b.n1 →
      (b.mltaLtMVec_loop d x).ip j = dcomp.toUnsigned (b.data (ltOff b.n1 j)))
    ∧ (∀ a, a < b.n1 →
      (b.mltaLtMVec_loop d x).z a
        = ∑ j ∈ Finset.range b.n1, d * x j * LtMentry b.n1 b.data a j) := by
  have key : ∀ J, J ≤ b.n1 →
      (forLoop J (fun j (s : LtVecState) =>
        ({ p := s.p + 1 + (b.n1 - (j + 1)),
           ip := wr s.ip j (dcomp.toUnsigned (b.data s.p)),
           z := fun a => if j + 1 ≤ a ∧ a < j + 1 + (b.n1 - (j + 1))
             then wr s.z j (s.z j + d * x j) a + d * x j * b.data (s.p + 1 + (a - (j + 1)))
             else wr s.z j (s.z j + d * x j) a } : LtVecState))
        { p := 0, ip := fun _ => 0, z := fun _ => 0 }).p = ltOff b.n1 J
      ∧ (∀ j, j < J →
        (forLoop J (fun j (s : LtVecState) =>
          ({ p := s.p + 1 + (b.n1 - (j + 1)),
             ip := wr s.ip j (dcomp.toUnsigned (b.data s.p)),
             z := fun a => if j + 1 ≤ a ∧ a < j + 1 + (b.n1 - (j + 1))
               then wr s.z j (s.z j + d * x j) a + d * x j * b.data (s.p + 1 + (a - (j + 1)))
               else wr s.z j (s.z j + d * x j) a } : LtVecState))
          { p := 0, ip := fun _ => 0, z := fun _ => 0 }).ip j
          = dcomp.toUnsigned (b.data (ltOff b.n1 j)))
      ∧ (∀ a,
        (forLoop J (fun j (s : LtVecState) =>
          ({ p := s.p + 1 + (b.n1 - (j + 1)),
             ip := wr s.ip j (dcomp.toUnsigned (b.data s.p)),
             z := fun a => if j + 1 ≤ a ∧ a < j + 1 + (b.n1 - (j + 1))
               then wr s.z j (s.z j + d * x j) a + d * x j * b.data (s.p + 1 + (a - (j + 1)))
               else wr s.z j (s.z j + d * x j) a } : LtVecState))
          { p := 0, ip := fun _ => 0, z := fun _ => 0 }).z a
          = if a < b.n1 then ∑ j ∈ Finset.range J, d * x j * LtMentry b.n1 b.data a j
            else 0) := by
    intro J
    induction J with
    | zero =>
      intro _
      refine ⟨by simp [ltOff], ?_, ?_⟩
      · intro j hj
        omega
      · intro a
        simp
    | succ J ih =>
      intro hJ
      obtain ⟨hp, hip, hz⟩ := ih (by omega)
      rw [forLoop_succ]
      dsimp only
      rw [hp]
      refine ⟨?_, ?_, ?_⟩
      · rw [ltOff_succ b.n1 J (by omega)]
        omega
      · intro j hj
        by_cases hjJ : j = J
        · subst hjJ
          rw [wr_same]
        · rw [wr_other _ _ _ _ hjJ]
          exact hip j (by omega)
      · intro a
        by_cases ha : a < b.n1
        · rw [if_pos ha, Finset.sum_range_succ]
          rcases Nat.lt_trichotomy a J with h1 | h1 | h1
          · rw [if_neg (by omega), wr_other _ _ _ _ (by omega), hz, if_pos ha,
              LtMentry_above _ _ _ _ h1]
            ring
          · subst h1
            rw [if_neg (by omega), wr_same, hz, if_pos ha, LtMentry_diag]
            ring
          · rw [if_pos (by omega), wr_other _ _ _ _ (by omega), hz, if_pos ha,
              LtMentry_below _ _ _ _ h1]
            congr 3
            omega
        · rw [if_neg ha, if_neg (by omega), wr_other _ _ _ _ (by omega), hz, if_neg ha]
  have hdef : b.mltaLtMVec_loop d x =
      forLoop b.n1 (fun j (s : LtVecState) =>
        ({ p := s.p + 1 + (b.n1 - (j + 1)),
           ip := wr s.ip j (dcomp.toUnsigned (b.data s.p)),
           z := fun a => if j + 1 ≤ a ∧ a < j + 1 + (b.n1 - (j + 1))
             then wr s.z j (s.z j + d * x j) a + d * x j * b.data (s.p + 1 + (a - (j + 1)))
             else wr s.z j (s.z j + d * x j) a } : LtVecState))
        { p := 0, ip := fun _ => 0, z := fun _ => 0 } := by
    unfold mltaLtMVec_loop
    rw [← hsq]
    simp only [ltVec_inner]
  obtain ⟨_, k2, k3⟩ := key b.n1 (le_refl _)
  rw [hdef]
  refine ⟨k2, ?_⟩
  intro a ha
  rw [k3 a, if_pos ha]

end mblock

/-- The loop `for (i=0; i<n1; ++i) y[ip[i]] = y[ip[i]] + z[i];` for an injective `ip`. -/
theorem scatterAdd (k : Nat) (ip : Nat → Nat) (z : Nat → dcomp)
    (hinj : ∀ i1 i2, i1 < k → i2 < k → ip i1 = ip i2 → i1 = i2) (y : Nat → dcomp) :
    (∀ i, i < k →
      forLoop k (fun i y => wr y (ip i) (y (ip i) + z i)) y (ip i) = y (ip i) + z i)
    ∧ (∀ a, (∀ i, i < k → a ≠ ip i) →
      forLoop k (fun i y => wr y (ip i) (y (ip i) + z i)) y a = y a) := by
  induction k with
  | zero =>
    refine ⟨?_, fun a _ => rfl⟩
    intro i hi
    omega
  | succ k ih =>
    obtain ⟨h1, h2⟩ := ih (fun i1 i2 hi1 hi2 h => hinj i1 i2 (by omega) (by omega) h)
    refine ⟨?_, ?_⟩
    · intro i hi
      rw [forLoop_succ]
      by_cases hik : i = k
      · subst hik
        rw [wr_same, h2 _ (fun i2 hi2 h => by
          have := hinj i i2 (by omega) (by omega) h
          omega)]
      · have hne : ip i ≠ ip k := fun h => hik (hinj i k hi (by omega) h)
        rw [wr_other _ _ _ _ hne]
        exact h1 i (by omega)
    · intro a ha
      rw [forLoop_succ, wr_other _ _ _ _ (ha k (by omega))]
      exact h2 a (fun i hi => ha i (by omega))

namespace mblock

/-- What `mltaLtMVec` computes: `y[ip[i]] += d * sum_j L[i,j] x[j]`. -/
theorem mltaLtMVec_apply (b : mblock) (hsq : b.n1 = b.n2)
    (hinj : ∀ i j, i < b.n1 → j < b.n1 →
      dcomp.toUnsigned (b.data (ltOff b.n1 i)) = dcomp.toUnsigned (b.data (ltOff b.n1 j)) →
      i = j)
    (d : dcomp) (x y : Nat → dcomp) (i : Nat) (hi : i < b.n1) :
    b.mltaLtMVec d x y (dcomp.toUnsigned (b.data (ltOff b.n1 i)))
      = y (dcomp.toUnsigned (b.data (ltOff b.n1 i)))
        + ∑ j ∈ Finset.range b.n1, d * x j * LtMentry b.n1 b.data i j := by
  obtain ⟨hip, hz⟩ := mltaLtMVec_loop_eq b hsq d x
  have hinj2 : ∀ i1 i2, i1 < b.n1 → i2 < b.n1 →
      (b.mltaLtMVec_loop d x).ip i1 = (b.mltaLtMVec_loop d x).ip i2 → i1 = i2 := by
    intro i1 i2 h1 h2 h
    rw [hip i1 h1, hip i2 h2] at h
    exact hinj i1 i2 h1 h2 h
  have h := (scatterAdd b.n1 (b.mltaLtMVec_loop d x).ip (b.mltaLtMVec_loop d x).z hinj2 y).1 i hi
  rw [hip i hi, hz i hi] at h
  exact h

/-- What `mltaLtMhVec` computes: `y[r] += d * (L^H g)[r]` with the gathered `g[i] = x[ip[i]]`. -/
theorem mltaLtMhVec_apply (b : mblock) (hsq : b.n1 = b.n2) (d : dcomp) (x y : Nat → dcomp)
    (r : Nat) (hr : r < b.n1) :
    b.mltaLtMhVec d x y r
      = y r + d * (x (dcomp.toUnsigned (b.data (ltOff b.n1 r)))
          + ∑ i ∈ Finset.Ico (r + 1) b.n1,
              dcomp.conj (b.data (ltOff b.n1 r + (i - r))) *
                x (dcomp.toUnsigned (b.data (ltOff b.n1 i)))) := by
  have hg := (diagLoop_eq b.n1 b.data (fun v => x (dcomp.toUnsigned v)) (fun _ => 0) b.n2
    (by omega)).2
  unfold mltaLtMhVec
  dsimp only
  have e0 : 0 + (r - 0) = r := by omega
  rw [axpy_apply, if_pos (by omega), ltrphv_apply, e0, if_pos hr, hg r (by omega)]
  congr 3
  apply Finset.sum_congr rfl
  intro i hi
  have hi2 := Finset.mem_Ico.mp hi
  rw [hg i (by omega)]

end mblock

/-- The elimination of column `J` in `ltrsCol`, after `cnt` rows. -/
theorem ltrs_inner (n : Nat) (L : Nat → dcomp) (off J cnt : Nat) (Z : Nat → dcomp) :
    ∀ a, forLoop cnt (fun t Z =>
        wr Z (off + (J + 1 + t))
          (Z (off + (J + 1 + t)) - L (ltOff n J + (t + 1)) * Z (off + J))) Z a
      = if off + J + 1 ≤ a ∧ a < off + J + 1 + cnt
        then Z a - L (ltOff n J + (a - (off + J))) * Z (off + J) else Z a := by
  induction cnt with
  | zero =>
    intro a
    rw [if_neg (by omega)]
    rfl
  | succ cnt ih =>
    intro a
    rw [forLoop_succ]
    by_cases ha : a = off + (J + 1 + cnt)
    · subst ha
      rw [wr_same, ih, ih, if_neg (by omega), if_neg (by omega), if_pos (by omega)]
      congr 3
      omega
    · rw [wr_other _ _ _ _ ha, ih]
      by_cases h1 : off + J + 1 ≤ a ∧ a < off + J + 1 + cnt
      · rw [if_pos h1, if_pos (by omega)]
      · rw [if_neg h1, if_neg (by omega)]

/-- Forward substitution undoes the product with the unit lower-triangular `L` on one
column. -/
theorem ltrsCol_solves (n : Nat) (L Z : Nat → dcomp) (off : Nat) (g : Nat → dcomp)
    (hZ : ∀ i, i < n → Z (off + i) = ∑ j ∈ Finset.range n, LtMentry n L i j * g j) :
    (∀ i, i < n → ltrsCol n L Z off (off + i) = g i)
    ∧ (∀ a, (a < off ∨ off + n ≤ a) → ltrsCol n L Z off a = Z a) := by
  have key : ∀ J, J ≤ n →
      (∀ i, i < n →
        forLoop J (fun j Z =>
          forLoop (n - (j + 1)) (fun t Z =>
            wr Z (off + (j + 1 + t))
              (Z (off + (j + 1 + t)) - L (ltOff n j + (t + 1)) * Z (off + j))) Z) Z (off + i)
          = if i < J then g i else ∑ j ∈ Finset.Ico J n, LtMentry n L i j * g j)
      ∧ (∀ a, (a < off ∨ off + n ≤ a) →
        forLoop J (fun j Z =>
          forLoop (n - (j + 1)) (fun t Z =>
            wr Z (off + (j + 1 + t))
              (Z (off + (j + 1 + t)) - L (ltOff n j + (t + 1)) * Z (off + j))) Z) Z a = Z a) := by
    intro J
    induction J with
    | zero =>
      intro _
      refine ⟨?_, fun a _ => rfl⟩
      intro i hi
      rw [if_neg (by omega), ← Finset.range_eq_Ico]
      exact hZ i hi
    | succ J ih =>
      intro hJ
      obtain ⟨h1, h2⟩ := ih (by omega)
      have hJJ : forLoop J (fun j Z =>
          forLoop (n - (j + 1)) (fun t Z =>
            wr Z (off + (j + 1 + t))
              (Z (off + (j + 1 + t)) - L (ltOff n j + (t + 1)) * Z (off + j))) Z) Z (off + J)
          = g J := by
        rw [h1 J (by omega), if_neg (by omega), Finset.sum_eq_sum_Ico_succ_bot (by omega),
          LtMentry_diag]
        have hz : ∑ k ∈ Finset.Ico (J + 1) n, LtMentry n L J k * g k = 0 := by
          apply Finset.sum_eq_zero
          intro k hk
          have hk2 := Finset.mem_Ico.mp hk
          rw [LtMentry_above _ _ _ _ (by omega)]
          ring
        rw [hz]
        ring
      refine ⟨?_, ?_⟩
      · intro i hi
        rw [forLoop_succ, ltrs_inner]
        rcases Nat.lt_trichotomy i J with h | h | h
        · rw [if_neg (by omega), h1 i hi, if_pos h, if_pos (by omega)]
        · subst h
          rw [if_neg (by omega), hJJ, if_pos (by omega)]
        · rw [if_pos (by omega), hJJ, h1 i hi, if_neg (by omega), if_neg (by omega),
            Finset.sum_eq_sum_Ico_succ_bot (by omega), LtMentry_below _ _ _ _ h]
          have e : off + i - (off + J) = i - J := by omega
          rw [e]
          ring
      · intro a ha
        rw [forLoop_succ, ltrs_inner, if_neg (by omega)]
        exact h2 a ha
  obtain ⟨k1, k2⟩ := key n (le_refl _)
  refine ⟨?_, k2⟩
  intro i hi
  have h := k1 i hi
  rw [if_pos hi] at h
  exact h

/-- The solve `ltrs` with `m` right-hand sides undoes the product with `L` column by
column. -/
theorem ltrs_solves (n : Nat) (L : Nat → dcomp) (m : Nat) (Z : Nat → dcomp) (ld : Nat)
    (hld : n ≤ ld) (g : Nat → Nat → dcomp)
    (hZ : ∀ c i, c < m → i < n →
      Z (c * ld + i) = ∑ j ∈ Finset.range n, LtMentry n L i j * g c j) :
    ∀ c i, c < m → i < n → ltrs n L m Z ld (c * ld + i) = g c i := by
  have key : ∀ C, C ≤ m →
      (∀ c i, c < C → i < n →
        forLoop C (fun c B => ltrsCol n L B (c * ld)) Z (c * ld + i) = g c i)
      ∧ (∀ a, C * ld ≤ a → forLoop C (fun c B => ltrsCol n L B (c * ld)) Z a = Z a) := by
    intro C
    induction C with
    | zero =>
      intro _
      refine ⟨?_, fun a _ => rfl⟩
      intro c i hc
      omega
    | succ C ih =>
      intro hC
      obtain ⟨h1, h2⟩ := ih (by omega)
      have hcol : ∀ i, i < n →
          forLoop C (fun c B => ltrsCol n L B (c * ld)) Z (C * ld + i) =
            ∑ j ∈ Finset.range n, LtMentry n L i j * g C j := by
        intro i hi
        rw [h2 _ (by omega)]
        exact hZ C i (by omega) hi
      obtain ⟨s1, s2⟩ := ltrsCol_solves n L
        (forLoop C (fun c B => ltrsCol n L B (c * ld)) Z) (C * ld) (g C) hcol
      have hmul : (C + 1) * ld = C * ld + ld := by ring
      refine ⟨?_, ?_⟩
      · intro c i hc hi
        rw [forLoop_succ]
        by_cases hcC : c = C
        · subst hcC
          exact s1 i hi
        · have hlt : c < C := by omega
          have hm : (c + 1) * ld ≤ C * ld := Nat.mul_le_mul_right _ hlt
          rw [Nat.add_mul] at hm
          rw [s2 _ (Or.inl (by omega))]
          exact h1 c i hlt hi
      · intro a ha
        rw [forLoop_succ, s2 a (Or.inr (by omega))]
        exact h2 a (by omega)
  exact fun c i hc hi => (key m (le_refl _)).1 c i hc hi

/-- The diagonal slot of column `j` written by `decomp_LU` holds the final `perm[j]`. -/
theorem decomp_LU_diag (n1 : Nat) (F : Nat → dcomp) (ipiv : Nat → Nat)
    (hpiv : ∀ j, j < n1 → j + 1 ≤ ipiv j ∧ ipiv j ≤ n1) (j : Nat) (hj : j < n1) :
    (decomp_LU n1 F ipiv).L (ltOff n1 j) = ((applySwaps ipiv n1 j : Nat) : dcomp) := by
  rw [applySwaps_stable ipiv n1 hpiv j n1 hj (le_refl _)]
  exact (decomp_LU_inv n1 F ipiv n1 (le_refl _)).2.2.2.2.2.1 j hj

/-! ## `ltr_solve` inverts the operator of `mltaLtMVec` (C6) -/

/-- C6: for an `LtM` block of order `n1` whose diagonal slots encode an injective map `ip` of
`[0, n1)` into itself, every `m`, every `ldB >= n1` and every `X`: if each column of `B` is
`P L x` as computed by `mltaLtMVec` with `d = 1` from `y = 0`, then `ltr_solve(m, B)`
overwrites `B` with `X` (exact arithmetic, `lapack::ltrs` as unit-lower forward substitution
on the stored layout).  The permutation decoded by stepping `p += n1-j` is the content of the
diagonal slots, hence the one `decomp_LU` encoded. -/
theorem ltr_solve_inverts_mltaLtMVec (b : mblock) (hsq : b.n1 = b.n2)
    (hrange : ∀ j, j < b.n1 → dcomp.toUnsigned (b.data (ltOff b.n1 j)) < b.n1)
    (hinj : ∀ i j, i < b.n1 → j < b.n1 →
      dcomp.toUnsigned (b.data (ltOff b.n1 i)) = dcomp.toUnsigned (b.data (ltOff b.n1 j)) →
      i = j)
    (m ldB : Nat) (hld : b.n1 ≤ ldB) (X B : Nat → dcomp)
    (hB : ∀ c r, c < m → r < b.n1 →
      B (r + c * ldB) = b.mltaLtMVec 1 (fun j => X (j + c * ldB)) (fun _ => 0) r) :
    (∀ c r, c < m → r < b.n1 → b.ltr_solve m B ldB (r + c * ldB) = X (r + c * ldB))
    ∧ (∀ j, j < b.n1 → b.decodeIp j = dcomp.toUnsigned (b.data (ltOff b.n1 j)))
    ∧ (∀ (n1 : Nat) (F : Nat → dcomp) (ipiv : Nat → Nat),
        (∀ j, j < n1 → j + 1 ≤ ipiv j ∧ ipiv j ≤ n1) →
        ∀ j, j < n1 →
          (LtMblock n1 (decomp_LU n1 F ipiv).L).decodeIp j = applySwaps ipiv n1 j) := by
  refine ⟨?_, fun j hj => mblock.decodeIp_eq b hsq j hj, ?_⟩
  · intro c r hc hr
    have hdef : b.ltr_solve m B ldB =
        forLoop m (fun j B2 =>
          copy b.n1
            (ltrs b.n1 b.data m
              (forLoop m (fun j Z =>
                forLoop b.n1 (fun i Z => wr Z (i + j * b.n1) (B (b.decodeIp i + j * ldB))) Z)
                (fun _ => 0)) b.n1) (j * b.n1) B2 (j * ldB)) B := rfl
    have hgather := (writeLoop2 m b.n1 (fun i j => i + j * b.n1)
      (fun i j => B (b.decodeIp i + j * ldB))
      (fun i1 j1 i2 j2 hi1 _ hi2 _ h => by
        by_contra hne
        exact addr_ne b.n1 i1 j1 i2 j2 hi1 hi2 (by omega) h) (fun _ => 0)).1
    have hZ : ∀ c i, c < m → i < b.n1 →
        (forLoop m (fun j Z =>
          forLoop b.n1 (fun i Z => wr Z (i + j * b.n1) (B (b.decodeIp i + j * ldB))) Z)
          (fun _ => 0)) (c * b.n1 + i)
          = ∑ j ∈ Finset.range b.n1,
              LtMentry b.n1 b.data i j * (fun c j => X (j + c * ldB)) c j := by
      intro c i hc hi
      rw [Nat.add_comm (c * b.n1) i]
      have h1 := hgather c i hc hi
      rw [h1, mblock.decodeIp_eq b hsq i hi, hB c _ hc (hrange i hi),
        mblock.mltaLtMVec_apply b hsq hinj 1 _ _ i hi, zero_add]
      apply Finset.sum_congr rfl
      intro j _
      ring
    rw [hdef, Nat.add_comm r (c * ldB), copyStrided_inside m b.n1 _ b.n1 B ldB c r hld hc hr,
      ltrs_solves b.n1 b.data m _ b.n1 (le_refl _) (fun c j => X (j + c * ldB)) hZ c r hc hr,
      Nat.add_comm]
  · intro n1 F ipiv hpiv j hj
    have h := mblock.decodeIp_eq (LtMblock n1 (decomp_LU n1 F ipiv).L) rfl j hj
    rw [h]
    show dcomp.toUnsigned ((decomp_LU n1 F ipiv).L (ltOff n1 j)) = applySwaps ipiv n1 j
    rw [decomp_LU_diag n1 F ipiv hpiv j hj, dcomp.toUnsigned_natCast]

theorem blockLt2_diag0 : dcomp.toUnsigned (blockLt2.data (ltOff blockLt2.n1 0)) = 1 := by
  have h : blockLt2.data (ltOff blockLt2.n1 0) = ((1 : Nat) : dcomp) := by
    simp [blockLt2, LtMblock, ltOff]
  rw [h, dcomp.toUnsigned_natCast]

theorem blockLt2_diag1 : dcomp.toUnsigned (blockLt2.data (ltOff blockLt2.n1 1)) = 0 := by
  have h : blockLt2.data (ltOff blockLt2.n1 1) = ((0 : Nat) : dcomp) := by
    simp [blockLt2, LtMblock, ltOff]
  rw [h, dcomp.toUnsigned_natCast]

theorem blockLt2_range (j : Nat) (hj : j < blockLt2.n1) :
    dcomp.toUnsigned (blockLt2.data (ltOff blockLt2.n1 j)) < blockLt2.n1 := by
  have hn : blockLt2.n1 = 2 := rfl
  have hj2 : j = 0 ∨ j = 1 := by omega
  rcases hj2 with rfl | rfl
  · rw [blockLt2_diag0, hn]
    decide
  · rw [blockLt2_diag1, hn]
    decide

theorem blockLt2_inj (i j : Nat) (hi : i < blockLt2.n1) (hj : j < blockLt2.n1)
    (h : dcomp.toUnsigned (blockLt2.data (ltOff blockLt2.n1 i))
      = dcomp.toUnsigned (blockLt2.data (ltOff blockLt2.n1 j))) : i = j := by
  have hn : blockLt2.n1 = 2 := rfl
  have hi2 : i = 0 ∨ i = 1 := by omega
  have hj2 : j = 0 ∨ j = 1 := by omega
  rcases hi2 with rfl | rfl <;> rcases hj2 with rfl | rfl
  · rfl
  · rw [blockLt2_diag0, blockLt2_diag1] at h
    omega
  · rw [blockLt2_diag0, blockLt2_diag1] at h
    omega
  · rfl

/-- C6 evaluated on `L = [[1,0],[2/3,1]]`, `ip = [1,0]`, `X = (1, 2)`, one right-hand side:
`ltr_solve` applied to `B = P L X` returns `X`. -/
theorem ltr_solve_inverts_mltaLtMVec_witness :
    blockLt2.n1 = blockLt2.n2 ∧ blockLt2.n1 ≤ 2
    ∧ blockLt2.ltr_solve 1 (blockLt2.mltaLtMVec 1 vecX12 (fun _ => 0)) 2 (0 + 0 * 2)
        = vecX12 (0 + 0 * 2)
    ∧ blockLt2.ltr_solve 1 (blockLt2.mltaLtMVec 1 vecX12 (fun _ => 0)) 2 (1 + 0 * 2)
        = vecX12 (1 + 0 * 2) := by
  have hB : ∀ c r, c < 1 → r < blockLt2.n1 →
      blockLt2.mltaLtMVec 1 vecX12 (fun _ => 0) (r + c * 2)
        = blockLt2.mltaLtMVec 1 (fun j => vecX12 (j + c * 2)) (fun _ => 0) r := by
    intro c r hc _
    have hc0 : c = 0 := by omega
    subst hc0
    simp only [Nat.zero_mul, Nat.add_zero]
  have h := (ltr_solve_inverts_mltaLtMVec blockLt2 rfl blockLt2_range blockLt2_inj 1 2
    (le_refl _) vecX12 (blockLt2.mltaLtMVec 1 vecX12 (fun _ => 0)) hB).1
  exact ⟨rfl, le_refl _, h 0 0 (by decide) (by decide), h 0 1 (by decide) (by decide)⟩

/-! ## `ltrh_solve` inverts the operator of `mltaLtMhVec`, the adjoint of `mltaLtMVec` (C7) -/

/-- Column `c` of the unit lower-triangular matrix, summed against `G`. -/
theorem LtM_colSum (n : Nat) (data G : Nat → dcomp) (c : Nat) (hc : c < n) :
    G c + ∑ i ∈ Finset.Ico (c + 1) n, data (ltOff n c + (i - c)) * G i
      = ∑ i ∈ Finset.range n, LtMentry n data i c * G i := by
  rw [← Finset.sum_range_add_sum_Ico _ (by omega : c ≤ n),
    Finset.sum_eq_sum_Ico_succ_bot hc, LtMentry_diag]
  have hz : ∑ k ∈ Finset.range c, LtMentry n data k c * G k = 0 := by
    apply Finset.sum_eq_zero
    intro k hk
    have hk2 := Finset.mem_range.mp hk
    rw [LtMentry_above _ _ _ _ hk2]
    ring
  have hs : ∑ k ∈ Finset.Ico (c + 1) n, LtMentry n data k c * G k
      = ∑ i ∈ Finset.Ico (c + 1) n, data (ltOff n c + (i - c)) * G i := by
    apply Finset.sum_congr rfl
    intro k hk
    have hk2 := Finset.mem_Ico.mp hk
    rw [LtMentry_below _ _ _ _ (by omega)]
  rw [hz, hs]
  ring

/-- C7: for an `LtM` block of order `n1` whose diagonal slots encode an injective map `ip` of
`[0, n1)` into itself, every `m`, every `ldB >= n1` and every `X`: if each column of `B` is
`L^H P^{-1} x` as computed by `mltaLtMhVec` with `d = 1` from `y = 0`, then
`ltrh_solve(m, B)` overwrites `B` with `X`; and the operator of `mltaLtMhVec` is the adjoint
of the operator of `mltaLtMVec`, `<y, P L x> = <L^H P^{-1} y, x>` with
`<u, v> = sum_r conj(u[r]) v[r]` (exact arithmetic, triangular kernels on the stored
layout). -/
theorem ltrh_solve_inverts_mltaLtMhVec (b : mblock) (hsq : b.n1 = b.n2)
    (hrange : ∀ j, j < b.n1 → dcomp.toUnsigned (b.data (ltOff b.n1 j)) < b.n1)
    (hinj : ∀ i j, i < b.n1 → j < b.n1 →
      dcomp.toUnsigned (b.data (ltOff b.n1 i)) = dcomp.toUnsigned (b.data (ltOff b.n1 j)) →
      i = j)
    (m ldB : Nat) (hld : b.n1 ≤ ldB) (X B : Nat → dcomp)
    (hB : ∀ c r, c < m → r < b.n1 →
      B (r + c * ldB) = b.mltaLtMhVec 1 (fun j => X (j + c * ldB)) (fun _ => 0) r) :
    (∀ c r, c < m → r < b.n1 → b.ltrh_solve m B ldB (r + c * ldB) = X (r + c * ldB))
    ∧ (∀ x y : Nat → dcomp,
        ∑ r ∈ Finset.range b.n1, dcomp.conj (y r) * b.mltaLtMVec 1 x (fun _ => 0) r
          = ∑ c ∈ Finset.range b.n1,
              dcomp.conj (b.mltaLtMhVec 1 y (fun _ => 0) c) * x c) := by
  refine ⟨?_, ?_⟩
  · intro c r hc hr
    have hdef : b.ltrh_solve m B ldB =
        forLoop m (fun j B2 =>
          forLoop b.n1 (fun i B2 =>
            wr B2 (b.decodeIp i + j * ldB)
              ((ltrhs b.n1 b.data m
                (forLoop m (fun j Z => copy b.n1 B (j * ldB) Z (j * b.n1)) (fun _ => 0))
                b.n1) (i + j * b.n1))) B2) B := rfl
    have hscatter := (writeLoop2 m b.n1 (fun i j => b.decodeIp i + j * ldB)
      (fun i j => (ltrhs b.n1 b.data m
        (forLoop m (fun j Z => copy b.n1 B (j * ldB) Z (j * b.n1)) (fun _ => 0)) b.n1)
        (i + j * b.n1))
      (fun i1 j1 i2 j2 hi1 _ hi2 _ h => by
        have hd1 := mblock.decodeIp_eq b hsq i1 hi1
        have hd2 := mblock.decodeIp_eq b hsq i2 hi2
        have hr1 := hrange i1 hi1
        have hr2 := hrange i2 hi2
        dsimp only at h
        rw [hd1, hd2] at h
        by_contra hne
        have hcase : dcomp.toUnsigned (b.data (ltOff b.n1 i1))
            ≠ dcomp.toUnsigned (b.data (ltOff b.n1 i2)) ∨ j1 ≠ j2 := by
          by_cases hj : j1 = j2
          · left
            intro he
            exact hne ⟨hinj i1 i2 hi1 hi2 he, hj⟩
          · exact Or.inr hj
        exact addr_ne ldB _ j1 _ j2 (by omega) (by omega) hcase h) B).1
    have hZ : ∀ c j, c < m → j < b.n1 →
        (forLoop m (fun j Z => copy b.n1 B (j * ldB) Z (j * b.n1)) (fun _ => 0)) (c * b.n1 + j)
          = (fun c j => X (dcomp.toUnsigned (b.data (ltOff b.n1 j)) + c * ldB)) c j
            + ∑ i ∈ Finset.Ico (j + 1) b.n1,
                dcomp.conj (b.data (ltOff b.n1 j + (i - j))) *
                  (fun c j => X (dcomp.toUnsigned (b.data (ltOff b.n1 j)) + c * ldB)) c i := by
      intro c j hc hj
      rw [copyStrided_inside m b.n1 B ldB _ b.n1 c j (le_refl _) hc hj,
        Nat.add_comm (c * ldB) j, hB c j hc hj, mblock.mltaLtMhVec_apply b hsq 1 _ _ j hj,
        zero_add, one_mul]
    obtain ⟨i, hi, hir⟩ := perm_surj b.n1 (fun j => dcomp.toUnsigned (b.data (ltOff b.n1 j)))
      hrange hinj r hr
    have hdec := mblock.decodeIp_eq b hsq i hi
    have h1 := hscatter c i hc hi
    rw [hdec, hir] at h1
    rw [hdef, h1, Nat.add_comm i (c * b.n1),
      ltrhs_solves b.n1 b.data m _ b.n1 (le_refl _)
        (fun c j => X (dcomp.toUnsigned (b.data (ltOff b.n1 j)) + c * ldB)) hZ c i hc hi]
    rw [hir]
  · intro x y
    have hL : ∑ r ∈ Finset.range b.n1, dcomp.conj (y r) * b.mltaLtMVec 1 x (fun _ => 0) r
        = ∑ i ∈ Finset.range b.n1, ∑ j ∈ Finset.range b.n1,
            dcomp.conj (y (dcomp.toUnsigned (b.data (ltOff b.n1 i)))) * x j
              * LtMentry b.n1 b.data i j := by
      rw [← Finset.sum_nbij (fun i => dcomp.toUnsigned (b.data (ltOff b.n1 i)))
        (s := Finset.range b.n1) (t := Finset.range b.n1)
        (f := fun i => dcomp.conj (y (dcomp.toUnsigned (b.data (ltOff b.n1 i)))) *
          b.mltaLtMVec 1 x (fun _ => 0) (dcomp.toUnsigned (b.data (ltOff b.n1 i))))]
      · apply Finset.sum_congr rfl
        intro i hi
        have hi2 := Finset.mem_range.mp hi
        rw [mblock.mltaLtMVec_apply b hsq hinj 1 x _ i hi2, zero_add, Finset.mul_sum]
        apply Finset.sum_congr rfl
        intro j _
        ring
      · intro i hi
        exact Finset.mem_range.mpr (hrange i (Finset.mem_range.mp hi))
      · intro i1 hi1 i2 hi2 h
        exact hinj i1 i2 (Finset.mem_range.mp (Finset.mem_coe.mp hi1))
          (Finset.mem_range.mp (Finset.mem_coe.mp hi2)) h
      · intro v hv
        obtain ⟨j, hj, hjv⟩ := perm_surj b.n1
          (fun j => dcomp.toUnsigned (b.data (ltOff b.n1 j))) hrange hinj v
          (Finset.mem_range.mp (Finset.mem_coe.mp hv))
        exact ⟨j, Finset.mem_coe.mpr (Finset.mem_range.mpr hj), hjv⟩
      · intro i _
        rfl
    have hR : ∑ c ∈ Finset.range b.n1, dcomp.conj (b.mltaLtMhVec 1 y (fun _ => 0) c) * x c
        = ∑ c ∈ Finset.range b.n1, ∑ i ∈ Finset.range b.n1,
            dcomp.conj (y (dcomp.toUnsigned (b.data (ltOff b.n1 i)))) * x c
              * LtMentry b.n1 b.data i c := by
      apply Finset.sum_congr rfl
      intro c hc
      have hc2 := Finset.mem_range.mp hc
      rw [mblock.mltaLtMhVec_apply b hsq 1 y _ c hc2, zero_add, one_mul, dcomp.conj_add,
        conj_sum]
      have hs : ∑ i ∈ Finset.Ico (c + 1) b.n1,
          dcomp.conj (dcomp.conj (b.data (ltOff b.n1 c + (i - c))) *
            y (dcomp.toUnsigned (b.data (ltOff b.n1 i))))
          = ∑ i ∈ Finset.Ico (c + 1) b.n1, b.data (ltOff b.n1 c + (i - c)) *
              dcomp.conj (y (dcomp.toUnsigned (b.data (ltOff b.n1 i)))) := by
        apply Finset.sum_congr rfl
        intro i _
        rw [dcomp.conj_mul, dcomp.conj_conj]
      rw [hs, LtM_colSum b.n1 b.data
        (fun i => dcomp.conj (y (dcomp.toUnsigned (b.data (ltOff b.n1 i))))) c hc2,
        Finset.sum_mul]
      apply Finset.sum_congr rfl
      intro i _
      ring
    rw [hL, hR, Finset.sum_comm]

/-- C7 evaluated on `L = [[1,0],[2/3,1]]`, `ip = [1,0]`, `X = (1, 2)`, one right-hand side:
`ltrh_solve` applied to `B = L^H P^{-1} X` returns `X`. -/
theorem ltrh_solve_inverts_mltaLtMhVec_witness :
    blockLt2.n1 = blockLt2.n2 ∧ blockLt2.n1 ≤ 2
    ∧ blockLt2.ltrh_solve 1 (blockLt2.mltaLtMhVec 1 vecX12 (fun _ => 0)) 2 (0 + 0 * 2)
        = vecX12 (0 + 0 * 2)
    ∧ blockLt2.ltrh_solve 1 (blockLt2.mltaLtMhVec 1 vecX12 (fun _ => 0)) 2 (1 + 0 * 2)
        = vecX12 (1 + 0 * 2) := by
  have hB : ∀ c r, c < 1 → r < blockLt2.n1 →
      blockLt2.mltaLtMhVec 1 vecX12 (fun _ => 0) (r + c * 2)
        = blockLt2.mltaLtMhVec 1 (fun j => vecX12 (j + c * 2)) (fun _ => 0) r := by
    intro c r hc _
    have hc0 : c = 0 := by omega
    subst hc0
    simp only [Nat.zero_mul, Nat.add_zero]
  have h := (ltrh_solve_inverts_mltaLtMhVec blockLt2 rfl blockLt2_range blockLt2_inj 1 2
    (le_refl _) vecX12 (blockLt2.mltaLtMhVec 1 vecX12 (fun _ => 0)) hB).1
  exact ⟨rfl, le_refl _, h 0 0 (by decide) (by decide), h 0 1 (by decide) (by decide)⟩

/-! ## `addLrM` with an empty increment (C11) -/

theorem wr_self_add_zero (C : Nat → dcomp) (a : Nat) : wr C a (C a + 0) = C := by
  funext t
  by_cases h : t = a
  · subst h
    rw [wr_same]
    ring
  · rw [wr_other _ _ _ _ h]

/-- The modelled dense accumulation `data += U V^H` with `k = 0` columns leaves `data` as it
is. -/
theorem addLrM_toGeM_data_zero (n1 n2 : Nat) (U : Nat → dcomp) (ldU : Nat) (V : Nat → dcomp)
    (ldV : Nat) (data : Nat → dcomp) : addLrM_toGeM_data n1 n2 0 U ldU V ldV data = data := by
  unfold addLrM_toGeM_data
  have hin : ∀ (j m : Nat) (C : Nat → dcomp),
      forLoop m (fun i C =>
        wr C (i + j * n1)
          (C (i + j * n1) +
            ∑ l ∈ Finset.range 0, U (i + l * ldU) * dcomp.conj (V (j + l * ldV)))) C = C := by
    intro j m C
    induction m with
    | zero => rfl
    | succ m ih =>
      rw [forLoop_succ, ih, Finset.sum_range_zero, wr_self_add_zero]
  induction n2 with
  | zero => rfl
  | succ n ih =>
    rw [forLoop_succ, ih, hin]

/-- C11 refuted at a concrete input: on the `2 x 2` low-rank block of rank 2 (`2*(2+2) > 4`),
`addLrM` with `k = 0` and `haarInfo = NULL` returns a block that is no longer tagged
low-rank. -/
theorem addLrM_zero_promotes_full_rank_block :
    blockLr2full.isLrM = true
    ∧ (blockLr2full.addLrM 0 colE2 2 colE2 2 (1 / 10) 2 none svalsId2 facId2).isLrM = false
    ∧ (blockLr2full.addLrM 0 colE2 2 colE2 2 (1 / 10) 2 none svalsId2 facId2).info
        ≠ blockLr2full.info := by
  refine ⟨rfl, rfl, ?_⟩
  intro h
  have h2 := congrArg mbl_info.is_LrM h
  exact Bool.noConfusion h2

/-- C11 (amended): with `k = 0` and `haarInfo = NULL`, `addLrM` leaves tag, rank and data of
the block unchanged for every dense block (GeM, UtM, HeM, SyM) and for every low-rank block
with `r*(n1+n2) <= n1*n2 < 2^32` (so that neither product overflows `unsigned`); a low-rank
block with `r*(n1+n2) > n1*n2` and both products below `2^32` is converted to GeM by the
promotion test that follows `addtrll`. -/
theorem addLrM_zero_noop (b : mblock) (U : Nat → dcomp) (ldU : Nat) (V : Nat → dcomp)
    (ldV : Nat) (eps : ℚ) (kgoal : Nat) (S : Nat → ℚ) (fac : Nat → dcomp) :
    ((b.isLrM = false
        ∨ (b.bl_rank * (b.n1 + b.n2) ≤ b.n1 * b.n2 ∧ b.n1 * b.n2 < 2 ^ 32)) →
      (b.addLrM 0 U ldU V ldV eps kgoal none S fac).info = b.info
      ∧ (b.addLrM 0 U ldU V ldV eps kgoal none S fac).bl_rank = b.bl_rank
      ∧ (b.addLrM 0 U ldU V ldV eps kgoal none S fac).data = b.data
      ∧ (b.addLrM 0 U ldU V ldV eps kgoal none S fac).n1 = b.n1
      ∧ (b.addLrM 0 U ldU V ldV eps kgoal none S fac).n2 = b.n2)
    ∧ (b.isLrM = true → b.n1 * b.n2 < 2 ^ 32 → b.bl_rank * (b.n1 + b.n2) < 2 ^ 32 →
      b.bl_rank * (b.n1 + b.n2) > b.n1 * b.n2 →
      (b.addLrM 0 U ldU V ldV eps kgoal none S fac).isGeM = true) := by
  have h0 : b.addtrll 0 eps kgoal none S fac = b := by
    unfold mblock.addtrll
    rw [if_neg (by omega)]
  refine ⟨?_, ?_⟩
  · intro h
    by_cases hL : b.isLrM = true
    · have hle : b.bl_rank * (b.n1 + b.n2) ≤ b.n1 * b.n2 ∧ b.n1 * b.n2 < 2 ^ 32 := by
        rcases h with h | h
        · rw [hL] at h
          exact Bool.noConfusion h
        · exact h
      have ht := mblock.u32_test_iff b.bl_rank b.n1 b.n2 hle.2 (lt_of_le_of_lt hle.1 hle.2)
      have e : b.addLrM 0 U ldU V ldV eps kgoal none S fac = b := by
        unfold mblock.addLrM
        rw [if_pos hL]
        simp only [h0]
        rw [if_neg (fun hx => absurd (ht.mp hx) (not_lt.mpr hle.1))]
      rw [e]
      exact ⟨rfl, rfl, rfl, rfl, rfl⟩
    · by_cases hH : (b.isHeM || b.isSyM) = true
      · have e : b.addLrM 0 U ldU V ldV eps kgoal none S fac = b := by
          unfold mblock.addLrM
          rw [if_neg hL, if_pos hH]
          rfl
        rw [e]
        exact ⟨rfl, rfl, rfl, rfl, rfl⟩
      · by_cases hU : b.isUtM = true
        · have e : b.addLrM 0 U ldU V ldV eps kgoal none S fac = b := by
            unfold mblock.addLrM
            rw [if_neg hL, if_neg hH, if_pos hU]
            rfl
          rw [e]
          exact ⟨rfl, rfl, rfl, rfl, rfl⟩
        · have e : b.addLrM 0 U ldU V ldV eps kgoal none S fac
              = b.addLrM_toGeM 0 U ldU V ldV := by
            unfold mblock.addLrM
            rw [if_neg hL, if_neg hH, if_neg hU]
          rw [e]
          refine ⟨rfl, rfl, ?_, rfl, rfl⟩
          exact addLrM_toGeM_data_zero b.n1 b.n2 U ldU V ldV b.data
  · intro hL ho1 ho2 hgt
    have ht := mblock.u32_test_iff b.bl_rank b.n1 b.n2 ho1 ho2
    have e : b.addLrM 0 U ldU V ldV eps kgoal none S fac = b.convLrM_toGeM := by
      unfold mblock.addLrM
      rw [if_pos hL]
      simp only [h0]
      rw [if_pos (ht.mpr hgt)]
    rw [e]
    exact mblock.convLrM_toGeM_isGeM b

/-- C11 (amended) evaluated on the `3 x 3` low-rank block of rank 1 (`1*6 <= 9 < 2^32`):
`addLrM` with `k = 0` leaves rank and data unchanged. -/
theorem addLrM_zero_noop_witness :
    (blockLr3.isLrM = false
      ∨ (blockLr3.bl_rank * (blockLr3.n1 + blockLr3.n2) ≤ blockLr3.n1 * blockLr3.n2
        ∧ blockLr3.n1 * blockLr3.n2 < 2 ^ 32))
    ∧ (blockLr3.addLrM 0 colE2 3 colE2 3 (1 / 10) 3 none svalsId2 facId2).bl_rank
        = blockLr3.bl_rank
    ∧ (blockLr3.addLrM 0 colE2 3 colE2 3 (1 / 10) 3 none svalsId2 facId2).data
        = blockLr3.data := by
  have hyp : blockLr3.isLrM = false
      ∨ (blockLr3.bl_rank * (blockLr3.n1 + blockLr3.n2) ≤ blockLr3.n1 * blockLr3.n2
        ∧ blockLr3.n1 * blockLr3.n2 < 2 ^ 32) := Or.inr ⟨by decide, by decide⟩
  have h := (addLrM_zero_noop blockLr3 colE2 3 colE2 3 (1 / 10) 3 svalsId2 facId2).1 hyp
  exact ⟨hyp, h.2.1, h.2.2.1⟩

/-- The bound `n1*n2 < 2^32` is needed: on the `65536 x 65536` low-rank block of rank 1
(`1*(n1+n2) = 131072 <= n1*n2 = 2^32`) the product `n1*n2` wraps to `0` in `unsigned`, the
test `bl_rank*(n1+n2)>n1*n2` is true and `addLrM` with `k = 0` converts the block to GeM. -/
theorem addLrM_zero_promotes_on_overflow :
    blockLrBig.isLrM = true
    ∧ blockLrBig.bl_rank * (blockLrBig.n1 + blockLrBig.n2) ≤ blockLrBig.n1 * blockLrBig.n2
    ∧ u32 (blockLrBig.n1 * blockLrBig.n2) = 0
    ∧ (blockLrBig.addLrM 0 colE2 65536 colE2 65536 (1 / 10) 1 none svalsId2 facId2).isGeM
        = true := by
  have h0 : blockLrBig.addtrll 0 (1 / 10) 1 none svalsId2 facId2 = blockLrBig := by
    unfold mblock.addtrll
    rw [if_neg (by omega)]
  have ht : u32 (blockLrBig.bl_rank * u32 (blockLrBig.n1 + blockLrBig.n2))
      > u32 (blockLrBig.n1 * blockLrBig.n2) := by
    show (1 * ((65536 + 65536) % 2 ^ 32)) % 2 ^ 32 > (65536 * 65536) % 2 ^ 32
    norm_num
  have e : blockLrBig.addLrM 0 colE2 65536 colE2 65536 (1 / 10) 1 none svalsId2 facId2
      = blockLrBig.convLrM_toGeM := by
    unfold mblock.addLrM
    rw [if_pos (show blockLrBig.isLrM = true from rfl)]
    simp only [h0]
    rw [if_pos ht]
  refine ⟨rfl, ?_, ?_, ?_⟩
  · show 1 * (65536 + 65536) ≤ 65536 * 65536
    norm_num
  · show (65536 * 65536) % 2 ^ 32 = 0
    norm_num
  · rw [e]
    exact mblock.convLrM_toGeM_isGeM blockLrBig

/-! ## Remainder of `addtrll_rmnd` (C12, C13) -/

/-- The remainder loop stops at the larger of `kt` and the rank selected with the cutoff
`1e-16`. -/
theorem rmndWhile_eq (S : Nat → ℚ) (kt c : Nat) (h : kt ≤ c) :
    mblock.rmndWhile S kt c = max kt (truncWhile S (1 / 10 ^ 16) c) := by
  induction c with
  | zero =>
    have : kt = 0 := by omega
    subst this
    rfl
  | succ c ih =>
    unfold mblock.rmndWhile truncWhile
    by_cases hf : S c ≤ (1 / 10 ^ 16) * S 0 ∨ S c < EPS0
    · rw [if_pos hf]
      by_cases hk : c + 1 > kt
      · rw [if_pos ⟨hk, hf⟩]
        exact ih (by omega)
      · rw [if_neg (fun hh => hk hh.1)]
        have := truncWhile_le S (1 / 10 ^ 16) c
        omega
    · rw [if_neg hf, if_neg (fun hh => hf hh.2)]
      omega

theorem MIN_amin (n1 n2 ksum : Nat) :
    MIN (MIN n1 ksum) (MIN n2 ksum) = min (min n1 n2) ksum := by
  simp only [MIN_eq_min]
  omega

/-- Retained rank and remainder rank of `addtrll_rmnd` for `k > 0`, in terms of the two
loops. -/
theorem addtrll_rmnd_ranks (b : mblock) (k : Nat) (hk : k > 0) (delta : ℚ) (kgoal : Nat)
    (S : Nat → ℚ) (fac : Nat → dcomp) :
    (b.addtrll_rmnd k delta kgoal S fac).1.bl_rank
      = truncWhile S delta (MIN (min (min b.n1 b.n2) (b.bl_rank + k)) kgoal)
    ∧ (b.addtrll_rmnd k delta kgoal S fac).2
      = mblock.rmndWhile S (truncWhile S delta (MIN (min (min b.n1 b.n2) (b.bl_rank + k)) kgoal))
          (min (min b.n1 b.n2) (b.bl_rank + k))
        - truncWhile S delta (MIN (min (min b.n1 b.n2) (b.bl_rank + k)) kgoal) := by
  unfold mblock.addtrll_rmnd
  rw [if_pos hk]
  simp only [addtrll_rmnd_kt, MIN_amin]
  refine ⟨?_, trivial⟩
  split
  · rfl
  · rename_i h
    have : truncWhile S delta (MIN (min (min b.n1 b.n2) (b.bl_rank + k)) kgoal) = 0 := by
      omega
    rw [this]
    rfl

/-- C12 refuted at a concrete input: `2 x 2` block of rank 1, increment of rank 1 (so
`amin = 2`), `kgoal = amin`, singular values `1, 1/2` and `delta = 9/10`; the retained rank is
1 and the returned remainder rank is `kR = 1`, with `UR`, `VR` allocated. -/
theorem addtrll_rmnd_remainder_nonzero_at_amin :
    min (min blockLr2.n1 blockLr2.n2) (blockLr2.bl_rank + 1) = 2
    ∧ (blockLr2.addtrll_rmnd 1 (9 / 10) 2 svalsHalf facId2).1.bl_rank = 1
    ∧ (blockLr2.addtrll_rmnd 1 (9 / 10) 2 svalsHalf facId2).2 = 1
    ∧ (blockLr2.addtrll_rmnd_out 1 (9 / 10) 2 svalsHalf facId2 colE2 colE2).1 = 1
    ∧ (blockLr2.addtrll_rmnd_out 1 (9 / 10) 2 svalsHalf facId2 colE2 colE2).2.1.isSome = true := by
  obtain ⟨h1, h2⟩ := addtrll_rmnd_ranks blockLr2 1 (by decide) (9 / 10) 2 svalsHalf facId2
  have ha : min (min blockLr2.n1 blockLr2.n2) (blockLr2.bl_rank + 1) = 2 := by decide
  rw [ha] at h1 h2
  have hkt : truncWhile svalsHalf (9 / 10) (MIN 2 2) = 1 := by
    simp [truncWhile, MIN, svalsHalf, EPS0]
    norm_num
  rw [hkt] at h1 h2
  have hkl : mblock.rmndWhile svalsHalf 1 2 = 2 := by
    simp [mblock.rmndWhile, svalsHalf, EPS0]
    norm_num
  rw [hkl] at h2
  have hout : (blockLr2.addtrll_rmnd_out 1 (9 / 10) 2 svalsHalf facId2 colE2 colE2)
      = (1, some colE2, some colE2) := by
    unfold mblock.addtrll_rmnd_out
    simp only [h2]
    rfl
  exact ⟨ha, h1, h2, by rw [hout], by rw [hout]; rfl⟩

/-- C12 (amended): for `k > 0` and `kgoal = amin = min(n1, n2, r0+k)`, `addtrll_rmnd` returns
`kR = 0` and `UR = VR = NULL` whenever `delta <= 1e-16` (with `S[0] >= 0`), and whenever the
retained rank equals `amin`; for a larger `delta` the singular values discarded by `delta`
that pass the cutoff `1e-16` form a remainder of positive rank. -/
theorem addtrll_rmnd_no_remainder (b : mblock) (k : Nat) (hk : k > 0) (delta : ℚ)
    (S : Nat → ℚ) (fac URk VRk : Nat → dcomp) :
    (0 ≤ S 0 → delta ≤ 1 / 10 ^ 16 →
      b.addtrll_rmnd_out k delta (min (min b.n1 b.n2) (b.bl_rank + k)) S fac URk VRk
        = (0, none, none))
    ∧ ((b.addtrll_rmnd k delta (min (min b.n1 b.n2) (b.bl_rank + k)) S fac).1.bl_rank
          = min (min b.n1 b.n2) (b.bl_rank + k) →
      b.addtrll_rmnd_out k delta (min (min b.n1 b.n2) (b.bl_rank + k)) S fac URk VRk
        = (0, none, none)) := by
  obtain ⟨h1, h2⟩ := addtrll_rmnd_ranks b k hk delta (min (min b.n1 b.n2) (b.bl_rank + k)) S fac
  have hM : MIN (min (min b.n1 b.n2) (b.bl_rank + k)) (min (min b.n1 b.n2) (b.bl_rank + k))
      = min (min b.n1 b.n2) (b.bl_rank + k) := by
    rw [MIN_eq_min, min_self]
  rw [hM] at h1 h2
  have hle := truncWhile_le S delta (min (min b.n1 b.n2) (b.bl_rank + k))
  rw [rmndWhile_eq S _ _ hle] at h2
  have hout : (b.addtrll_rmnd k delta (min (min b.n1 b.n2) (b.bl_rank + k)) S fac).2 = 0 →
      b.addtrll_rmnd_out k delta (min (min b.n1 b.n2) (b.bl_rank + k)) S fac URk VRk
        = (0, none, none) := by
    intro h0
    unfold mblock.addtrll_rmnd_out
    simp only [h0]
    rfl
  refine ⟨?_, ?_⟩
  · intro hS hd
    apply hout
    rw [h2]
    have hrl : truncWhile S (1 / 10 ^ 16) (min (min b.n1 b.n2) (b.bl_rank + k))
        ≤ truncWhile S delta (min (min b.n1 b.n2) (b.bl_rank + k)) := by
      by_contra hc
      push_neg at hc
      have hle2 := truncWhile_le S (1 / 10 ^ 16) (min (min b.n1 b.n2) (b.bl_rank + k))
      have hmax := truncWhile_max S delta (min (min b.n1 b.n2) (b.bl_rank + k)) _ hc hle2
      rcases truncWhile_spec S (1 / 10 ^ 16) (min (min b.n1 b.n2) (b.bl_rank + k)) with h0 | hp
      · omega
      · apply hmax
        right
        refine ⟨?_, hp.2⟩
        have : delta * S 0 ≤ 1 / 10 ^ 16 * S 0 := mul_le_mul_of_nonneg_right hd hS
        exact lt_of_le_of_lt this hp.1
    omega
  · intro hr
    apply hout
    rw [h2]
    rw [h1] at hr
    have hle2 := truncWhile_le S (1 / 10 ^ 16) (min (min b.n1 b.n2) (b.bl_rank + k))
    omega

/-- C12 (amended) evaluated: `2 x 2` block of rank 1, increment of rank 1, `kgoal = amin = 2`,
singular values `1, 1/2` and `delta = 0`: no remainder is returned. -/
theorem addtrll_rmnd_no_remainder_witness :
    (1 > 0) ∧ (0 ≤ svalsHalf 0) ∧ ((0 : ℚ) ≤ 1 / 10 ^ 16)
    ∧ blockLr2.addtrll_rmnd_out 1 0 (min (min blockLr2.n1 blockLr2.n2) (blockLr2.bl_rank + 1))
        svalsHalf facId2 colE2 colE2 = (0, none, none) := by
  have hS : 0 ≤ svalsHalf 0 := by
    simp [svalsHalf]
  have hd : (0 : ℚ) ≤ 1 / 10 ^ 16 := by norm_num
  exact ⟨by decide, hS, hd,
    (addtrll_rmnd_no_remainder blockLr2 1 (by decide) 0 svalsHalf facId2 colE2 colE2).1 hS hd⟩

/-- C13 refuted at a concrete input: `2 x 2` block of rank 1, increment of rank 1,
`kgoal = 2`, non-increasing singular values `1, 1e-20` and `delta = 0`; the retained rank is
`r' = 2`, the largest index passing the cutoff `1e-16` is `r_l = 1`, and the returned `kR` is
`0`, not `r_l - r' = -1`. -/
theorem addtrll_rmnd_remainder_not_difference :
    (∀ i j, i ≤ j → j < 2 → svalsTiny j ≤ svalsTiny i)
    ∧ (blockLr2.addtrll_rmnd 1 0 2 svalsTiny facId2).1.bl_rank = 2
    ∧ truncWhile svalsTiny (1 / 10 ^ 16) (min (min blockLr2.n1 blockLr2.n2) (blockLr2.bl_rank + 1))
        = 1
    ∧ (blockLr2.addtrll_rmnd 1 0 2 svalsTiny facId2).2 = 0
    ∧ (((blockLr2.addtrll_rmnd 1 0 2 svalsTiny facId2).2 : Int)
        ≠ (truncWhile svalsTiny (1 / 10 ^ 16)
            (min (min blockLr2.n1 blockLr2.n2) (blockLr2.bl_rank + 1)) : Int)
          - ((blockLr2.addtrll_rmnd 1 0 2 svalsTiny facId2).1.bl_rank : Int)) := by
  obtain ⟨h1, h2⟩ := addtrll_rmnd_ranks blockLr2 1 (by decide) 0 2 svalsTiny facId2
  have ha : min (min blockLr2.n1 blockLr2.n2) (blockLr2.bl_rank + 1) = 2 := by decide
  rw [ha] at h1 h2 ⊢
  have hkt : truncWhile svalsTiny 0 (MIN 2 2) = 2 := by
    simp [truncWhile, MIN, svalsTiny, EPS0]
    norm_num
  rw [hkt] at h1 h2
  have hkl : mblock.rmndWhile svalsTiny 2 2 = 2 := by
    simp [mblock.rmndWhile]
  rw [hkl] at h2
  have hrl : truncWhile svalsTiny (1 / 10 ^ 16) 2 = 1 := by
    simp [truncWhile, svalsTiny, EPS0]
    norm_num
  refine ⟨?_, h1, hrl, h2, ?_⟩
  · intro i j hij hj
    have hi : i = 0 ∨ i = 1 := by omega
    have hj2 : j = 0 ∨ j = 1 := by omega
    rcases hi with rfl | rfl <;> rcases hj2 with rfl | rfl <;>
      first
        | omega
        | (simp [svalsTiny]; try norm_num)
  · rw [h1, h2, hrl]
    decide

/-- C13 (amended): for `k > 0`, with `r'` the retained rank and `r_l` the largest index in
`[0, amin]` with `r_l = 0` or (`S[r_l-1] > 1e-16*S[0]` and `S[r_l-1] >= 1e-64`), the returned
remainder rank is `kR = max(r_l, r') - r'`; it equals `r_l - r'` whenever `r' <= r_l`, which
holds when `delta >= 1e-16` and `S[0] >= 0`, and is `0` otherwise.  Consequently
`r' + kR <= amin` and the columns `r' .. r'+kR-1` read from the SVD factors are in range. -/
theorem addtrll_rmnd_remainder_rank (b : mblock) (k : Nat) (hk : k > 0) (delta : ℚ)
    (kgoal : Nat) (S : Nat → ℚ) (fac : Nat → dcomp) :
    (truncWhile S (1 / 10 ^ 16) (min (min b.n1 b.n2) (b.bl_rank + k))
        ≤ min (min b.n1 b.n2) (b.bl_rank + k)
      ∧ (truncWhile S (1 / 10 ^ 16) (min (min b.n1 b.n2) (b.bl_rank + k)) = 0 ∨
          (S (truncWhile S (1 / 10 ^ 16) (min (min b.n1 b.n2) (b.bl_rank + k)) - 1)
              > 1 / 10 ^ 16 * S 0 ∧
           S (truncWhile S (1 / 10 ^ 16) (min (min b.n1 b.n2) (b.bl_rank + k)) - 1)
              ≥ 1 / 10 ^ 64))
      ∧ (∀ q, truncWhile S (1 / 10 ^ 16) (min (min b.n1 b.n2) (b.bl_rank + k)) < q →
          q ≤ min (min b.n1 b.n2) (b.bl_rank + k) →
          ¬ (q = 0 ∨ (S (q - 1) > 1 / 10 ^ 16 * S 0 ∧ S (q - 1) ≥ 1 / 10 ^ 64))))
    ∧ (b.addtrll_rmnd k delta kgoal S fac).2
        = max (truncWhile S (1 / 10 ^ 16) (min (min b.n1 b.n2) (b.bl_rank + k)))
            (b.addtrll_rmnd k delta kgoal S fac).1.bl_rank
          - (b.addtrll_rmnd k delta kgoal S fac).1.bl_rank
    ∧ ((b.addtrll_rmnd k delta kgoal S fac).1.bl_rank
          ≤ truncWhile S (1 / 10 ^ 16) (min (min b.n1 b.n2) (b.bl_rank + k)) →
        (b.addtrll_rmnd k delta kgoal S fac).2
          = truncWhile S (1 / 10 ^ 16) (min (min b.n1 b.n2) (b.bl_rank + k))
            - (b.addtrll_rmnd k delta kgoal S fac).1.bl_rank)
    ∧ (0 ≤ S 0 → 1 / 10 ^ 16 ≤ delta →
        (b.addtrll_rmnd k delta kgoal S fac).1.bl_rank
          ≤ truncWhile S (1 / 10 ^ 16) (min (min b.n1 b.n2) (b.bl_rank + k)))
    ∧ (b.addtrll_rmnd k delta kgoal S fac).1.bl_rank + (b.addtrll_rmnd k delta kgoal S fac).2
        ≤ min (min b.n1 b.n2) (b.bl_rank + k)
    ∧ (∀ j, j < (b.addtrll_rmnd k delta kgoal S fac).2 →
        (b.addtrll_rmnd k delta kgoal S fac).1.bl_rank + j
          < min (min b.n1 b.n2) (b.bl_rank + k)) := by
  obtain ⟨h1, h2⟩ := addtrll_rmnd_ranks b k hk delta kgoal S fac
  have hE : (1 : ℚ) / 10 ^ 64 = EPS0 := rfl
  have hkt := truncWhile_le S delta (MIN (min (min b.n1 b.n2) (b.bl_rank + k)) kgoal)
  have hM := MIN_eq_min (min (min b.n1 b.n2) (b.bl_rank + k)) kgoal
  have hkt2 : truncWhile S delta (MIN (min (min b.n1 b.n2) (b.bl_rank + k)) kgoal)
      ≤ min (min b.n1 b.n2) (b.bl_rank + k) := by omega
  rw [rmndWhile_eq S _ _ hkt2] at h2
  have hrl := truncWhile_le S (1 / 10 ^ 16) (min (min b.n1 b.n2) (b.bl_rank + k))
  rw [h1, h2, hE]
  refine ⟨⟨hrl, truncWhile_spec S _ _, fun q hq1 hq2 => truncWhile_max S _ _ q hq1 hq2⟩,
    ?_, ?_, ?_, ?_, ?_⟩
  · rw [max_comm]
  · intro hle
    omega
  · intro hS hd
    by_contra hc
    push_neg at hc
    have hmax := truncWhile_max S (1 / 10 ^ 16) (min (min b.n1 b.n2) (b.bl_rank + k)) _ hc hkt2
    rcases truncWhile_spec S delta (MIN (min (min b.n1 b.n2) (b.bl_rank + k)) kgoal)
      with h0 | hp
    · omega
    · apply hmax
      right
      refine ⟨?_, hp.2⟩
      have : 1 / 10 ^ 16 * S 0 ≤ delta * S 0 := mul_le_mul_of_nonneg_right hd hS
      exact lt_of_le_of_lt this hp.1
  · omega
  · intro j hj
    omega

/-- C13 (amended) evaluated: `2 x 2` block of rank 1, increment of rank 1, `kgoal = 2`,
singular values `1, 1/2` and `delta = 9/10`: `r' = 1`, `r_l = 2` and `kR = 1 = r_l - r'`. -/
theorem addtrll_rmnd_remainder_rank_witness :
    (1 > 0)
    ∧ (blockLr2.addtrll_rmnd 1 (9 / 10) 2 svalsHalf facId2).2
        = max (truncWhile svalsHalf (1 / 10 ^ 16)
              (min (min blockLr2.n1 blockLr2.n2) (blockLr2.bl_rank + 1)))
            (blockLr2.addtrll_rmnd 1 (9 / 10) 2 svalsHalf facId2).1.bl_rank
          - (blockLr2.addtrll_rmnd 1 (9 / 10) 2 svalsHalf facId2).1.bl_rank
    ∧ (blockLr2.addtrll_rmnd 1 (9 / 10) 2 svalsHalf facId2).1.bl_rank
        + (blockLr2.addtrll_rmnd 1 (9 / 10) 2 svalsHalf facId2).2
        ≤ min (min blockLr2.n1 blockLr2.n2) (blockLr2.bl_rank + 1) := by
  have h := addtrll_rmnd_remainder_rank blockLr2 1 (by decide) (9 / 10) 2 svalsHalf facId2
  exact ⟨by decide, h.2.1, h.2.2.2.2.1⟩

/-! ## Triangular shortcut in `unify_cols_LrMLrM` (C17) -/

/-- An accumulation loop `for (l = l0; l < l0 + cnt; ++l) d += f(l)`. -/
theorem accLoop_eq (f : Nat → dcomp) (l0 cnt : Nat) :
    forLoop cnt (fun t d => d + f (l0 + t)) (0 : dcomp) = ∑ l ∈ Finset.Ico l0 (l0 + cnt), f l := by
  induction cnt with
  | zero => simp
  | succ cnt ih =>
    rw [forLoop_succ, ih, ← Nat.add_assoc, Finset.sum_Ico_succ_top (by omega)]

/-- The partial sum from `MAX(i,j+k1)-k1` equals the full sum of the product of the two
upper-triangular factors. -/
theorem shortcut_sum (n1 n2b k1 k2 : Nat) (R2 V2 : Nat → dcomp) (i j : Nat) :
    ∑ l ∈ Finset.Ico (MAX i (j + k1) - k1) (MAX i (j + k1) - k1 + (k2 - (MAX i (j + k1) - k1))),
        R2 (i + l * n1) * dcomp.conj (V2 (j + l * n2b))
      = ∑ l ∈ Finset.range k2, upperR2 n1 k1 R2 i l * dcomp.conj (upperT2 n2b V2 j l) := by
  have hM := MAX_eq_max i (j + k1)
  have hlow : ∀ l, l < MAX i (j + k1) - k1 →
      upperR2 n1 k1 R2 i l * dcomp.conj (upperT2 n2b V2 j l) = 0 := by
    intro l hl
    by_cases h1 : i > l + k1
    · unfold upperR2
      rw [if_pos h1, zero_mul]
    · have h2 : j > l := by omega
      unfold upperT2
      rw [if_pos h2, dcomp.conj_zero, mul_zero]
  have hhigh : ∀ l, MAX i (j + k1) - k1 ≤ l →
      upperR2 n1 k1 R2 i l * dcomp.conj (upperT2 n2b V2 j l)
        = R2 (i + l * n1) * dcomp.conj (V2 (j + l * n2b)) := by
    intro l hl
    unfold upperR2 upperT2
    rw [if_neg (by omega), if_neg (by omega)]
  rcases Nat.lt_or_ge k2 (MAX i (j + k1) - k1) with hc | hc
  · have e : MAX i (j + k1) - k1 + (k2 - (MAX i (j + k1) - k1)) = MAX i (j + k1) - k1 := by
      omega
    rw [e, Finset.Ico_self, Finset.sum_empty]
    symm
    apply Finset.sum_eq_zero
    intro l hl
    exact hlow l (by have := Finset.mem_range.mp hl; omega)
  · have e : MAX i (j + k1) - k1 + (k2 - (MAX i (j + k1) - k1)) = k2 := by omega
    rw [e, ← Finset.sum_range_add_sum_Ico _ hc]
    have hz : ∑ l ∈ Finset.range (MAX i (j + k1) - k1),
        upperR2 n1 k1 R2 i l * dcomp.conj (upperT2 n2b V2 j l) = 0 := by
      apply Finset.sum_eq_zero
      intro l hl
      exact hlow l (Finset.mem_range.mp hl)
    rw [hz, zero_add]
    apply Finset.sum_congr rfl
    intro l hl
    exact (hhigh l (Finset.mem_Ico.mp hl).1).symm

/-- C17: for all `k1, k2, n1, n2b`, all factored arrays `R2`, `V2`, and all
`i < kU = min(n1, k1+k2)`, `j < k2`, the value stored in `M[i + kU*(j+k1)]` by the double loop
(`l` from `max(i, j+k1)-k1` to `k2-1`) is the full sum over `l = 0..k2-1` of
`R2^[i,l] * conj(T2^[j,l])`, where `R2^`, `T2^` have the entries below the diagonal
(`i > l+k1`, resp. `j > l`) replaced by zero; the subtraction `max(i, j+k1) - k1` does not
underflow, and a term is skipped exactly when one of its factors lies below the diagonal. -/
theorem unify_cols_triangular_shortcut (n1 n2b k1 k2 : Nat) (R2 V2 M : Nat → dcomp)
    (i j : Nat) (hi : i < min n1 (k1 + k2)) (hj : j < k2) :
    unify_cols_fillM n1 n2b k1 k2 R2 V2 M (i + min n1 (k1 + k2) * (j + k1))
      = ∑ l ∈ Finset.range k2, upperR2 n1 k1 R2 i l * dcomp.conj (upperT2 n2b V2 j l)
    ∧ k1 ≤ MAX i (j + k1)
    ∧ (∀ l, l < k2 → (l < MAX i (j + k1) - k1 ↔ (i > l + k1 ∨ j > l))) := by
  have hM := MAX_eq_max i (j + k1)
  refine ⟨?_, by omega, fun l _ => by omega⟩
  have hw := (writeLoop2 k2 (MIN n1 (k1 + k2))
    (fun i j => i + MIN n1 (k1 + k2) * (j + k1))
    (fun i j => forLoop (k2 - (MAX i (j + k1) - k1)) (fun t d =>
        d + R2 (i + (MAX i (j + k1) - k1 + t) * n1)
          * dcomp.conj (V2 (j + (MAX i (j + k1) - k1 + t) * n2b))) (0 : dcomp))
    (fun i1 j1 i2 j2 hi1 _ hi2 _ h => by
      by_contra hne
      have hcase : i1 ≠ i2 ∨ j1 + k1 ≠ j2 + k1 := by omega
      have := addr_ne (MIN n1 (k1 + k2)) i1 (j1 + k1) i2 (j2 + k1) hi1 hi2 hcase
      rw [Nat.mul_comm (j1 + k1), Nat.mul_comm (j2 + k1)] at this
      exact this h) M).1 j i hj (by rw [MIN_eq_min]; exact hi)
  have hdef : unify_cols_fillM n1 n2b k1 k2 R2 V2 M =
      forLoop k2 (fun j M =>
        forLoop (MIN n1 (k1 + k2)) (fun i M =>
          wr M (i + MIN n1 (k1 + k2) * (j + k1))
            (forLoop (k2 - (MAX i (j + k1) - k1)) (fun t d =>
              d + R2 (i + (MAX i (j + k1) - k1 + t) * n1)
                * dcomp.conj (V2 (j + (MAX i (j + k1) - k1 + t) * n2b))) (0 : dcomp))) M) M :=
    rfl
  rw [hdef, ← MIN_eq_min, hw,
    accLoop_eq (fun l => R2 (i + l * n1) * dcomp.conj (V2 (j + l * n2b)))]
  exact shortcut_sum n1 n2b k1 k2 R2 V2 i j

/-- C17 evaluated for `n1 = 3`, `n2b = 2`, `k1 = 1`, `k2 = 2` at `i = 2`, `j = 0`: the loop runs
over `l = 1` only and stores `R2[2,1] * conj(T2[0,1]) = 6 * conj(3i) = -18i`. -/
theorem unify_cols_triangular_shortcut_witness :
    (2 < min 3 (1 + 2)) ∧ (0 < 2)
    ∧ unify_cols_fillM 3 2 1 2 facR2 facV2 (fun _ => 0) (2 + min 3 (1 + 2) * (0 + 1))
        = ⟨0, -18⟩ := by
  have h := (unify_cols_triangular_shortcut 3 2 1 2 facR2 facV2 (fun _ => 0) 2 0
    (by decide) (by decide)).1
  refine ⟨by decide, by decide, ?_⟩
  rw [h, Finset.sum_range_succ, Finset.sum_range_one]
  simp only [upperR2, upperT2, facR2, facV2]
  ext <;> norm_num

/-! ## Givens rotations (C18, C19) -/

/-- C19: for all `dx`, `dy` of an ordered field (exact arithmetic) and a square root that is
exact at `1 + tmp^2` for the ratio `tmp` formed, the pair `(cs, sn)` of the real `genPlRot`
satisfies `cs^2 + sn^2 = 1`, and `applPlRot(dx, dy, cs, sn)` sets `dy` to `0` and `dx` to a
value whose square is `dx^2 + dy^2`; when `dy != 0` the ratio is the smaller-magnitude
argument over the larger one, so its absolute value is `<= 1` and the divisor is non-zero. -/
theorem genPlRot_real_rotation {K : Type} [LinearOrderedField K] (sqrt : K → K) (dx dy : K)
    (hs : dy ≠ 0 →
      sqrt (1 + FGMRES_D.ratioNum dx dy / FGMRES_D.ratioDen dx dy
            * (FGMRES_D.ratioNum dx dy / FGMRES_D.ratioDen dx dy))
        * sqrt (1 + FGMRES_D.ratioNum dx dy / FGMRES_D.ratioDen dx dy
            * (FGMRES_D.ratioNum dx dy / FGMRES_D.ratioDen dx dy))
        = 1 + FGMRES_D.ratioNum dx dy / FGMRES_D.ratioDen dx dy
            * (FGMRES_D.ratioNum dx dy / FGMRES_D.ratioDen dx dy)) :
    (FGMRES_D.genPlRot sqrt dx dy).1 * (FGMRES_D.genPlRot sqrt dx dy).1
        + (FGMRES_D.genPlRot sqrt dx dy).2 * (FGMRES_D.genPlRot sqrt dx dy).2 = 1
    ∧ (FGMRES_D.applPlRot dx dy (FGMRES_D.genPlRot sqrt dx dy).1
        (FGMRES_D.genPlRot sqrt dx dy).2).2 = 0
    ∧ (FGMRES_D.applPlRot dx dy (FGMRES_D.genPlRot sqrt dx dy).1
          (FGMRES_D.genPlRot sqrt dx dy).2).1
        * (FGMRES_D.applPlRot dx dy (FGMRES_D.genPlRot sqrt dx dy).1
          (FGMRES_D.genPlRot sqrt dx dy).2).1 = dx * dx + dy * dy
    ∧ (dy ≠ 0 →
        |FGMRES_D.ratioNum dx dy| ≤ |FGMRES_D.ratioDen dx dy|
        ∧ FGMRES_D.ratioDen dx dy ≠ 0
        ∧ |FGMRES_D.ratioNum dx dy / FGMRES_D.ratioDen dx dy| ≤ 1
        ∧ (FGMRES_D.genPlRot sqrt dx dy =
            if |dy| > |dx| then
              (FGMRES_D.ratioNum dx dy / FGMRES_D.ratioDen dx dy
                  * (1 / sqrt (1 + FGMRES_D.ratioNum dx dy / FGMRES_D.ratioDen dx dy
                      * (FGMRES_D.ratioNum dx dy / FGMRES_D.ratioDen dx dy))),
                1 / sqrt (1 + FGMRES_D.ratioNum dx dy / FGMRES_D.ratioDen dx dy
                      * (FGMRES_D.ratioNum dx dy / FGMRES_D.ratioDen dx dy)))
            else
              (1 / sqrt (1 + FGMRES_D.ratioNum dx dy / FGMRES_D.ratioDen dx dy
                      * (FGMRES_D.ratioNum dx dy / FGMRES_D.ratioDen dx dy)),
                FGMRES_D.ratioNum dx dy / FGMRES_D.ratioDen dx dy
                  * (1 / sqrt (1 + FGMRES_D.ratioNum dx dy / FGMRES_D.ratioDen dx dy
                      * (FGMRES_D.ratioNum dx dy / FGMRES_D.ratioDen dx dy)))))) := by
  have hden : dy ≠ 0 → |FGMRES_D.ratioNum dx dy| ≤ |FGMRES_D.ratioDen dx dy|
      ∧ FGMRES_D.ratioDen dx dy ≠ 0 := by
    intro hdy
    unfold FGMRES_D.ratioNum FGMRES_D.ratioDen
    by_cases hc : |dy| > |dx|
    · rw [if_pos hc, if_pos hc]
      exact ⟨le_of_lt hc, hdy⟩
    · rw [if_neg hc, if_neg hc]
      push_neg at hc
      refine ⟨hc, ?_⟩
      intro h0
      rw [h0, abs_zero] at hc
      exact hdy (abs_eq_zero.mp (le_antisymm hc (abs_nonneg dy)))
  have horth : ∀ cs sn : K, cs * cs + sn * sn = 1 → cs * dy - sn * dx = 0 →
      (cs * dx + sn * dy) * (cs * dx + sn * dy) = dx * dx + dy * dy := by
    intro cs sn h1 h2
    have e : (cs * dx + sn * dy) * (cs * dx + sn * dy)
        = (cs * cs + sn * sn) * (dx * dx + dy * dy) - (cs * dy - sn * dx) * (cs * dy - sn * dx) := by
      ring
    rw [e, h1, h2]
    ring
  by_cases hdy : dy = 0
  · have hg : FGMRES_D.genPlRot sqrt dx dy = (1, 0) := by
      unfold FGMRES_D.genPlRot
      rw [if_pos hdy]
    rw [hg]
    refine ⟨by simp, by simp [FGMRES_D.applPlRot, hdy], ?_, fun h => absurd hdy h⟩
    simp [FGMRES_D.applPlRot, hdy]
  · obtain ⟨hle, hne⟩ := hden hdy
    have hs2 := hs hdy
    have hpos : (0 : K) < 1 + FGMRES_D.ratioNum dx dy / FGMRES_D.ratioDen dx dy
        * (FGMRES_D.ratioNum dx dy / FGMRES_D.ratioDen dx dy) := by
      have := mul_self_nonneg (FGMRES_D.ratioNum dx dy / FGMRES_D.ratioDen dx dy)
      linarith
    have hsne : sqrt (1 + FGMRES_D.ratioNum dx dy / FGMRES_D.ratioDen dx dy
        * (FGMRES_D.ratioNum dx dy / FGMRES_D.ratioDen dx dy)) ≠ 0 := by
      intro h0
      rw [h0, mul_zero] at hs2
      exact absurd hs2 (ne_of_lt hpos)
    have hratio : |FGMRES_D.ratioNum dx dy / FGMRES_D.ratioDen dx dy| ≤ 1 := by
      rw [abs_div, div_le_one (abs_pos.mpr hne)]
      exact hle
    have hg : FGMRES_D.genPlRot sqrt dx dy =
        if |dy| > |dx| then
          (FGMRES_D.ratioNum dx dy / FGMRES_D.ratioDen dx dy
              * (1 / sqrt (1 + FGMRES_D.ratioNum dx dy / FGMRES_D.ratioDen dx dy
                  * (FGMRES_D.ratioNum dx dy / FGMRES_D.ratioDen dx dy))),
            1 / sqrt (1 + FGMRES_D.ratioNum dx dy / FGMRES_D.ratioDen dx dy
                  * (FGMRES_D.ratioNum dx dy / FGMRES_D.ratioDen dx dy)))
        else
          (1 / sqrt (1 + FGMRES_D.ratioNum dx dy / FGMRES_D.ratioDen dx dy
                  * (FGMRES_D.ratioNum dx dy / FGMRES_D.ratioDen dx dy)),
            FGMRES_D.ratioNum dx dy / FGMRES_D.ratioDen dx dy
              * (1 / sqrt (1 + FGMRES_D.ratioNum dx dy / FGMRES_D.ratioDen dx dy
                  * (FGMRES_D.ratioNum dx dy / FGMRES_D.ratioDen dx dy)))) := by
      unfold FGMRES_D.genPlRot FGMRES_D.ratioNum FGMRES_D.ratioDen
      rw [if_neg hdy]
      by_cases hc : |dy| > |dx|
      · simp only [if_pos hc]
      · simp only [if_neg hc]
    have hrot : (FGMRES_D.genPlRot sqrt dx dy).1 * (FGMRES_D.genPlRot sqrt dx dy).1
          + (FGMRES_D.genPlRot sqrt dx dy).2 * (FGMRES_D.genPlRot sqrt dx dy).2 = 1
        ∧ (FGMRES_D.genPlRot sqrt dx dy).1 * dy - (FGMRES_D.genPlRot sqrt dx dy).2 * dx = 0 := by
      rw [hg]
      generalize hq : sqrt (1 + FGMRES_D.ratioNum dx dy / FGMRES_D.ratioDen dx dy
        * (FGMRES_D.ratioNum dx dy / FGMRES_D.ratioDen dx dy)) = q at hs2 hsne
      by_cases hc : |dy| > |dx|
      · have hn : FGMRES_D.ratioNum dx dy = dx := by
          unfold FGMRES_D.ratioNum
          rw [if_pos hc]
        have hd : FGMRES_D.ratioDen dx dy = dy := by
          unfold FGMRES_D.ratioDen
          rw [if_pos hc]
        rw [hn, hd] at hs2
        rw [if_pos hc, hn, hd]
        dsimp only
        refine ⟨?_, ?_⟩
        · have e : dx / dy * (1 / q) * (dx / dy * (1 / q)) + 1 / q * (1 / q)
              = (1 + dx / dy * (dx / dy)) / (q * q) := by
            field_simp
            ring
          rw [e, hs2, div_self (ne_of_gt (by rw [hd, hn] at hpos; exact hpos))]
        · field_simp
          ring
      · have hn : FGMRES_D.ratioNum dx dy = dy := by
          unfold FGMRES_D.ratioNum
          rw [if_neg hc]
        have hd : FGMRES_D.ratioDen dx dy = dx := by
          unfold FGMRES_D.ratioDen
          rw [if_neg hc]
        rw [hd] at hne
        rw [hn, hd] at hs2
        rw [if_neg hc, hn, hd]
        dsimp only
        refine ⟨?_, ?_⟩
        · have e : 1 / q * (1 / q) + dy / dx * (1 / q) * (dy / dx * (1 / q))
              = (1 + dy / dx * (dy / dx)) / (q * q) := by
            field_simp
            ring
          rw [e, hs2, div_self (ne_of_gt (by rw [hd, hn] at hpos; exact hpos))]
        · field_simp
          ring
    refine ⟨hrot.1, hrot.2, horth _ _ hrot.1 hrot.2, fun _ => ⟨hle, hne, hratio, hg⟩⟩

theorem ratSqrt_25_16 : Rat.sqrt (25 / 16) = 5 / 4 := by
  have h := Rat.sqrt_eq (5 / 4)
  have e1 : (5 / 4 : ℚ) * (5 / 4) = 25 / 16 := by norm_num
  have e2 : |(5 / 4 : ℚ)| = 5 / 4 := abs_of_pos (by norm_num)
  rw [e1, e2] at h
  exact h

/-- C19 evaluated over the rationals for `dx = 3`, `dy = 4` (ratio `3/4`, root `5/4`):
`cs = 3/5`, `sn = 4/5`, the rotated pair is `(5, 0)`. -/
theorem genPlRot_real_rotation_witness :
    FGMRES_D.genPlRot Rat.sqrt (3 : ℚ) 4 = (3 / 5, 4 / 5)
    ∧ (FGMRES_D.genPlRot Rat.sqrt (3 : ℚ) 4).1 * (FGMRES_D.genPlRot Rat.sqrt (3 : ℚ) 4).1
        + (FGMRES_D.genPlRot Rat.sqrt (3 : ℚ) 4).2 * (FGMRES_D.genPlRot Rat.sqrt (3 : ℚ) 4).2 = 1
    ∧ (FGMRES_D.applPlRot (3 : ℚ) 4 (FGMRES_D.genPlRot Rat.sqrt (3 : ℚ) 4).1
        (FGMRES_D.genPlRot Rat.sqrt (3 : ℚ) 4).2).2 = 0 := by
  have hc : |(4 : ℚ)| > |(3 : ℚ)| := by
    rw [abs_of_pos (by norm_num : (0 : ℚ) < 4), abs_of_pos (by norm_num : (0 : ℚ) < 3)]
    norm_num
  have hn : FGMRES_D.ratioNum (3 : ℚ) 4 = 3 := by
    unfold FGMRES_D.ratioNum
    rw [if_pos hc]
  have hd : FGMRES_D.ratioDen (3 : ℚ) 4 = 4 := by
    unfold FGMRES_D.ratioDen
    rw [if_pos hc]
  have hv : (1 : ℚ) + 3 / 4 * (3 / 4) = 25 / 16 := by norm_num
  have hs : (4 : ℚ) ≠ 0 →
      Rat.sqrt (1 + FGMRES_D.ratioNum (3 : ℚ) 4 / FGMRES_D.ratioDen (3 : ℚ) 4
            * (FGMRES_D.ratioNum (3 : ℚ) 4 / FGMRES_D.ratioDen (3 : ℚ) 4))
        * Rat.sqrt (1 + FGMRES_D.ratioNum (3 : ℚ) 4 / FGMRES_D.ratioDen (3 : ℚ) 4
            * (FGMRES_D.ratioNum (3 : ℚ) 4 / FGMRES_D.ratioDen (3 : ℚ) 4))
        = 1 + FGMRES_D.ratioNum (3 : ℚ) 4 / FGMRES_D.ratioDen (3 : ℚ) 4
            * (FGMRES_D.ratioNum (3 : ℚ) 4 / FGMRES_D.ratioDen (3 : ℚ) 4) := by
    intro _
    rw [hn, hd, hv, ratSqrt_25_16]
    norm_num
  have h := genPlRot_real_rotation Rat.sqrt (3 : ℚ) 4 hs
  refine ⟨?_, h.1, h.2.1⟩
  rw [(h.2.2.2 (by norm_num)).2.2.2, if_pos hc, hn, hd, hv, ratSqrt_25_16]
  norm_num

/-- C15 fails on the code: with `m = 1`, `nsteps = 1`, a first Arnoldi step whose running
residual test fails and a recomputed residual after the restart update that passes (the
`assert` of `update` passing), `FGMRes` returns 0 with `nsteps = 2` although one inner loop
body was executed; the reported value also exceeds the `nsteps` passed in. -/
theorem FGMRes_reports_one_more_after_restart :
    FGMRes 2 1 1 false false (fun _ => false) (fun _ => true) (fun _ => true)
      = some (FGOutcome.returned
          { ret := 0, nsteps := 2, bodies := 1, updates := [(1, 1)] })
    ∧ (∀ r, FGMRes 2 1 1 false false (fun _ => false) (fun _ => true) (fun _ => true)
          = some (FGOutcome.returned r) →
        r.nsteps ≠ r.bodies ∧ r.nsteps > 1) := by
  have h : FGMRes 2 1 1 false false (fun _ => false) (fun _ => true) (fun _ => true)
      = some (FGOutcome.returned
          { ret := 0, nsteps := 2, bodies := 1, updates := [(1, 1)] }) := by decide
  refine ⟨h, ?_⟩
  intro r hr
  rw [h] at hr
  cases hr
  decide

/-- C20 fails on the code: with `m = 2`, `nsteps = 1` and no residual test passing, the
inner loop stops after one Arnoldi step because the budget is used up, and `FGMRes` then
calls `update` with `k = m = 2` although only one column of `H` and `Z` was generated in the
cycle.  If the `assert` of that call passes the run returns 1; if it fails (the triangular
solve meets a singular `H`) the run aborts in that call. -/
theorem FGMRes_update_uses_ungenerated_columns :
    FGMRes 2 2 1 false false (fun _ => false) (fun _ => false) (fun _ => true)
      = some (FGOutcome.returned
          { ret := 1, nsteps := 1, bodies := 1, updates := [(2, 1)] })
    ∧ (∀ r, FGMRes 2 2 1 false false (fun _ => false) (fun _ => false) (fun _ => true)
          = some (FGOutcome.returned r) →
        ∃ u, u ∈ r.updates ∧ u.1 ≠ u.2)
    ∧ FGMRes 2 2 1 false false (fun _ => false) (fun _ => false) (fun _ => false)
      = some (FGOutcome.aborted 1 [(2, 1)]) := by
  have h : FGMRes 2 2 1 false false (fun _ => false) (fun _ => false) (fun _ => true)
      = some (FGOutcome.returned
          { ret := 1, nsteps := 1, bodies := 1, updates := [(2, 1)] }) := by decide
  refine ⟨h, ?_, by decide⟩
  intro r hr
  rw [h] at hr
  cases hr
  exact ⟨(2, 1), by simp, by decide⟩

/-! ## Transposition in compressed row storage (C16) -/

theorem colCount_zero (jA : Nat → Nat) (c : Nat) : colCount jA 0 c = 0 := by
  simp [colCount]

theorem colCount_succ (jA : Nat → Nat) (L c : Nat) :
    colCount jA (L + 1) c = colCount jA L c + if jA L = c then 1 else 0 := by
  unfold colCount
  rw [Finset.range_succ, Finset.filter_insert]
  by_cases h : jA L = c
  · rw [if_pos h, if_pos h, Finset.card_insert_of_not_mem]
    simp
  · rw [if_neg h, if_neg h]
    rfl

theorem colCount_mono (jA : Nat → Nat) (c : Nat) {L1 L2 : Nat} (h : L1 ≤ L2) :
    colCount jA L1 c ≤ colCount jA L2 c := by
  induction L2 with
  | zero =>
    have : L1 = 0 := by omega
    rw [this]
  | succ L ih =>
    by_cases h1 : L1 = L + 1
    · rw [h1]
    · have := ih (by omega)
      rw [colCount_succ]
      omega

theorem colCount_lt (jA : Nat → Nat) {l L : Nat} (h : l < L) :
    colCount jA l (jA l) < colCount jA L (jA l) := by
  have h1 := colCount_succ jA l (jA l)
  rw [if_pos rfl] at h1
  have h2 := colCount_mono jA (jA l) (show l + 1 ≤ L by omega)
  omega

theorem sum_colCount (jA : Nat → Nat) (n L : Nat) (h : ∀ l, l < L → jA l < n) :
    ∑ c ∈ Finset.range n, colCount jA L c = L := by
  have hf := Finset.card_eq_sum_card_fiberwise (s := Finset.range L) (t := Finset.range n)
    (f := jA) (fun x hx => Finset.mem_range.mpr (h x (Finset.mem_range.mp hx)))
  rw [Finset.card_range] at hf
  exact hf.symm

theorem CS_zero_apply (n : Nat) (inz : Nat → Nat) (c : Nat) :
    forLoop n (fun i inz => wr inz i 0) inz c = if c < n then 0 else inz c := by
  induction n with
  | zero => simp
  | succ n ih =>
    rw [forLoop_succ]
    by_cases h : c = n
    · subst h
      simp
    · rw [wr_other _ _ _ _ h, ih]
      by_cases h2 : c < n
      · rw [if_pos h2, if_pos (by omega)]
      · rw [if_neg h2, if_neg (by omega)]

theorem CS_incr_apply (jA : Nat → Nat) (L : Nat) (z : Nat → Nat) (c : Nat) :
    forLoop L (fun l inz => wr inz (jA l) (inz (jA l) + 1)) z c = z c + colCount jA L c := by
  induction L with
  | zero => simp [colCount_zero]
  | succ L ih =>
    rw [forLoop_succ, colCount_succ]
    by_cases h : jA L = c
    · subst h
      rw [wr_same, if_pos rfl, ih, Nat.add_assoc]
    · rw [wr_other _ _ _ _ (Ne.symm h), if_neg h, ih]
      rfl

theorem CS_count_apply (n : Nat) (jA iA inz : Nat → Nat) (c : Nat) (hc : c < n) :
    CS_count n jA iA inz c = colCount jA (iA n) c := by
  unfold CS_count
  rw [CS_incr_apply, CS_zero_apply, if_pos hc]
  omega

theorem CS_createIB_inv (inz iB : Nat → Nat) (n : Nat) :
    (CS_createIB n inz iB).1 = ∑ c ∈ Finset.range n, inz c
    ∧ (∀ c, (CS_createIB n inz iB).2.1 c = if c < n then 0 else inz c)
    ∧ (∀ c, c ≤ n → (CS_createIB n inz iB).2.2 c = ∑ t ∈ Finset.range c, inz t) := by
  induction n with
  | zero =>
    refine ⟨by simp [CS_createIB], fun c => by simp [CS_createIB], fun c hc => ?_⟩
    have : c = 0 := by omega
    subst this
    simp [CS_createIB]
  | succ n ih =>
    obtain ⟨ih1, ih2, ih3⟩ := ih
    have hstep : CS_createIB (n + 1) inz iB
        = ((CS_createIB n inz iB).1 + (CS_createIB n inz iB).2.1 n,
            wr (CS_createIB n inz iB).2.1 n 0,
            wr (CS_createIB n inz iB).2.2 (n + 1)
              ((CS_createIB n inz iB).1 + (CS_createIB n inz iB).2.1 n)) := rfl
    have hn : (CS_createIB n inz iB).2.1 n = inz n := by
      rw [ih2, if_neg (by omega)]
    rw [hstep]
    simp only []
    rw [hn, ih1]
    refine ⟨(Finset.sum_range_succ _ _).symm, fun c => ?_, fun c hc => ?_⟩
    · by_cases h : c = n
      · subst h
        simp
      · rw [wr_other _ _ _ _ h, ih2]
        by_cases h2 : c < n
        · rw [if_pos h2, if_pos (by omega)]
        · rw [if_neg h2, if_neg (by omega)]
    · by_cases h : c = n + 1
      · subst h
        rw [wr_same, Finset.sum_range_succ]
      · rw [wr_other _ _ _ _ h]
        exact ih3 c (by omega)

theorem colCount_exists (jA : Nat → Nat) (c t N : Nat) (h : t < colCount jA N c) :
    ∃ l, l < N ∧ jA l = c ∧ colCount jA l c = t := by
  induction N with
  | zero =>
    rw [colCount_zero] at h
    omega
  | succ N ih =>
    rw [colCount_succ] at h
    by_cases h1 : t < colCount jA N c
    · obtain ⟨l, hl, hj, hc⟩ := ih h1
      exact ⟨l, by omega, hj, hc⟩
    · by_cases h2 : jA N = c
      · rw [if_pos h2] at h
        exact ⟨N, by omega, h2, by omega⟩
      · rw [if_neg h2] at h
        omega

theorem CS_rows_mono (iA : Nat → Nat) (n : Nat) (hmono : ∀ i, i < n → iA i ≤ iA (i + 1))
    (a b : Nat) (hab : a ≤ b) (hb : b ≤ n) : iA a ≤ iA b := by
  induction b with
  | zero =>
    have : a = 0 := by omega
    rw [this]
  | succ b ih =>
    by_cases h : a = b + 1
    · rw [h]
    · have h1 := ih (by omega) (by omega)
      have h2 := hmono b (by omega)
      omega

theorem CS_row_unique (iA : Nat → Nat) (n : Nat) (hmono : ∀ i, i < n → iA i ≤ iA (i + 1))
    (i1 i2 l : Nat) (h1 : i1 < n) (h2 : i2 < n) (ha1 : iA i1 ≤ l) (hb1 : l < iA (i1 + 1))
    (ha2 : iA i2 ≤ l) (hb2 : l < iA (i2 + 1)) : i1 = i2 := by
  by_contra hne
  rcases Nat.lt_or_gt_of_ne hne with h | h
  · have := CS_rows_mono iA n hmono (i1 + 1) i2 (by omega) (by omega)
    omega
  · have := CS_rows_mono iA n hmono (i2 + 1) i1 (by omega) (by omega)
    omega

theorem CS_iB_succ (n N : Nat) (jA iB : Nat → Nat)
    (hiB : ∀ c, c ≤ n → iB c = ∑ t ∈ Finset.range c, colCount jA N t) (c : Nat) (hc : c < n) :
    iB (c + 1) = iB c + colCount jA N c := by
  rw [hiB (c + 1) (by omega), hiB c (by omega), Finset.sum_range_succ]

theorem CS_iB_mono (n N : Nat) (jA iB : Nat → Nat)
    (hiB : ∀ c, c ≤ n → iB c = ∑ t ∈ Finset.range c, colCount jA N t) (a b : Nat)
    (hab : a ≤ b) (hb : b ≤ n) : iB a ≤ iB b := by
  rw [hiB a (by omega), hiB b hb]
  exact Finset.sum_le_sum_of_subset (Finset.range_mono hab)

theorem CS_pos_range (n N : Nat) (jA iB : Nat → Nat)
    (hiB : ∀ c, c ≤ n → iB c = ∑ t ∈ Finset.range c, colCount jA N t)
    (hcol : ∀ l, l < N → jA l < n) (l : Nat) (hl : l < N) :
    iB (jA l) ≤ CS_pos iB jA l ∧ CS_pos iB jA l < iB (jA l + 1) := by
  have h1 := CS_iB_succ n N jA iB hiB (jA l) (hcol l hl)
  have h2 := colCount_lt jA hl
  unfold CS_pos
  omega

theorem CS_pos_lt (iB jA : Nat → Nat) (l1 l2 : Nat) (h : l1 < l2) (hj : jA l1 = jA l2) :
    CS_pos iB jA l1 < CS_pos iB jA l2 := by
  have h2 := colCount_lt jA h
  unfold CS_pos
  rw [← hj]
  omega

theorem CS_pos_ne (n N : Nat) (jA iB : Nat → Nat)
    (hiB : ∀ c, c ≤ n → iB c = ∑ t ∈ Finset.range c, colCount jA N t)
    (hcol : ∀ l, l < N → jA l < n) (l1 l2 : Nat) (h : l1 < l2) (h2 : l2 < N) :
    CS_pos iB jA l1 ≠ CS_pos iB jA l2 := by
  have r1 := CS_pos_range n N jA iB hiB hcol l1 (by omega)
  have r2 := CS_pos_range n N jA iB hiB hcol l2 h2
  have c1 := hcol l1 (by omega)
  have c2 := hcol l2 h2
  rcases Nat.lt_trichotomy (jA l1) (jA l2) with hlt | heq | hgt
  · have := CS_iB_mono n N jA iB hiB (jA l1 + 1) (jA l2) (by omega) (by omega)
    omega
  · have := CS_pos_lt iB jA l1 l2 h heq
    omega
  · have := CS_iB_mono n N jA iB hiB (jA l2 + 1) (jA l1) (by omega) (by omega)
    omega

theorem CS_fillStep_filled (n : Nat) (A : Nat → ℚ) (jA iA iB : Nat → Nat)
    (hmono : ∀ i, i < n → iA i ≤ iA (i + 1))
    (hiB : ∀ c, c ≤ n → iB c = ∑ t ∈ Finset.range c, colCount jA (iA n) t)
    (hcol : ∀ l, l < iA n → jA l < n) (i : Nat) (hi : i < n) (st : CSfill) (L : Nat)
    (ha : iA i ≤ L) (hb : L < iA (i + 1)) (hst : CS_filled n A jA iA iB st L) :
    CS_filled n A jA iA iB (CS_fillStep A jA iB i st) (L + 1) := by
  obtain ⟨hl, hinz, hB, hjB⟩ := hst
  have hN : L < iA n := by
    have := CS_rows_mono iA n hmono (i + 1) n (by omega) (by omega)
    omega
  have hk : iB (jA st.l) + st.inz (jA st.l) = CS_pos iB jA L := by
    rw [hl, hinz _ (hcol L hN)]
    rfl
  have hstep : CS_fillStep A jA iB i st
      = { l := L + 1, inz := wr st.inz (jA L) (colCount jA L (jA L) + 1),
          B := wr st.B (CS_pos iB jA L) (A L), jB := wr st.jB (CS_pos iB jA L) i } := by
    unfold CS_fillStep
    simp only []
    rw [hk, hl, hinz _ (hcol L hN)]
  rw [hstep]
  refine ⟨rfl, fun c hc => ?_, fun l hlt => ?_, fun i2 l hi2 ha2 hb2 hlt => ?_⟩
  · show wr st.inz (jA L) (colCount jA L (jA L) + 1) c = colCount jA (L + 1) c
    rw [colCount_succ]
    by_cases h : jA L = c
    · subst h
      rw [wr_same, if_pos rfl]
    · rw [wr_other _ _ _ _ (Ne.symm h), if_neg h, hinz c hc]
      rfl
  · show wr st.B (CS_pos iB jA L) (A L) (CS_pos iB jA l) = A l
    by_cases h : l = L
    · subst h
      rw [wr_same]
    · rw [wr_other _ _ _ _ (CS_pos_ne n (iA n) jA iB hiB hcol l L (by omega) hN)]
      exact hB l (by omega)
  · show wr st.jB (CS_pos iB jA L) i (CS_pos iB jA l) = i2
    by_cases h : l = L
    · subst h
      rw [wr_same]
      exact CS_row_unique iA n hmono i i2 l hi hi2 ha hb ha2 hb2
    · rw [wr_other _ _ _ _ (CS_pos_ne n (iA n) jA iB hiB hcol l L (by omega) hN)]
      exact hjB i2 l hi2 ha2 hb2 (by omega)

theorem CS_fillRow_filled (n : Nat) (A : Nat → ℚ) (jA iA iB : Nat → Nat)
    (hmono : ∀ i, i < n → iA i ≤ iA (i + 1))
    (hiB : ∀ c, c ≤ n → iB c = ∑ t ∈ Finset.range c, colCount jA (iA n) t)
    (hcol : ∀ l, l < iA n → jA l < n) (i : Nat) (hi : i < n) (st : CSfill)
    (hst : CS_filled n A jA iA iB st (iA i)) :
    CS_filled n A jA iA iB (CS_fillRow A jA iB i (iA (i + 1)) st) (iA (i + 1)) := by
  have hloop : ∀ t, iA i + t ≤ iA (i + 1) →
      CS_filled n A jA iA iB (forLoop t (fun _ st => CS_fillStep A jA iB i st) st)
        (iA i + t) := by
    intro t
    induction t with
    | zero => intro _; exact hst
    | succ t ih =>
      intro ht
      rw [forLoop_succ]
      exact CS_fillStep_filled n A jA iA iB hmono hiB hcol i hi _ (iA i + t) (by omega)
        (by omega) (ih (by omega))
  have hm := hmono i hi
  have h := hloop (iA (i + 1) - iA i) (by omega)
  unfold CS_fillRow
  rw [hst.1]
  have he : iA i + (iA (i + 1) - iA i) = iA (i + 1) := by omega
  rw [he] at h
  exact h

theorem CS_fill_filled (n : Nat) (A : Nat → ℚ) (jA iA iB : Nat → Nat)
    (hmono : ∀ i, i < n → iA i ≤ iA (i + 1))
    (hiB : ∀ c, c ≤ n → iB c = ∑ t ∈ Finset.range c, colCount jA (iA n) t)
    (hcol : ∀ l, l < iA n → jA l < n) (st : CSfill)
    (hst : CS_filled n A jA iA iB st (iA 0)) (i : Nat) (hi : i ≤ n) :
    CS_filled n A jA iA iB
      (forLoop i (fun i st => CS_fillRow A jA iB i (iA (i + 1)) st) st) (iA i) := by
  induction i with
  | zero => exact hst
  | succ i ih =>
    rw [forLoop_succ]
    exact CS_fillRow_filled n A jA iA iB hmono hiB hcol i (by omega) _ (ih (by omega))

theorem CS_transp_iB (n : Nat) (A : Nat → ℚ) (jA iA inz : Nat → Nat) (B : Nat → ℚ)
    (jB iB : Nat → Nat) (c : Nat) (hc : c ≤ n) :
    (CS_transp n A jA iA inz B jB iB).2.2 c
      = ∑ t ∈ Finset.range c, colCount jA (iA n) t := by
  show (CS_createIB n (CS_count n jA iA inz) iB).2.2 c = _
  rw [(CS_createIB_inv (CS_count n jA iA inz) iB n).2.2 c hc]
  refine Finset.sum_congr rfl (fun t ht => ?_)
  exact CS_count_apply n jA iA inz t (by have := Finset.mem_range.mp ht; omega)

theorem CS_transp_filled (n : Nat) (A : Nat → ℚ) (jA iA inz : Nat → Nat) (B : Nat → ℚ)
    (jB iB : Nat → Nat) (h0 : iA 0 = 0) (hmono : ∀ i, i < n → iA i ≤ iA (i + 1))
    (hcol : ∀ l, l < iA n → jA l < n) (i l : Nat) (hi : i < n) (ha : iA i ≤ l)
    (hb : l < iA (i + 1)) :
    (CS_transp n A jA iA inz B jB iB).1
        (CS_pos (CS_transp n A jA iA inz B jB iB).2.2 jA l) = A l
    ∧ (CS_transp n A jA iA inz B jB iB).2.1
        (CS_pos (CS_transp n A jA iA inz B jB iB).2.2 jA l) = i := by
  have hiB := CS_transp_iB n A jA iA inz B jB iB
  have hN : l < iA n := by
    have := CS_rows_mono iA n hmono (i + 1) n (by omega) (by omega)
    omega
  have hinit : CS_filled n A jA iA (CS_transp n A jA iA inz B jB iB).2.2
      { l := iA 0, inz := (CS_createIB n (CS_count n jA iA inz) iB).2.1, B := B, jB := jB }
      (iA 0) := by
    refine ⟨rfl, fun c hc => ?_, fun l hl => ?_, fun i l _ _ _ hl => ?_⟩
    · show (CS_createIB n (CS_count n jA iA inz) iB).2.1 c = _
      rw [(CS_createIB_inv (CS_count n jA iA inz) iB n).2.1 c, if_pos hc, h0, colCount_zero]
    · omega
    · omega
  have hfin := CS_fill_filled n A jA iA _ hmono hiB hcol _ hinit n (le_refl n)
  exact ⟨hfin.2.2.1 l hN, hfin.2.2.2 i l hi ha hb hN⟩

theorem CS_row_exists (iA : Nat → Nat) (n : Nat) (h0 : iA 0 = 0) (l : Nat) (hl : l < iA n) :
    ∃ i, i < n ∧ iA i ≤ l ∧ l < iA (i + 1) := by
  induction n with
  | zero => omega
  | succ n ih =>
    by_cases h : l < iA n
    · obtain ⟨i, hi, ha, hb⟩ := ih h
      exact ⟨i, by omega, ha, hb⟩
    · exact ⟨n, by omega, by omega, hl⟩

theorem CS_transp_sorted (n : Nat) (A : Nat → ℚ) (jA iA inz : Nat → Nat) (B : Nat → ℚ)
    (jB iB : Nat → Nat) (h0 : iA 0 = 0) (hmono : ∀ i, i < n → iA i ≤ iA (i + 1))
    (hcol : ∀ l, l < iA n → jA l < n) (j k1 k2 : Nat) (hj : j < n)
    (h1 : (CS_transp n A jA iA inz B jB iB).2.2 j ≤ k1) (h12 : k1 < k2)
    (h2 : k2 < (CS_transp n A jA iA inz B jB iB).2.2 (j + 1)) :
    (CS_transp n A jA iA inz B jB iB).2.1 k1 ≤ (CS_transp n A jA iA inz B jB iB).2.1 k2 := by
  have hiB := CS_transp_iB n A jA iA inz B jB iB
  have hs := CS_iB_succ n (iA n) jA _ hiB j hj
  obtain ⟨l1, hl1, hj1, hc1⟩ := colCount_exists jA j (k1 - (CS_transp n A jA iA inz B jB iB).2.2 j) (iA n) (by omega)
  obtain ⟨l2, hl2, hj2, hc2⟩ := colCount_exists jA j (k2 - (CS_transp n A jA iA inz B jB iB).2.2 j) (iA n) (by omega)
  have hp1 : CS_pos (CS_transp n A jA iA inz B jB iB).2.2 jA l1 = k1 := by
    unfold CS_pos
    rw [hj1, hc1]
    omega
  have hp2 : CS_pos (CS_transp n A jA iA inz B jB iB).2.2 jA l2 = k2 := by
    unfold CS_pos
    rw [hj2, hc2]
    omega
  have hl : l1 < l2 := by
    by_contra hc
    rcases Nat.eq_or_lt_of_le (Nat.le_of_not_lt hc) with he | hlt
    · rw [he] at hp2
      omega
    · have := CS_pos_lt (CS_transp n A jA iA inz B jB iB).2.2 jA l2 l1 hlt (by rw [hj1, hj2])
      omega
  obtain ⟨i1, hi1, ha1, hb1⟩ := CS_row_exists iA n h0 l1 hl1
  obtain ⟨i2, hi2, ha2, hb2⟩ := CS_row_exists iA n h0 l2 hl2
  have hf1 := (CS_transp_filled n A jA iA inz B jB iB h0 hmono hcol i1 l1 hi1 ha1 hb1).2
  have hf2 := (CS_transp_filled n A jA iA inz B jB iB h0 hmono hcol i2 l2 hi2 ha2 hb2).2
  rw [hp1] at hf1
  rw [hp2] at hf2
  rw [hf1, hf2]
  by_contra hc
  have := CS_rows_mono iA n hmono (i2 + 1) i1 (by omega) (by omega)
  omega

/-- C16: for every `n` and every CRS matrix with `iA[0] = 0`, `iA` non-decreasing on `0..n`
and all `jA[l] < n`, the arrays `(B, jB, iB)` produced by `CS_transp` satisfy `iB[0] = 0`,
`iB[j+1] = iB[j] + (number of stored entries in column j)`, `iB[n] = iA[n]`; every stored
entry `l` of row `i` of `A` sits in row `jA[l]` of the output, at the slot
`iB[jA[l]] + #(earlier entries of that column)`, with `B = A[l]` and `jB = i`; within a row
of the output the slots increase with `l`; every slot of every output row holds such an
entry; and the row indices `jB` stored in an output row are non-decreasing. -/
theorem CS_transp_is_transpose (n : Nat) (A : Nat → ℚ) (jA iA inz : Nat → Nat)
    (B : Nat → ℚ) (jB iB : Nat → Nat) (h0 : iA 0 = 0)
    (hmono : ∀ i, i < n → iA i ≤ iA (i + 1)) (hcol : ∀ l, l < iA n → jA l < n) :
    (CS_transp n A jA iA inz B jB iB).2.2 0 = 0
    ∧ (∀ j, j < n → (CS_transp n A jA iA inz B jB iB).2.2 (j + 1)
        = (CS_transp n A jA iA inz B jB iB).2.2 j + colCount jA (iA n) j)
    ∧ (CS_transp n A jA iA inz B jB iB).2.2 n = iA n
    ∧ (∀ i l, i < n → iA i ≤ l → l < iA (i + 1) →
        (CS_transp n A jA iA inz B jB iB).2.2 (jA l) ≤ CS_pos (CS_transp n A jA iA inz B jB iB).2.2 jA l
        ∧ CS_pos (CS_transp n A jA iA inz B jB iB).2.2 jA l < (CS_transp n A jA iA inz B jB iB).2.2 (jA l + 1)
        ∧ (CS_transp n A jA iA inz B jB iB).1 (CS_pos (CS_transp n A jA iA inz B jB iB).2.2 jA l) = A l
        ∧ (CS_transp n A jA iA inz B jB iB).2.1 (CS_pos (CS_transp n A jA iA inz B jB iB).2.2 jA l) = i)
    ∧ (∀ l1 l2, l1 < l2 → l2 < iA n → jA l1 = jA l2 →
        CS_pos (CS_transp n A jA iA inz B jB iB).2.2 jA l1 < CS_pos (CS_transp n A jA iA inz B jB iB).2.2 jA l2)
    ∧ (∀ j k, j < n → (CS_transp n A jA iA inz B jB iB).2.2 j ≤ k → k < (CS_transp n A jA iA inz B jB iB).2.2 (j + 1) →
        ∃ l, l < iA n ∧ jA l = j ∧ CS_pos (CS_transp n A jA iA inz B jB iB).2.2 jA l = k)
    ∧ (∀ j k1 k2, j < n → (CS_transp n A jA iA inz B jB iB).2.2 j ≤ k1 → k1 < k2 → k2 < (CS_transp n A jA iA inz B jB iB).2.2 (j + 1) →
        (CS_transp n A jA iA inz B jB iB).2.1 k1 ≤ (CS_transp n A jA iA inz B jB iB).2.1 k2) := by
  have hiB := CS_transp_iB n A jA iA inz B jB iB
  refine ⟨?_, fun j hj => ?_, ?_, fun i l hi ha hb => ?_, fun l1 l2 h12 _ hj => ?_,
    fun j k hj hk1 hk2 => ?_,
    fun j k1 k2 hj h1 h12 h2 =>
      CS_transp_sorted n A jA iA inz B jB iB h0 hmono hcol j k1 k2 hj h1 h12 h2⟩
  · rw [hiB 0 (Nat.zero_le n)]
    simp
  · exact CS_iB_succ n (iA n) jA _ hiB j hj
  · rw [hiB n (le_refl n)]
    exact sum_colCount jA n (iA n) hcol
  · have hN : l < iA n := by
      have := CS_rows_mono iA n hmono (i + 1) n (by omega) (by omega)
      omega
    have hr := CS_pos_range n (iA n) jA _ hiB hcol l hN
    have hf := CS_transp_filled n A jA iA inz B jB iB h0 hmono hcol i l hi ha hb
    exact ⟨hr.1, hr.2, hf.1, hf.2⟩
  · exact CS_pos_lt _ jA l1 l2 h12 hj
  · have hs := CS_iB_succ n (iA n) jA _ hiB j hj
    obtain ⟨l, hl, hjl, hc⟩ := colCount_exists jA j (k - (CS_transp n A jA iA inz B jB iB).2.2 j) (iA n) (by omega)
    refine ⟨l, hl, hjl, ?_⟩
    unfold CS_pos
    rw [hjl, hc]
    omega

/-- C16 at the 2x2 matrix with rows `(1, 2)` and `(0, 3)`, stored as `A = (1, 2, 3)`,
`jA = (0, 1, 1)`, `iA = (0, 2, 3)`. -/
theorem CS_transp_is_transpose_witness :
    crsIA 0 = 0 ∧ (∀ i, i < 2 → crsIA i ≤ crsIA (i + 1))
    ∧ (∀ l, l < crsIA 2 → crsJA l < 2)
    ∧ (CS_transp 2 crsA crsJA crsIA (fun _ => 7) (fun _ => 0) (fun _ => 0) (fun _ => 0)).2.2 0 = 0
    ∧ (∀ j, j < 2 → (CS_transp 2 crsA crsJA crsIA (fun _ => 7) (fun _ => 0) (fun _ => 0) (fun _ => 0)).2.2 (j + 1)
        = (CS_transp 2 crsA crsJA crsIA (fun _ => 7) (fun _ => 0) (fun _ => 0) (fun _ => 0)).2.2 j + colCount crsJA (crsIA 2) j)
    ∧ (CS_transp 2 crsA crsJA crsIA (fun _ => 7) (fun _ => 0) (fun _ => 0) (fun _ => 0)).2.2 2 = crsIA 2
    ∧ (∀ i l, i < 2 → crsIA i ≤ l → l < crsIA (i + 1) →
        (CS_transp 2 crsA crsJA crsIA (fun _ => 7) (fun _ => 0) (fun _ => 0) (fun _ => 0)).2.2 (crsJA l) ≤ CS_pos (CS_transp 2 crsA crsJA crsIA (fun _ => 7) (fun _ => 0) (fun _ => 0) (fun _ => 0)).2.2 crsJA l
        ∧ CS_pos (CS_transp 2 crsA crsJA crsIA (fun _ => 7) (fun _ => 0) (fun _ => 0) (fun _ => 0)).2.2 crsJA l < (CS_transp 2 crsA crsJA crsIA (fun _ => 7) (fun _ => 0) (fun _ => 0) (fun _ => 0)).2.2 (crsJA l + 1)
        ∧ (CS_transp 2 crsA crsJA crsIA (fun _ => 7) (fun _ => 0) (fun _ => 0) (fun _ => 0)).1 (CS_pos (CS_transp 2 crsA crsJA crsIA (fun _ => 7) (fun _ => 0) (fun _ => 0) (fun _ => 0)).2.2 crsJA l) = crsA l
        ∧ (CS_transp 2 crsA crsJA crsIA (fun _ => 7) (fun _ => 0) (fun _ => 0) (fun _ => 0)).2.1 (CS_pos (CS_transp 2 crsA crsJA crsIA (fun _ => 7) (fun _ => 0) (fun _ => 0) (fun _ => 0)).2.2 crsJA l) = i)
    ∧ (∀ l1 l2, l1 < l2 → l2 < crsIA 2 → crsJA l1 = crsJA l2 →
        CS_pos (CS_transp 2 crsA crsJA crsIA (fun _ => 7) (fun _ => 0) (fun _ => 0) (fun _ => 0)).2.2 crsJA l1 < CS_pos (CS_transp 2 crsA crsJA crsIA (fun _ => 7) (fun _ => 0) (fun _ => 0) (fun _ => 0)).2.2 crsJA l2)
    ∧ (∀ j k, j < 2 → (CS_transp 2 crsA crsJA crsIA (fun _ => 7) (fun _ => 0) (fun _ => 0) (fun _ => 0)).2.2 j ≤ k → k < (CS_transp 2 crsA crsJA crsIA (fun _ => 7) (fun _ => 0) (fun _ => 0) (fun _ => 0)).2.2 (j + 1) →
        ∃ l, l < crsIA 2 ∧ crsJA l = j ∧ CS_pos (CS_transp 2 crsA crsJA crsIA (fun _ => 7) (fun _ => 0) (fun _ => 0) (fun _ => 0)).2.2 crsJA l = k)
    ∧ (∀ j k1 k2, j < 2 → (CS_transp 2 crsA crsJA crsIA (fun _ => 7) (fun _ => 0) (fun _ => 0) (fun _ => 0)).2.2 j ≤ k1 → k1 < k2 → k2 < (CS_transp 2 crsA crsJA crsIA (fun _ => 7) (fun _ => 0) (fun _ => 0) (fun _ => 0)).2.2 (j + 1) →
        (CS_transp 2 crsA crsJA crsIA (fun _ => 7) (fun _ => 0) (fun _ => 0) (fun _ => 0)).2.1 k1 ≤ (CS_transp 2 crsA crsJA crsIA (fun _ => 7) (fun _ => 0) (fun _ => 0) (fun _ => 0)).2.1 k2) :=
  ⟨by decide, by decide, by decide,
    CS_transp_is_transpose 2 crsA crsJA crsIA (fun _ => 7) (fun _ => 0) (fun _ => 0)
      (fun _ => 0) (by decide) (by decide) (by decide)⟩

/-! ## Round trip low-rank, dense, low-rank (C14) -/

theorem gemmh_apply (n1 k n2 : Nat) (d : dcomp) (A : Nat → dcomp) (ldA : Nat)
    (B : Nat → dcomp) (ldB : Nat) (C : Nat → dcomp) (ldC : Nat) (hld : n1 ≤ ldC)
    (i j : Nat) (hi : i < n1) (hj : j < n2) :
    gemmh n1 k n2 d A ldA B ldB C ldC (i + j * ldC)
      = d * ∑ l ∈ Finset.range k, A (i + l * ldA) * dcomp.conj (B (j + l * ldB)) := by
  have hw := (writeLoop2 n2 n1 (fun i j => i + j * ldC)
    (fun i j => d * ∑ l ∈ Finset.range k, A (i + l * ldA) * dcomp.conj (B (j + l * ldB)))
    (by
      intro i1 j1 i2 j2 h1 _ h2 _ he
      by_contra hne
      have hor : i1 ≠ i2 ∨ j1 ≠ j2 := by
        by_contra hc
        push_neg at hc
        exact hne ⟨hc.1, hc.2⟩
      exact addr_ne ldC i1 j1 i2 j2 (by omega) (by omega) hor he) C).1 j i hj hi
  exact hw

theorem convLrM_toGeM_n1 (b : mblock) : b.convLrM_toGeM.n1 = b.n1 := by
  unfold mblock.convLrM_toGeM
  split <;> rfl

theorem convLrM_toGeM_n2 (b : mblock) : b.convLrM_toGeM.n2 = b.n2 := by
  unfold mblock.convLrM_toGeM
  split <;> rfl

theorem convLrM_toGeM_entry (b : mblock) (i j : Nat) (hi : i < b.n1) (hj : j < b.n2) :
    b.convLrM_toGeM.data (i + j * b.n1)
      = ∑ l ∈ Finset.range b.bl_rank,
          b.data (i + l * b.n1) * dcomp.conj (b.data (b.bl_rank * b.n1 + (j + l * b.n2))) := by
  unfold mblock.convLrM_toGeM
  by_cases h : b.bl_rank > 0
  · rw [if_pos h]
    show gemmh b.n1 b.bl_rank b.n2 1 b.data b.n1
      (fun i => b.data (b.bl_rank * b.n1 + i)) b.n2 (fun _ => 0) b.n1 (i + j * b.n1) = _
    rw [gemmh_apply _ _ _ _ _ _ _ _ _ _ (le_refl _) i j hi hj, one_mul]
  · rw [if_neg h]
    have h0 : b.bl_rank = 0 := by omega
    rw [h0]
    simp [mblock.init0_GeM]

theorem convGeM_toLrM_data_apply (n1 n2 kt : Nat) (tmp : Nat → dcomp) (S : Nat → ℚ)
    (VT data : Nat → dcomp) :
    (∀ a, a < kt * n1 → convGeM_toLrM_data n1 n2 kt tmp S VT data a = tmp a)
    ∧ (∀ l j, l < kt → j < n2 →
        convGeM_toLrM_data n1 n2 kt tmp S VT data (kt * n1 + (j + l * n2))
          = dcomp.ofReal (S l) * dcomp.conj (VT (MIN n1 n2 * j + l))) := by
  have hw := writeLoop2 kt n2 (fun j l => j + n2 * l + kt * n1)
    (fun j l => dcomp.ofReal (S l) * dcomp.conj (VT (MIN n1 n2 * j + l)))
    (by
      intro j1 l1 j2 l2 h1 _ h2 _ he
      by_contra hne
      have hor : j1 ≠ j2 ∨ l1 ≠ l2 := by
        by_contra hc
        push_neg at hc
        exact hne ⟨hc.1, hc.2⟩
      have hx := addr_ne n2 j1 l1 j2 l2 h1 h2 hor
      apply hx
      have e1 : n2 * l1 = l1 * n2 := Nat.mul_comm _ _
      have e2 : n2 * l2 = l2 * n2 := Nat.mul_comm _ _
      dsimp only at he
      omega) (copy (kt * n1) tmp 0 data 0)
  refine ⟨fun a ha => ?_, fun l j hl hj => ?_⟩
  · have h := hw.2 a (by
      intro c i _ _
      show a ≠ i + n2 * c + kt * n1
      omega)
    unfold convGeM_toLrM_data
    refine Eq.trans h ?_
    rw [copy_apply, if_pos ⟨Nat.zero_le _, by omega⟩]
    simp
  · have h := hw.1 l j hl hj
    have e : kt * n1 + (j + l * n2) = j + n2 * l + kt * n1 := by
      rw [Nat.mul_comm n2 l]
      omega
    rw [e]
    exact h

theorem ofReal_normSq (z : dcomp) : dcomp.ofReal (dcomp.normSq z) = z * dcomp.conj z := by
  ext
  · simp [dcomp.ofReal, dcomp.normSq]
  · simp [dcomp.ofReal, dcomp.normSq]
    ring

theorem normSq_neg (z : dcomp) : dcomp.normSq (-z) = dcomp.normSq z := by
  simp [dcomp.normSq]

theorem conj_ofReal (x : ℚ) : dcomp.conj (dcomp.ofReal x) = dcomp.ofReal x := by
  ext <;> simp [dcomp.ofReal]

theorem ofReal_mul (x y : ℚ) : dcomp.ofReal (x * y) = dcomp.ofReal x * dcomp.ofReal y := by
  ext <;> simp [dcomp.ofReal]

theorem ofReal_sum {ι : Type} (t : Finset ι) (f : ι → ℚ) :
    dcomp.ofReal (∑ i ∈ t, f i) = ∑ i ∈ t, dcomp.ofReal (f i) := by
  classical
  induction t using Finset.induction_on with
  | empty => rfl
  | insert hnot ih =>
    rw [Finset.sum_insert hnot, Finset.sum_insert hnot, ← ih]
    ext <;> simp [dcomp.ofReal]

theorem ofReal_inj (x y : ℚ) (h : dcomp.ofReal x = dcomp.ofReal y) : x = y :=
  congrArg dcomp.re h

theorem sum4_reorder (J I D : Finset Nat) (g : Nat → Nat → Nat → Nat → dcomp) :
    ∑ j ∈ J, ∑ i ∈ I, ∑ l ∈ D, ∑ m ∈ D, g j i l m
      = ∑ l ∈ D, ∑ m ∈ D, ∑ j ∈ J, ∑ i ∈ I, g j i l m := by
  calc ∑ j ∈ J, ∑ i ∈ I, ∑ l ∈ D, ∑ m ∈ D, g j i l m
      = ∑ j ∈ J, ∑ l ∈ D, ∑ i ∈ I, ∑ m ∈ D, g j i l m :=
        Finset.sum_congr rfl (fun j _ => Finset.sum_comm)
    _ = ∑ l ∈ D, ∑ j ∈ J, ∑ i ∈ I, ∑ m ∈ D, g j i l m := Finset.sum_comm
    _ = ∑ l ∈ D, ∑ j ∈ J, ∑ m ∈ D, ∑ i ∈ I, g j i l m :=
        Finset.sum_congr rfl (fun l _ => Finset.sum_congr rfl (fun j _ => Finset.sum_comm))
    _ = ∑ l ∈ D, ∑ m ∈ D, ∑ j ∈ J, ∑ i ∈ I, g j i l m :=
        Finset.sum_congr rfl (fun l _ => Finset.sum_comm)

/-- Squared Frobenius norm of a sum of singular triplets with orthonormal vectors. -/
theorem frobSq_triplets (D : Finset Nat) (n1 n2 : Nat) (U V : Nat → Nat → dcomp)
    (s : Nat → ℚ)
    (hU : ∀ l, l ∈ D → ∀ m, m ∈ D →
      ∑ i ∈ Finset.range n1, U i l * dcomp.conj (U i m) = if l = m then 1 else 0)
    (hV : ∀ l, l ∈ D → ∀ m, m ∈ D →
      ∑ j ∈ Finset.range n2, V l j * dcomp.conj (V m j) = if l = m then 1 else 0) :
    frobSq n1 n2 (fun i j => ∑ l ∈ D, U i l * dcomp.ofReal (s l) * V l j)
      = ∑ l ∈ D, s l * s l := by
  apply ofReal_inj
  unfold frobSq
  rw [ofReal_sum]
  have key : ∀ j i, dcomp.ofReal (dcomp.normSq (∑ l ∈ D, U i l * dcomp.ofReal (s l) * V l j))
      = ∑ l ∈ D, ∑ m ∈ D, (U i l * dcomp.conj (U i m)) * (V l j * dcomp.conj (V m j))
          * (dcomp.ofReal (s l) * dcomp.ofReal (s m)) := by
    intro j i
    rw [ofReal_normSq, conj_sum, Finset.sum_mul_sum]
    refine Finset.sum_congr rfl (fun l _ => Finset.sum_congr rfl (fun m _ => ?_))
    rw [dcomp.conj_mul, dcomp.conj_mul, conj_ofReal]
    ring
  have h1 : ∑ j ∈ Finset.range n2,
        dcomp.ofReal (∑ i ∈ Finset.range n1,
          dcomp.normSq (∑ l ∈ D, U i l * dcomp.ofReal (s l) * V l j))
      = ∑ j ∈ Finset.range n2, ∑ i ∈ Finset.range n1, ∑ l ∈ D, ∑ m ∈ D,
          (U i l * dcomp.conj (U i m)) * (V l j * dcomp.conj (V m j))
            * (dcomp.ofReal (s l) * dcomp.ofReal (s m)) := by
    refine Finset.sum_congr rfl (fun j _ => ?_)
    rw [ofReal_sum]
    exact Finset.sum_congr rfl (fun i _ => key j i)
  rw [h1, sum4_reorder, ofReal_sum]
  refine Finset.sum_congr rfl (fun l hl => ?_)
  have h2 : ∀ m, m ∈ D →
      ∑ j ∈ Finset.range n2, ∑ i ∈ Finset.range n1,
        (U i l * dcomp.conj (U i m)) * (V l j * dcomp.conj (V m j))
          * (dcomp.ofReal (s l) * dcomp.ofReal (s m))
      = if l = m then dcomp.ofReal (s l) * dcomp.ofReal (s m) else 0 := by
    intro m hm
    have h3 : ∀ j, ∑ i ∈ Finset.range n1,
        (U i l * dcomp.conj (U i m)) * (V l j * dcomp.conj (V m j))
          * (dcomp.ofReal (s l) * dcomp.ofReal (s m))
        = (if l = m then 1 else 0) * ((V l j * dcomp.conj (V m j))
          * (dcomp.ofReal (s l) * dcomp.ofReal (s m))) := by
      intro j
      rw [← hU l hl m hm, Finset.sum_mul]
      exact Finset.sum_congr rfl (fun i _ => by ring)
    rw [Finset.sum_congr rfl (fun j _ => h3 j), ← Finset.mul_sum, ← Finset.sum_mul,
      hV l hl m hm]
    by_cases h : l = m
    · simp only [if_pos h, one_mul]
    · simp only [if_neg h, zero_mul]
  rw [Finset.sum_congr rfl h2, Finset.sum_ite_eq, if_pos hl, ofReal_mul]

theorem frobSq_congr (n1 n2 : Nat) (M N : Nat → Nat → dcomp)
    (h : ∀ i j, i < n1 → j < n2 → dcomp.normSq (M i j) = dcomp.normSq (N i j)) :
    frobSq n1 n2 M = frobSq n1 n2 N := by
  unfold frobSq
  exact Finset.sum_congr rfl (fun j hj => Finset.sum_congr rfl (fun i hi =>
    h i j (Finset.mem_range.mp hi) (Finset.mem_range.mp hj)))

/-- Dense expansion of the block left by `convGeM_toLrM`: the singular triplets `l < kt`. -/
theorem roundtrip_entry (g : mblock) (eps : ℚ) (tmp : Nat → dcomp) (S : Nat → ℚ)
    (VT : Nat → dcomp) (i j : Nat) (hi : i < g.n1) (hj : j < g.n2) :
    (g.convGeM_toLrM_svd eps tmp S VT).convLrM_toGeM.data (i + j * g.n1)
      = ∑ l ∈ Finset.range (convGeM_toLrM_kt g.n1 g.n2 S eps),
          tmp (i + l * g.n1) * dcomp.ofReal (S l) * VT (MIN g.n1 g.n2 * j + l) := by
  have h := convLrM_toGeM_entry (g.convGeM_toLrM_svd eps tmp S VT) i j hi hj
  have hd := convGeM_toLrM_data_apply g.n1 g.n2 (convGeM_toLrM_kt g.n1 g.n2 S eps) tmp S VT
    (g.setrank (convGeM_toLrM_kt g.n1 g.n2 S eps)).data
  refine Eq.trans h ?_
  show ∑ l ∈ Finset.range (convGeM_toLrM_kt g.n1 g.n2 S eps),
      convGeM_toLrM_data g.n1 g.n2 (convGeM_toLrM_kt g.n1 g.n2 S eps) tmp S VT
        (g.setrank (convGeM_toLrM_kt g.n1 g.n2 S eps)).data (i + l * g.n1)
      * dcomp.conj (convGeM_toLrM_data g.n1 g.n2 (convGeM_toLrM_kt g.n1 g.n2 S eps) tmp S VT
        (g.setrank (convGeM_toLrM_kt g.n1 g.n2 S eps)).data
          (convGeM_toLrM_kt g.n1 g.n2 S eps * g.n1 + (j + l * g.n2))) = _
  refine Finset.sum_congr rfl (fun l hl => ?_)
  have hl1 := Finset.mem_range.mp hl
  have hlt : i + l * g.n1 < convGeM_toLrM_kt g.n1 g.n2 S eps * g.n1 := by
    have h1 : (l + 1) * g.n1 ≤ convGeM_toLrM_kt g.n1 g.n2 S eps * g.n1 :=
      Nat.mul_le_mul_right _ (by omega)
    rw [Nat.succ_mul] at h1
    omega
  rw [hd.1 _ hlt, hd.2 l j hl1 hj, dcomp.conj_mul, conj_ofReal, dcomp.conj_conj, mul_assoc]

theorem truncWhile_dropped (S : Nat → ℚ) (delta : ℚ) (c l : Nat)
    (h1 : truncWhile S delta c ≤ l) (h2 : l < c) : S l ≤ delta * S 0 ∨ S l < EPS0 := by
  have h := truncWhile_max S delta c (l + 1) (by omega) (by omega)
  by_contra hc
  push_neg at hc
  exact h (Or.inr ⟨by simpa using hc.1, by simpa using hc.2⟩)

/-- Error of the round trip under the contract of `gesvd`. -/
theorem roundtrip_error_eq (b : mblock) (eps : ℚ) (tmp : Nat → dcomp) (S : Nat → ℚ)
    (VT : Nat → dcomp)
    (hA : ∀ i j, i < b.n1 → j < b.n2 → b.convLrM_toGeM.data (i + j * b.n1)
      = ∑ l ∈ Finset.range (MIN b.n1 b.n2),
          tmp (i + l * b.n1) * dcomp.ofReal (S l) * VT (MIN b.n1 b.n2 * j + l))
    (hU : ∀ l m, l < MIN b.n1 b.n2 → m < MIN b.n1 b.n2 →
      ∑ i ∈ Finset.range b.n1, tmp (i + l * b.n1) * dcomp.conj (tmp (i + m * b.n1))
        = if l = m then 1 else 0)
    (hV : ∀ l m, l < MIN b.n1 b.n2 → m < MIN b.n1 b.n2 →
      ∑ j ∈ Finset.range b.n2,
          VT (MIN b.n1 b.n2 * j + l) * dcomp.conj (VT (MIN b.n1 b.n2 * j + m))
        = if l = m then 1 else 0) :
    frobSq b.n1 b.n2 (fun i j =>
        (b.convLrM_toGeM.convGeM_toLrM_svd eps tmp S VT).convLrM_toGeM.data (i + j * b.n1)
          - b.convLrM_toGeM.data (i + j * b.n1))
      = ∑ l ∈ Finset.Ico (convGeM_toLrM_kt b.n1 b.n2 S eps) (MIN b.n1 b.n2), S l * S l := by
  have hkt : convGeM_toLrM_kt b.n1 b.n2 S eps ≤ MIN b.n1 b.n2 := truncWhile_le _ _ _
  have hn1 := convLrM_toGeM_n1 b
  have hn2 := convLrM_toGeM_n2 b
  have hc := frobSq_congr b.n1 b.n2
    (fun i j =>
      (b.convLrM_toGeM.convGeM_toLrM_svd eps tmp S VT).convLrM_toGeM.data (i + j * b.n1)
        - b.convLrM_toGeM.data (i + j * b.n1))
    (fun i j => ∑ l ∈ Finset.Ico (convGeM_toLrM_kt b.n1 b.n2 S eps) (MIN b.n1 b.n2),
      (fun i l => tmp (i + l * b.n1)) i l * dcomp.ofReal (S l)
        * (fun l j => VT (MIN b.n1 b.n2 * j + l)) l j)
    (by
      intro i j hi hj
      have hr := roundtrip_entry b.convLrM_toGeM eps tmp S VT i j (by omega) (by omega)
      rw [hn1, hn2] at hr
      dsimp only
      rw [hr, hA i j hi hj, Finset.sum_Ico_eq_sub _ hkt, ← normSq_neg]
      congr 1
      ring)
  rw [hc]
  exact frobSq_triplets _ b.n1 b.n2 _ _ S
    (fun l hl m hm => hU l m (Finset.mem_Ico.mp hl).2 (Finset.mem_Ico.mp hm).2)
    (fun l hl m hm => hV l m (Finset.mem_Ico.mp hl).2 (Finset.mem_Ico.mp hm).2)

/-- C14 (amended): for every low-rank block, every `eps` and every output `tmp`, `S`, `VT`
of `gesvd` that is a singular value decomposition of the dense block (the dense matrix equals
`U diag(S) VT`, the columns of `U` and the rows of `VT` are orthonormal, `S >= 0`), the round
trip `convLrM_toGeM`, `convGeM_toLrM(eps)` has squared Frobenius error equal to the sum of
the squares of the dropped singular values `S[l]`, `kt <= l < nmin`, which is at most
`(nmin - kt) * max(eps * S[0], EPS0)^2`; every dropped `S[l]` is at most
`max(eps * S[0], EPS0)`. -/
theorem roundtrip_error_bound (b : mblock) (eps : ℚ) (tmp : Nat → dcomp) (S : Nat → ℚ)
    (VT : Nat → dcomp)
    (hA : ∀ i j, i < b.n1 → j < b.n2 → b.convLrM_toGeM.data (i + j * b.n1)
      = ∑ l ∈ Finset.range (MIN b.n1 b.n2),
          tmp (i + l * b.n1) * dcomp.ofReal (S l) * VT (MIN b.n1 b.n2 * j + l))
    (hU : ∀ l m, l < MIN b.n1 b.n2 → m < MIN b.n1 b.n2 →
      ∑ i ∈ Finset.range b.n1, tmp (i + l * b.n1) * dcomp.conj (tmp (i + m * b.n1))
        = if l = m then 1 else 0)
    (hV : ∀ l m, l < MIN b.n1 b.n2 → m < MIN b.n1 b.n2 →
      ∑ j ∈ Finset.range b.n2,
          VT (MIN b.n1 b.n2 * j + l) * dcomp.conj (VT (MIN b.n1 b.n2 * j + m))
        = if l = m then 1 else 0)
    (hS : ∀ l, l < MIN b.n1 b.n2 → 0 ≤ S l) :
    frobSq b.n1 b.n2 (fun i j =>
        (b.convLrM_toGeM.convGeM_toLrM_svd eps tmp S VT).convLrM_toGeM.data (i + j * b.n1)
          - b.convLrM_toGeM.data (i + j * b.n1))
      = ∑ l ∈ Finset.Ico (convGeM_toLrM_kt b.n1 b.n2 S eps) (MIN b.n1 b.n2), S l * S l
    ∧ frobSq b.n1 b.n2 (fun i j =>
        (b.convLrM_toGeM.convGeM_toLrM_svd eps tmp S VT).convLrM_toGeM.data (i + j * b.n1)
          - b.convLrM_toGeM.data (i + j * b.n1))
      ≤ ((MIN b.n1 b.n2 - convGeM_toLrM_kt b.n1 b.n2 S eps : Nat) : ℚ)
          * (max (eps * S 0) EPS0 * max (eps * S 0) EPS0)
    ∧ (∀ l, convGeM_toLrM_kt b.n1 b.n2 S eps ≤ l → l < MIN b.n1 b.n2 →
        S l ≤ max (eps * S 0) EPS0) := by
  have he := roundtrip_error_eq b eps tmp S VT hA hU hV
  have hdrop : ∀ l, convGeM_toLrM_kt b.n1 b.n2 S eps ≤ l → l < MIN b.n1 b.n2 →
      S l ≤ max (eps * S 0) EPS0 := by
    intro l h1 h2
    rcases truncWhile_dropped S eps (MIN b.n1 b.n2) l h1 h2 with h | h
    · exact le_trans h (le_max_left _ _)
    · exact le_trans (le_of_lt h) (le_max_right _ _)
  refine ⟨he, ?_, hdrop⟩
  rw [he]
  have hle : ∀ l, l ∈ Finset.Ico (convGeM_toLrM_kt b.n1 b.n2 S eps) (MIN b.n1 b.n2) →
      S l * S l ≤ max (eps * S 0) EPS0 * max (eps * S 0) EPS0 := by
    intro l hl
    obtain ⟨h1, h2⟩ := Finset.mem_Ico.mp hl
    exact mul_self_le_mul_self (hS l h2) (hdrop l h1 h2)
  calc ∑ l ∈ Finset.Ico (convGeM_toLrM_kt b.n1 b.n2 S eps) (MIN b.n1 b.n2), S l * S l
      ≤ ∑ _l ∈ Finset.Ico (convGeM_toLrM_kt b.n1 b.n2 S eps) (MIN b.n1 b.n2),
          max (eps * S 0) EPS0 * max (eps * S 0) EPS0 := Finset.sum_le_sum hle
    _ = ((MIN b.n1 b.n2 - convGeM_toLrM_kt b.n1 b.n2 S eps : Nat) : ℚ)
          * (max (eps * S 0) EPS0 * max (eps * S 0) EPS0) := by
        rw [Finset.sum_const, Nat.card_Ico, nsmul_eq_mul]

theorem diag2_reconstructs : ∀ i j, i < blockLrDiag2.n1 → j < blockLrDiag2.n2 →
    blockLrDiag2.convLrM_toGeM.data (i + j * blockLrDiag2.n1)
      = ∑ l ∈ Finset.range (MIN blockLrDiag2.n1 blockLrDiag2.n2),
          blockId2.data (i + l * blockLrDiag2.n1) * dcomp.ofReal (svalsHalf l)
            * blockId2.data (MIN blockLrDiag2.n1 blockLrDiag2.n2 * j + l) := by
  intro i j hi hj
  rw [convLrM_toGeM_entry _ i j hi hj]
  have hi2 : i < 2 := hi
  have hj2 : j < 2 := hj
  interval_cases i <;> interval_cases j <;>
    simp [blockLrDiag2, blockId2, svalsHalf, MIN, Finset.sum_range_succ, dcomp.ofReal,
      dcomp.ext_iff]

theorem id2_columns_orthonormal : ∀ l m, l < MIN blockLrDiag2.n1 blockLrDiag2.n2 →
    m < MIN blockLrDiag2.n1 blockLrDiag2.n2 →
    ∑ i ∈ Finset.range blockLrDiag2.n1, blockId2.data (i + l * blockLrDiag2.n1)
        * dcomp.conj (blockId2.data (i + m * blockLrDiag2.n1))
      = if l = m then 1 else 0 := by
  intro l m hl hm
  have hl2 : l < 2 := hl
  have hm2 : m < 2 := hm
  interval_cases l <;> interval_cases m <;>
    simp [blockLrDiag2, blockId2, Finset.sum_range_succ]

theorem id2_rows_orthonormal : ∀ l m, l < MIN blockLrDiag2.n1 blockLrDiag2.n2 →
    m < MIN blockLrDiag2.n1 blockLrDiag2.n2 →
    ∑ j ∈ Finset.range blockLrDiag2.n2,
        blockId2.data (MIN blockLrDiag2.n1 blockLrDiag2.n2 * j + l)
          * dcomp.conj (blockId2.data (MIN blockLrDiag2.n1 blockLrDiag2.n2 * j + m))
      = if l = m then 1 else 0 := by
  intro l m hl hm
  have hl2 : l < 2 := hl
  have hm2 : m < 2 := hm
  interval_cases l <;> interval_cases m <;>
    simp [blockLrDiag2, blockId2, MIN, Finset.sum_range_succ]

theorem svalsHalf_nonneg : ∀ l, l < MIN blockLrDiag2.n1 blockLrDiag2.n2 → 0 ≤ svalsHalf l := by
  intro l _
  unfold svalsHalf
  split
  · norm_num
  · split <;> norm_num

theorem diag2_rank : convGeM_toLrM_kt blockLrDiag2.n1 blockLrDiag2.n2 svalsHalf (1 / 2) = 1 := by
  norm_num [convGeM_toLrM_kt, truncWhile, MIN, svalsHalf, EPS0, blockLrDiag2]

/-- C14 (amended) evaluated on `diag(1, 1/2)` stored with rank 2, with the singular value
decomposition `U = VT = I`, `S = (1, 1/2)` and `eps = 1/2`: the rank drops to 1 and the
squared error is `S[1]^2 = 1/4`, which is the bound `(2 - 1) * (eps * S[0])^2`. -/
theorem roundtrip_error_bound_witness :
    (∀ l, l < MIN blockLrDiag2.n1 blockLrDiag2.n2 → 0 ≤ svalsHalf l)
    ∧ frobSq blockLrDiag2.n1 blockLrDiag2.n2 (fun i j =>
        (blockLrDiag2.convLrM_toGeM.convGeM_toLrM_svd (1 / 2) blockId2.data svalsHalf
          blockId2.data).convLrM_toGeM.data (i + j * blockLrDiag2.n1)
          - blockLrDiag2.convLrM_toGeM.data (i + j * blockLrDiag2.n1)) = 1 / 4
    ∧ (1 / 4 : ℚ) ≤ ((2 - 1 : Nat) : ℚ)
        * (max (1 / 2 * svalsHalf 0) EPS0 * max (1 / 2 * svalsHalf 0) EPS0) := by
  have h := roundtrip_error_bound blockLrDiag2 (1 / 2) blockId2.data svalsHalf blockId2.data
    diag2_reconstructs id2_columns_orthonormal id2_rows_orthonormal svalsHalf_nonneg
  have hv : ∑ l ∈ Finset.Ico 1 (MIN blockLrDiag2.n1 blockLrDiag2.n2),
      svalsHalf l * svalsHalf l = 1 / 4 := by
    have hm : MIN blockLrDiag2.n1 blockLrDiag2.n2 = 2 := by decide
    rw [hm]
    norm_num [Finset.sum_Ico_eq_sum_range, Finset.sum_range_succ, svalsHalf]
  rw [diag2_rank, hv] at h
  have hm : MIN blockLrDiag2.n1 blockLrDiag2.n2 = 2 := by decide
  rw [hm] at h
  exact ⟨svalsHalf_nonneg, h.1, le_of_eq_of_le h.1.symm h.2.1⟩

theorem lr6_entry : ∀ i j, i < blockLr6.n1 → j < blockLr6.n2 →
    blockLr6.convLrM_toGeM.data (i + j * blockLr6.n1)
      = if i = j then dcomp.ofReal (svals6 i) else 0 := by
  intro i j hi hj
  rw [convLrM_toGeM_entry _ i j hi hj]
  have hi2 : i < 6 := hi
  have hj2 : j < 6 := hj
  interval_cases i <;> interval_cases j <;>
    simp [blockLr6, svals6, Finset.sum_range_succ, dcomp.ofReal, dcomp.ext_iff]

theorem id6_triplets : ∀ i j, i < blockLr6.n1 → j < blockLr6.n2 →
    ∑ l ∈ Finset.range (MIN blockLr6.n1 blockLr6.n2),
        id6 (i + l * blockLr6.n1) * dcomp.ofReal (svals6 l)
          * id6 (MIN blockLr6.n1 blockLr6.n2 * j + l)
      = if i = j then dcomp.ofReal (svals6 i) else 0 := by
  intro i j hi hj
  have hi2 : i < 6 := hi
  have hj2 : j < 6 := hj
  interval_cases i <;> interval_cases j <;>
    simp [blockLr6, id6, svals6, MIN, Finset.sum_range_succ, dcomp.ofReal, dcomp.ext_iff]

theorem lr6_reconstructs : ∀ i j, i < blockLr6.n1 → j < blockLr6.n2 →
    blockLr6.convLrM_toGeM.data (i + j * blockLr6.n1)
      = ∑ l ∈ Finset.range (MIN blockLr6.n1 blockLr6.n2),
          id6 (i + l * blockLr6.n1) * dcomp.ofReal (svals6 l)
            * id6 (MIN blockLr6.n1 blockLr6.n2 * j + l) :=
  fun i j hi hj => (lr6_entry i j hi hj).trans (id6_triplets i j hi hj).symm

theorem id6_columns_orthonormal : ∀ l m, l < MIN blockLr6.n1 blockLr6.n2 →
    m < MIN blockLr6.n1 blockLr6.n2 →
    ∑ i ∈ Finset.range blockLr6.n1, id6 (i + l * blockLr6.n1)
        * dcomp.conj (id6 (i + m * blockLr6.n1))
      = if l = m then 1 else 0 := by
  intro l m hl hm
  have hl2 : l < 6 := hl
  have hm2 : m < 6 := hm
  interval_cases l <;> interval_cases m <;>
    simp [blockLr6, id6, Finset.sum_range_succ]

theorem id6_rows_orthonormal : ∀ l m, l < MIN blockLr6.n1 blockLr6.n2 →
    m < MIN blockLr6.n1 blockLr6.n2 →
    ∑ j ∈ Finset.range blockLr6.n2, id6 (MIN blockLr6.n1 blockLr6.n2 * j + l)
        * dcomp.conj (id6 (MIN blockLr6.n1 blockLr6.n2 * j + m))
      = if l = m then 1 else 0 := by
  intro l m hl hm
  have hl2 : l < 6 := hl
  have hm2 : m < 6 := hm
  interval_cases l <;> interval_cases m <;>
    simp [blockLr6, id6, MIN, Finset.sum_range_succ]

theorem lr6_rank : convGeM_toLrM_kt blockLr6.n1 blockLr6.n2 svals6 (1 / 2) = 1 := by
  norm_num [convGeM_toLrM_kt, truncWhile, MIN, svals6, EPS0, blockLr6]

theorem lr6_error : frobSq blockLr6.n1 blockLr6.n2 (fun i j =>
        (blockLr6.convLrM_toGeM.convGeM_toLrM_svd (1 / 2) id6 svals6 id6).convLrM_toGeM.data
            (i + j * blockLr6.n1)
          - blockLr6.convLrM_toGeM.data (i + j * blockLr6.n1)) = 1 / 2 := by
  rw [roundtrip_error_eq blockLr6 (1 / 2) id6 svals6 id6 lr6_reconstructs
    id6_columns_orthonormal id6_rows_orthonormal, lr6_rank]
  have hm : MIN blockLr6.n1 blockLr6.n2 = 6 := by decide
  rw [hm]
  norm_num [Finset.sum_Ico_eq_sum_range, Finset.sum_range_succ, svals6]

theorem lr6_norm : frobSq blockLr6.n1 blockLr6.n2 (fun i j => blockLr6.convLrM_toGeM.data (i + j * blockLr6.n1)) = 3 / 2 := by
  have hc := frobSq_congr blockLr6.n1 blockLr6.n2 (fun i j => blockLr6.convLrM_toGeM.data (i + j * blockLr6.n1))
    (fun i j => ∑ l ∈ Finset.range (MIN blockLr6.n1 blockLr6.n2),
      (fun i l => id6 (i + l * blockLr6.n1)) i l * dcomp.ofReal (svals6 l)
        * (fun l j => id6 (MIN blockLr6.n1 blockLr6.n2 * j + l)) l j)
    (fun i j hi hj => congrArg dcomp.normSq (lr6_reconstructs i j hi hj))
  rw [hc, frobSq_triplets _ blockLr6.n1 blockLr6.n2 _ _ svals6
    (fun l hl m hm => id6_columns_orthonormal l m (Finset.mem_range.mp hl)
      (Finset.mem_range.mp hm))
    (fun l hl m hm => id6_rows_orthonormal l m (Finset.mem_range.mp hl)
      (Finset.mem_range.mp hm))]
  have hm : MIN blockLr6.n1 blockLr6.n2 = 6 := by decide
  rw [hm]
  norm_num [Finset.sum_range_succ, svals6]

/-- C14 fails as stated: the `6 x 6` block of rank 3 representing `diag(1, 1/2, 1/2, 0, 0, 0)`
(it satisfies `r (n1 + n2) <= n1 n2`), with the singular value decomposition `U = VT = I`,
`S = (1, 1/2, 1/2, 0, 0, 0)` and `eps = 1/2`: every `S[l]` with `l >= 1` satisfies
`S[l] <= eps * S[0]`, so the rank drops to 1, and the squared Frobenius error `1/2` exceeds
`eps^2 * ||U V^H||_F^2 = 3/8`, i.e. `||U' V'^H - U V^H||_F > eps * ||U V^H||_F`. -/
theorem roundtrip_error_exceeds_tolerance :
    blockLr6.bl_rank * (blockLr6.n1 + blockLr6.n2) ≤ blockLr6.n1 * blockLr6.n2
    ∧ (∀ i j, i < blockLr6.n1 → j < blockLr6.n2 →
        blockLr6.convLrM_toGeM.data (i + j * blockLr6.n1)
          = ∑ l ∈ Finset.range (MIN blockLr6.n1 blockLr6.n2),
              id6 (i + l * blockLr6.n1) * dcomp.ofReal (svals6 l)
                * id6 (MIN blockLr6.n1 blockLr6.n2 * j + l))
    ∧ (blockLr6.convLrM_toGeM.convGeM_toLrM_svd (1 / 2) id6 svals6 id6).bl_rank = 1
    ∧ frobSq blockLr6.n1 blockLr6.n2 (fun i j =>
        (blockLr6.convLrM_toGeM.convGeM_toLrM_svd (1 / 2) id6 svals6 id6).convLrM_toGeM.data
            (i + j * blockLr6.n1)
          - blockLr6.convLrM_toGeM.data (i + j * blockLr6.n1)) = 1 / 2
    ∧ frobSq blockLr6.n1 blockLr6.n2 (fun i j => blockLr6.convLrM_toGeM.data (i + j * blockLr6.n1)) = 3 / 2
    ∧ ¬ (frobSq blockLr6.n1 blockLr6.n2 (fun i j =>
        (blockLr6.convLrM_toGeM.convGeM_toLrM_svd (1 / 2) id6 svals6 id6).convLrM_toGeM.data
            (i + j * blockLr6.n1)
          - blockLr6.convLrM_toGeM.data (i + j * blockLr6.n1))
          ≤ (1 / 2 * (1 / 2)) * frobSq blockLr6.n1 blockLr6.n2 (fun i j => blockLr6.convLrM_toGeM.data (i + j * blockLr6.n1))) := by
  refine ⟨by decide, lr6_reconstructs, ?_, lr6_error, lr6_norm, ?_⟩
  · have h := lr6_rank
    have hn1 := convLrM_toGeM_n1 blockLr6
    have hn2 := convLrM_toGeM_n2 blockLr6
    show convGeM_toLrM_kt blockLr6.convLrM_toGeM.n1 blockLr6.convLrM_toGeM.n2 svals6 (1 / 2)
      = 1
    rw [hn1, hn2]
    exact h
  · rw [lr6_error, lr6_norm]
    norm_num

/-! ## Divisors of the complex Givens rotation (C22) -/

theorem genPlRot_k2den_zero_iff (a : dcomp) :
    FGMRES_Z.genPlRot_k2den a = 0 ↔ (a.re = 0 ∧ a.im ≤ 0) ∨ (a.im = 0 ∧ a.re < 0) := by
  unfold FGMRES_Z.genPlRot_k2den
  by_cases h : a.re ≥ a.im
  · rw [if_pos h]
    constructor
    · intro h0
      left
      exact ⟨h0, by rw [h0] at h; exact h⟩
    · rintro (⟨h0, _⟩ | ⟨h0, h1⟩)
      · exact h0
      · rw [h0] at h
        exact absurd h (not_le.mpr h1)
  · rw [if_neg h]
    have h2 : a.re < a.im := not_le.mp h
    constructor
    · intro h0
      right
      exact ⟨h0, by rw [h0] at h2; exact h2⟩
    · rintro (⟨h0, h1⟩ | ⟨h0, _⟩)
      · rw [h0] at h2
        exact absurd h2 (not_lt.mpr h1)
      · exact h0

/-- C22 fails on the code: for `a = -i` and `b = i` (both non-zero) the branch
`Re(a) >= Im(a)` is taken (`0 >= -1`), `abs2(a) = 1`, `k1 = 1`, and `k2` is the quotient of
`k1 * Im(a) - Im(b) = -2` by `Re(a) = 0`.  In general the divisor of `k2` vanishes exactly
when `Re(a) = 0 >= Im(a)` (first branch) or `Im(a) = 0 > Re(a)` (second branch), while
`abs2(a)` never vanishes for `a != 0`. -/
theorem genPlRot_complex_divides_by_zero :
    (⟨0, -1⟩ : dcomp) ≠ 0 ∧ (⟨0, 1⟩ : dcomp) ≠ 0
    ∧ ((0 : ℚ) ≥ -1)
    ∧ FGMRES_Z.abs2 ⟨0, -1⟩ = 1
    ∧ FGMRES_Z.genPlRot_k1 ⟨0, -1⟩ ⟨0, 1⟩ = 1
    ∧ FGMRES_Z.genPlRot_k2num ⟨0, -1⟩ ⟨0, 1⟩ = -2
    ∧ FGMRES_Z.genPlRot_k2den ⟨0, -1⟩ = 0
    ∧ (∀ a : dcomp, FGMRES_Z.genPlRot_k2den a = 0
        ↔ (a.re = 0 ∧ a.im ≤ 0) ∨ (a.im = 0 ∧ a.re < 0))
    ∧ (∀ a : dcomp, a ≠ 0 → FGMRES_Z.abs2 a ≠ 0) := by
  refine ⟨?_, ?_, by norm_num, ?_, ?_, ?_, ?_, genPlRot_k2den_zero_iff, ?_⟩
  · intro h
    have := congrArg dcomp.im h
    simp at this
  · intro h
    have := congrArg dcomp.im h
    simp at this
  · unfold FGMRES_Z.abs2
    norm_num
  · unfold FGMRES_Z.genPlRot_k1 FGMRES_Z.abs2
    norm_num
  · unfold FGMRES_Z.genPlRot_k2num FGMRES_Z.genPlRot_k1 FGMRES_Z.abs2
    norm_num
  · unfold FGMRES_Z.genPlRot_k2den
    norm_num
  · intro a ha
    exact (dcomp.normSq_pos_of_ne_zero a ha).ne'

/-! ## Termination of `FGMRes` (C23) -/

theorem FGMRes_innerU_eq (w nsteps : Nat) (convIn : Nat → Bool) (hn : nsteps + 1 < 2 ^ w)
    (rem i j bodies : Nat) :
    FGMRes_innerU w nsteps convIn rem i j bodies
      = FGMRes_inner nsteps convIn rem i j bodies := by
  induction rem generalizing i j bodies with
  | zero => rfl
  | succ rem ih =>
    unfold FGMRes_innerU FGMRes_inner
    by_cases hj : j ≤ nsteps
    · rw [if_pos hj, if_pos hj, Nat.mod_eq_of_lt (by omega), ih]
    · rw [if_neg hj, if_neg hj]

theorem FGMRes_whileU_eq (w m nsteps : Nat) (convIn convRe updOk : Nat → Bool)
    (hn : nsteps + 1 < 2 ^ w) (fuel j bodies : Nat) (ups : List (Nat × Nat)) :
    FGMRes_whileU w m nsteps convIn convRe updOk fuel j bodies ups
      = FGMRes_while m nsteps convIn convRe updOk fuel j bodies ups := by
  induction fuel generalizing j bodies ups with
  | zero => rfl
  | succ fuel ih =>
    unfold FGMRes_whileU FGMRes_while
    simp only [FGMRes_innerU_eq w nsteps convIn hn, ih]

theorem FGMResU_eq (w fuel m nsteps : Nat) (normbZero initConv : Bool)
    (convIn convRe updOk : Nat → Bool) (hn : nsteps + 1 < 2 ^ w) :
    FGMResU w fuel m nsteps normbZero initConv convIn convRe updOk
      = FGMRes fuel m nsteps normbZero initConv convIn convRe updOk := by
  unfold FGMResU FGMRes
  rw [FGMRes_whileU_eq w m nsteps convIn convRe updOk hn]

/-- Effect of the inner loop on the counter and on the number of bodies executed. -/
theorem FGMRes_inner_spec (nsteps : Nat) (convIn : Nat → Bool) (rem i j bodies : Nat)
    (hj : j ≤ nsteps + 1) :
    ((FGMRes_inner nsteps convIn rem i j bodies).1 = true →
        (FGMRes_inner nsteps convIn rem i j bodies).2.2.1 ≤ nsteps
        ∧ (FGMRes_inner nsteps convIn rem i j bodies).2.2.2 + j
            = bodies + (FGMRes_inner nsteps convIn rem i j bodies).2.2.1 + 1)
    ∧ ((FGMRes_inner nsteps convIn rem i j bodies).1 = false →
        (FGMRes_inner nsteps convIn rem i j bodies).2.2.1 ≤ nsteps + 1
        ∧ (FGMRes_inner nsteps convIn rem i j bodies).2.2.2 + j
            = bodies + (FGMRes_inner nsteps convIn rem i j bodies).2.2.1
        ∧ (0 < rem → j ≤ nsteps → j < (FGMRes_inner nsteps convIn rem i j bodies).2.2.1))
    ∧ j ≤ (FGMRes_inner nsteps convIn rem i j bodies).2.2.1 := by
  induction rem generalizing i j bodies with
  | zero =>
    refine ⟨fun h => ?_, fun _ => ⟨hj, rfl, fun h => absurd h (lt_irrefl 0)⟩, le_refl _⟩
    exact absurd h (by simp [FGMRes_inner])
  | succ rem ih =>
    unfold FGMRes_inner
    by_cases hjn : j ≤ nsteps
    · rw [if_pos hjn]
      by_cases hc : convIn j = true
      · rw [if_pos hc]
        exact ⟨fun _ => ⟨hjn, by show bodies + 1 + j = bodies + j + 1; omega⟩,
          fun h => absurd h (by simp), le_refl _⟩
      · rw [if_neg hc]
        obtain ⟨h1, h2, h3⟩ := ih (i + 1) (j + 1) (bodies + 1) (by omega)
        refine ⟨fun h => ?_, fun h => ?_, by omega⟩
        · obtain ⟨a, b⟩ := h1 h
          exact ⟨a, by omega⟩
        · obtain ⟨a, b, _⟩ := h2 h
          exact ⟨a, by omega, fun _ _ => by omega⟩
    · rw [if_neg hjn]
      exact ⟨fun h => absurd h (by simp), fun _ => ⟨hj, rfl, fun _ h => absurd h hjn⟩,
        le_refl _⟩

theorem FGMRes_while_ends (m nsteps : Nat) (convIn convRe updOk : Nat → Bool) (hm : 1 ≤ m)
    (fuel j bodies : Nat) (ups : List (Nat × Nat)) (hj : j ≤ nsteps + 1)
    (hb : bodies + 1 = j) (hf : nsteps + 1 - j < fuel) :
    ∃ o, FGMRes_while m nsteps convIn convRe updOk fuel j bodies ups = some o
      ∧ FGWithinBudget nsteps o := by
  induction fuel generalizing j bodies ups with
  | zero => omega
  | succ fuel ih =>
    unfold FGMRes_while
    by_cases hjn : j ≤ nsteps
    · rw [if_pos hjn]
      obtain ⟨h1, h2, h3⟩ := FGMRes_inner_spec nsteps convIn m 0 j bodies hj
      by_cases hc : (FGMRes_inner nsteps convIn m 0 j bodies).1 = true
      · simp only [if_pos hc]
        obtain ⟨a, b⟩ := h1 hc
        have hbd : (FGMRes_inner nsteps convIn m 0 j bodies).2.2.2 ≤ nsteps := by omega
        by_cases hu : updOk ups.length = true
        · rw [if_pos hu]
          exact ⟨_, rfl, Or.inl rfl, hbd⟩
        · rw [if_neg hu]
          exact ⟨_, rfl, hbd⟩
      · have hc2 : (FGMRes_inner nsteps convIn m 0 j bodies).1 = false := by
          simpa using hc
        obtain ⟨a, b, c⟩ := h2 hc2
        have hlt := c (by omega) hjn
        have hbd : (FGMRes_inner nsteps convIn m 0 j bodies).2.2.2 ≤ nsteps := by omega
        simp only [if_neg hc]
        by_cases hu : updOk ups.length = true
        · rw [if_pos hu]
          by_cases hr : convRe (FGMRes_inner nsteps convIn m 0 j bodies).2.2.1 = true
          · rw [if_pos hr]
            exact ⟨_, rfl, Or.inl rfl, hbd⟩
          · rw [if_neg hr]
            exact ih _ _ _ a (by omega) (by omega)
        · rw [if_neg hu]
          exact ⟨_, rfl, hbd⟩
    · rw [if_neg hjn]
      exact ⟨_, rfl, Or.inr rfl, by show bodies ≤ nsteps; omega⟩

theorem FGMRes_whileU_never (w fuel j bodies : Nat) (ups : List (Nat × Nat))
    (hj : j < 2 ^ w) :
    FGMRes_whileU w 1 (2 ^ w - 1) (fun _ => false) (fun _ => false) (fun _ => true)
      fuel j bodies ups = none := by
  induction fuel generalizing j bodies ups with
  | zero => rfl
  | succ fuel ih =>
    have hle : j ≤ 2 ^ w - 1 := by omega
    have hin : FGMRes_innerU w (2 ^ w - 1) (fun _ => false) 1 0 j bodies
        = (false, 1, (j + 1) % 2 ^ w, bodies + 1) := by
      unfold FGMRes_innerU
      rw [if_pos hle]
      rfl
    unfold FGMRes_whileU
    rw [if_pos hle]
    simp only [hin]
    exact ih _ _ _ (Nat.mod_lt _ (Nat.two_pow_pos w))

/-- C23 fails on the code for `nsteps = UINT_MAX`: with a counter of 32 bits, `m = 1`,
`nsteps = 2^32 - 1`, residual tests that never pass and every `assert` of `update` passing,
the test `j<=nsteps` is always true; the pass of the outer loop entered with
`j = 2^32 - 1` executes one body and leaves `j = 0`, so `j` does not increase, and the run
has not returned after any number of passes (each pass executes one more body).  Moreover a
run can end without returning 0 or 1: with `m = 2`, `nsteps = 1`, no residual test passing
and the triangular solve of `update` meeting a singular `H`, the run aborts in the `assert`
of `update`. -/
theorem FGMRes_never_returns_at_max_nsteps :
    (1 ≤ 1)
    ∧ (∀ bodies, FGMRes_innerU 32 (2 ^ 32 - 1) (fun _ => false) 1 0 (2 ^ 32 - 1) bodies
        = (false, 1, 0, bodies + 1))
    ∧ (∀ fuel, FGMResU 32 fuel 1 (2 ^ 32 - 1) false false (fun _ => false) (fun _ => false)
        (fun _ => true) = none)
    ∧ FGMResU 32 2 2 1 false false (fun _ => false) (fun _ => false) (fun _ => false)
        = some (FGOutcome.aborted 1 [(2, 1)]) := by
  refine ⟨le_refl 1, fun bodies => ?_, fun fuel => ?_, ?_⟩
  · unfold FGMRes_innerU
    rw [if_pos (le_refl _)]
    rfl
  · unfold FGMResU
    exact FGMRes_whileU_never 32 fuel 1 0 [] (by norm_num)
  · rw [FGMResU_eq 32 2 2 1 false false (fun _ => false) (fun _ => false) (fun _ => false)
      (by norm_num)]
    decide

/-- Away from the wrap-around: for a counter of `w` bits, every restart length `m >= 1`,
every `nsteps` with `nsteps + 1 < 2^w` and arbitrary outcomes of the residual tests and of
the `assert` of `update`, a run of `FGMRes` ends after at most `nsteps + 1` passes of the
outer loop, either by returning 0 or 1 or in the `assert` of `update`, with at most `nsteps`
executions of the inner loop body; and every pass of the outer loop that does not leave
from inside the inner loop finds the counter `j` strictly larger afterwards. -/
theorem FGMRes_ends_within_budget (w m nsteps fuel : Nat) (normbZero initConv : Bool)
    (convIn convRe updOk : Nat → Bool) (hm : 1 ≤ m) (hn : nsteps + 1 < 2 ^ w)
    (hf : nsteps < fuel) :
    (∃ o, FGMResU w fuel m nsteps normbZero initConv convIn convRe updOk = some o
      ∧ FGWithinBudget nsteps o)
    ∧ (∀ j bodies, j ≤ nsteps →
        (FGMRes_innerU w nsteps convIn m 0 j bodies).1 = false →
        j < (FGMRes_innerU w nsteps convIn m 0 j bodies).2.2.1) := by
  refine ⟨?_, fun j bodies hj hc => ?_⟩
  · rw [FGMResU_eq w fuel m nsteps normbZero initConv convIn convRe updOk hn]
    unfold FGMRes
    by_cases h1 : normbZero = true
    · rw [if_pos h1]
      exact ⟨_, rfl, Or.inl rfl, Nat.zero_le _⟩
    · rw [if_neg h1]
      by_cases h2 : initConv = true
      · rw [if_pos h2]
        exact ⟨_, rfl, Or.inl rfl, Nat.zero_le _⟩
      · rw [if_neg h2]
        exact FGMRes_while_ends m nsteps convIn convRe updOk hm fuel 1 0 [] (by omega) rfl
          (by omega)
  · rw [FGMRes_innerU_eq w nsteps convIn hn] at hc ⊢
    exact (FGMRes_inner_spec nsteps convIn m 0 j bodies (by omega)).2.1 hc |>.2.2
      (by omega) hj

/-! ## The small matrix of `addtrll` and `addtrll_rmnd` (C21) -/

theorem condStore_eq (P : dcomp → Prop) [DecidablePred P] (Z : Nat → dcomp) (a : Nat) :
    (if P (Z a) then wr Z a 0 else Z) = wr Z a (if P (Z a) then 0 else Z a) := by
  funext t
  by_cases h : P (Z a)
  · rw [if_pos h, if_pos h]
  · rw [if_neg h, if_neg h]
    by_cases ht : t = a
    · subst ht
      rw [wr_same]
    · rw [wr_other _ _ _ _ ht]

/-- A loop of updates `Z[addr(i)] = f(Z[addr(i)])` at pairwise different addresses. -/
theorem mapLoop {α : Type} (k : Nat) (addr : Nat → Nat) (f : α → α)
    (hinj : ∀ i1 i2, i1 < k → i2 < k → addr i1 = addr i2 → i1 = i2) (Z : Nat → α) :
    (∀ i, i < k →
      forLoop k (fun i Z => wr Z (addr i) (f (Z (addr i)))) Z (addr i) = f (Z (addr i)))
    ∧ (∀ a, (∀ i, i < k → a ≠ addr i) →
        forLoop k (fun i Z => wr Z (addr i) (f (Z (addr i)))) Z a = Z a) := by
  induction k with
  | zero =>
    refine ⟨?_, fun a _ => rfl⟩
    intro i hi
    omega
  | succ k ih =>
    obtain ⟨h1, h2⟩ := ih (fun i1 i2 hi1 hi2 h => hinj i1 i2 (by omega) (by omega) h)
    refine ⟨?_, ?_⟩
    · intro i hi
      rw [forLoop_succ]
      by_cases hik : i = k
      · subst hik
        rw [wr_same, h2 _ (fun i2 hi2 h => by
          have := hinj i i2 (by omega) (by omega) h
          omega)]
      · have hne : addr i ≠ addr k := fun h => hik (hinj i k hi (by omega) h)
        rw [wr_other _ _ _ _ hne]
        exact h1 i (by omega)
    · intro a ha
      rw [forLoop_succ, wr_other _ _ _ _ (ha k (by omega))]
      exact h2 a (fun i hi => ha i (by omega))

/-- Two nested loops of updates `Z[addr(i,j)] = f(Z[addr(i,j)])` at pairwise different
addresses. -/
theorem mapLoop2 {α : Type} (m n : Nat) (addr : Nat → Nat → Nat) (f : α → α)
    (hinj : ∀ i1 j1 i2 j2, i1 < n → j1 < m → i2 < n → j2 < m →
      addr i1 j1 = addr i2 j2 → i1 = i2 ∧ j1 = j2) (Z : Nat → α) :
    (∀ c i, c < m → i < n →
      forLoop m (fun j Z => forLoop n (fun i Z => wr Z (addr i j) (f (Z (addr i j)))) Z) Z
        (addr i c) = f (Z (addr i c)))
    ∧ (∀ a, (∀ c i, c < m → i < n → a ≠ addr i c) →
      forLoop m (fun j Z => forLoop n (fun i Z => wr Z (addr i j) (f (Z (addr i j)))) Z) Z a
        = Z a) := by
  induction m with
  | zero =>
    refine ⟨?_, fun a _ => rfl⟩
    intro c i hc
    omega
  | succ m ih =>
    obtain ⟨h1, h2⟩ := ih (fun i1 j1 i2 j2 hi1 hj1 hi2 hj2 h =>
      hinj i1 j1 i2 j2 hi1 (by omega) hi2 (by omega) h)
    obtain ⟨w1, w2⟩ := mapLoop n (fun i => addr i m) f
      (fun i1 i2 hi1 hi2 h => (hinj i1 m i2 m hi1 (by omega) hi2 (by omega) h).1)
      (forLoop m (fun j Z => forLoop n (fun i Z => wr Z (addr i j) (f (Z (addr i j)))) Z) Z)
    refine ⟨?_, ?_⟩
    · intro c i hc hi
      rw [forLoop_succ]
      by_cases hcm : c = m
      · subst hcm
        refine Eq.trans (w1 i hi) ?_
        rw [h2 _ (fun c2 i2 hc2 hi2 h => by
          have := (hinj i c i2 c2 hi (by omega) hi2 (by omega) h).2
          omega)]
      · rw [w2 _ (fun i2 hi2 h =>
          hcm (hinj i c i2 m hi (by omega) hi2 (by omega) h).2)]
        exact h1 c i (by omega) hi
    · intro a ha
      rw [forLoop_succ, w2 a (fun i hi => ha m i (by omega) hi)]
      exact h2 a (fun c i hc hi => ha c i (by omega) hi)

theorem pair_inj (ld r1 c1 r2 c2 : Nat) (h1 : r1 < ld) (h2 : r2 < ld)
    (he : r1 + c1 * ld = r2 + c2 * ld) : r1 = r2 ∧ c1 = c2 := by
  by_contra hne
  have hor : r1 ≠ r2 ∨ c1 ≠ c2 := by
    by_contra hc
    push_neg at hc
    exact hne ⟨hc.1, hc.2⟩
  exact addr_ne ld r1 c1 r2 c2 h1 h2 hor he

theorem utrmmh_apply (m k n : Nat) (A : Nat → dcomp) (ldA : Nat) (B : Nat → dcomp)
    (ldB : Nat) (C : Nat → dcomp) (i j : Nat) (hi : i < m) (hj : j < n) :
    utrmmh m k n A ldA B ldB C (i + j * m)
      = ∑ l ∈ Finset.range k, (if i ≤ l then A (i + l * ldA) else 0)
          * dcomp.conj (if j ≤ l then B (j + l * ldB) else 0) :=
  (writeLoop2 n m (fun i j => i + j * m)
    (fun i j => ∑ l ∈ Finset.range k, (if i ≤ l then A (i + l * ldA) else 0)
          * dcomp.conj (if j ≤ l then B (j + l * ldB) else 0))
    (fun i1 j1 i2 j2 h1 _ h2 _ he => pair_inj m i1 j1 i2 j2 h1 h2 he) C).1 j i hj hi

/-- Closed form of the elimination loop of `addtrll`. -/
theorem addtrll_svdInput_apply (sqrt : ℚ → ℚ) (n1 n2 bl_rank k : Nat)
    (tmp1 tmp2 : Nat → dcomp) (delta : ℚ) (R : Nat → dcomp) :
    (∀ i j, i < MIN n1 (bl_rank + k) → j < MIN n2 (bl_rank + k) →
      addtrll_svdInput sqrt n1 n2 bl_rank k tmp1 tmp2 delta R (i + j * MIN n1 (bl_rank + k))
        = if dcomp.abs sqrt (addtrll_rmnd_svdInput n1 n2 bl_rank k tmp1 tmp2 R
              (i + j * MIN n1 (bl_rank + k)))
            < addtrll_thresh sqrt n1 n2 bl_rank k tmp1 tmp2 delta R then 0
          else addtrll_rmnd_svdInput n1 n2 bl_rank k tmp1 tmp2 R
              (i + j * MIN n1 (bl_rank + k)))
    ∧ (∀ a, (∀ i j, i < MIN n1 (bl_rank + k) → j < MIN n2 (bl_rank + k) →
          a ≠ i + j * MIN n1 (bl_rank + k)) →
        addtrll_svdInput sqrt n1 n2 bl_rank k tmp1 tmp2 delta R a
          = addtrll_rmnd_svdInput n1 n2 bl_rank k tmp1 tmp2 R a) := by
  have hdef : addtrll_svdInput sqrt n1 n2 bl_rank k tmp1 tmp2 delta R
      = forLoop (MIN n1 (bl_rank + k)) (fun i Z =>
          forLoop (MIN n2 (bl_rank + k)) (fun j Z =>
            wr Z ((fun j i => i + j * MIN n1 (bl_rank + k)) j i)
              ((fun z => if dcomp.abs sqrt z
                  < addtrll_thresh sqrt n1 n2 bl_rank k tmp1 tmp2 delta R then 0 else z)
                (Z ((fun j i => i + j * MIN n1 (bl_rank + k)) j i)))) Z)
          (addtrll_rmnd_svdInput n1 n2 bl_rank k tmp1 tmp2 R) := by
    unfold addtrll_svdInput addtrll_rmnd_svdInput
    dsimp only
    congr 1
    funext i Z
    congr 1
    funext j Z
    exact condStore_eq (fun z => dcomp.abs sqrt z
      < addtrll_thresh sqrt n1 n2 bl_rank k tmp1 tmp2 delta R) Z _
  have hm := mapLoop2 (MIN n1 (bl_rank + k)) (MIN n2 (bl_rank + k))
    (fun j i => i + j * MIN n1 (bl_rank + k))
    (fun z => if dcomp.abs sqrt z
        < addtrll_thresh sqrt n1 n2 bl_rank k tmp1 tmp2 delta R then 0 else z)
    (fun j1 i1 j2 i2 _ h1 _ h2 he => by
      have := pair_inj (MIN n1 (bl_rank + k)) i1 j1 i2 j2 h1 h2 he
      exact ⟨this.2, this.1⟩)
    (addtrll_rmnd_svdInput n1 n2 bl_rank k tmp1 tmp2 R)
  rw [hdef]
  exact ⟨fun i j hi hj => hm.1 i j hi hj, fun a ha => hm.2 a (fun c i hc hi => ha c i hc hi)⟩

/-- C21 (amended): the matrix handed to `gesvd` by `addtrll` is the matrix handed to `gesvd`
by `addtrll_rmnd` (the product `R_A R_B^H` of `utrmmh`, unchanged) exactly when no entry of
that product has a modulus below `thresh` without being zero; in that case, whatever
singular values `gesvd` returns for a given input, both operations select the same retained
rank for every `kgoal`. -/
theorem addtrll_rmnd_same_input_iff (sqrt : ℚ → ℚ) (n1 n2 bl_rank k : Nat)
    (tmp1 tmp2 : Nat → dcomp) (delta : ℚ) (R : Nat → dcomp) :
    (addtrll_svdInput sqrt n1 n2 bl_rank k tmp1 tmp2 delta R
        = addtrll_rmnd_svdInput n1 n2 bl_rank k tmp1 tmp2 R
      ↔ ∀ i j, i < MIN n1 (bl_rank + k) → j < MIN n2 (bl_rank + k) →
          dcomp.abs sqrt (addtrll_rmnd_svdInput n1 n2 bl_rank k tmp1 tmp2 R
              (i + j * MIN n1 (bl_rank + k)))
            < addtrll_thresh sqrt n1 n2 bl_rank k tmp1 tmp2 delta R →
          addtrll_rmnd_svdInput n1 n2 bl_rank k tmp1 tmp2 R
              (i + j * MIN n1 (bl_rank + k)) = 0)
    ∧ (addtrll_svdInput sqrt n1 n2 bl_rank k tmp1 tmp2 delta R
        = addtrll_rmnd_svdInput n1 n2 bl_rank k tmp1 tmp2 R →
      ∀ (svd : (Nat → dcomp) → Nat → ℚ) (kgoal : Nat),
        addtrll_kt n1 n2 bl_rank k
            (svd (addtrll_svdInput sqrt n1 n2 bl_rank k tmp1 tmp2 delta R)) delta kgoal
          = addtrll_rmnd_kt n1 n2 bl_rank k
            (svd (addtrll_rmnd_svdInput n1 n2 bl_rank k tmp1 tmp2 R)) delta kgoal) := by
  obtain ⟨c1, c2⟩ := addtrll_svdInput_apply sqrt n1 n2 bl_rank k tmp1 tmp2 delta R
  refine ⟨⟨fun h i j hi hj hlt => ?_, fun h => ?_⟩, fun h svd kgoal => ?_⟩
  · have e := c1 i j hi hj
    rw [h, if_pos hlt] at e
    exact e
  · funext a
    by_cases hex : ∃ i j, i < MIN n1 (bl_rank + k) ∧ j < MIN n2 (bl_rank + k)
        ∧ a = i + j * MIN n1 (bl_rank + k)
    · obtain ⟨i, j, hi, hj, rfl⟩ := hex
      rw [c1 i j hi hj]
      by_cases hlt : dcomp.abs sqrt (addtrll_rmnd_svdInput n1 n2 bl_rank k tmp1 tmp2 R
              (i + j * MIN n1 (bl_rank + k)))
            < addtrll_thresh sqrt n1 n2 bl_rank k tmp1 tmp2 delta R
      · rw [if_pos hlt]
        exact (h i j hi hj hlt).symm
      · rw [if_neg hlt]
    · exact c2 a (fun i j hi hj he => hex ⟨i, j, hi, hj, he⟩)
  · rw [h]
    rfl

theorem ratSqrt_sq (x : ℚ) (hx : 0 ≤ x) : Rat.sqrt (x * x) = x := by
  rw [Rat.sqrt_eq, abs_of_nonneg hx]

theorem abs_ofReal (x : ℚ) (hx : 0 ≤ x) : dcomp.abs Rat.sqrt (dcomp.ofReal x) = x := by
  unfold dcomp.abs dcomp.normSq dcomp.ofReal
  have e : x * x + 0 * 0 = x * x := by ring
  rw [e]
  exact ratSqrt_sq x hx

theorem abs_nonneg_ratSqrt (z : dcomp) : 0 ≤ dcomp.abs Rat.sqrt z :=
  Rat.sqrt_nonneg _

/-- C21 (amended) evaluated with `delta = 0`: the threshold is `0`, no modulus is below it,
and both operations hand the same matrix to `gesvd`. -/
theorem addtrll_rmnd_same_input_iff_witness :
    addtrll_svdInput Rat.sqrt 2 2 1 1 qrU21 qrV21 0 (fun _ => 0)
      = addtrll_rmnd_svdInput 2 2 1 1 qrU21 qrV21 (fun _ => 0) := by
  refine (addtrll_rmnd_same_input_iff Rat.sqrt 2 2 1 1 qrU21 qrV21 0 (fun _ => 0)).1.mpr ?_
  intro i j _ _ hlt
  have h0 : addtrll_thresh Rat.sqrt 2 2 1 1 qrU21 qrV21 0 (fun _ => 0) = 0 := by
    unfold addtrll_thresh
    simp
  rw [h0] at hlt
  exact absurd hlt (not_lt.mpr (abs_nonneg_ratSqrt _))

theorem ex21_raw (i j : Nat) (hi : i < 2) (hj : j < 2) :
    addtrll_rmnd_svdInput 2 2 1 1 qrU21 qrV21 (fun _ => 0) (i + j * 2)
      = dcomp.ofReal (if i = j then (if i = 0 then 91 else 84) else 12) := by
  have h := utrmmh_apply 2 2 2 qrU21 2 qrV21 2 (fun _ => 0) i j hi hj
  show utrmmh 2 2 2 qrU21 2 qrV21 2 (fun _ => 0) (i + j * 2) = _
  rw [h]
  interval_cases i <;> interval_cases j <;>
    simp [qrU21, qrV21, Finset.sum_range_succ, dcomp.ofReal, dcomp.ext_iff] <;> norm_num

theorem ex21_raw_flat :
    addtrll_rmnd_svdInput 2 2 1 1 qrU21 qrV21 (fun _ => 0) 0 = dcomp.ofReal 91
    ∧ addtrll_rmnd_svdInput 2 2 1 1 qrU21 qrV21 (fun _ => 0) 1 = dcomp.ofReal 12
    ∧ addtrll_rmnd_svdInput 2 2 1 1 qrU21 qrV21 (fun _ => 0) 2 = dcomp.ofReal 12
    ∧ addtrll_rmnd_svdInput 2 2 1 1 qrU21 qrV21 (fun _ => 0) 3 = dcomp.ofReal 84 :=
  ⟨ex21_raw 0 0 (by decide) (by decide), ex21_raw 1 0 (by decide) (by decide),
    ex21_raw 0 1 (by decide) (by decide), ex21_raw 1 1 (by decide) (by decide)⟩

theorem ex21_thresh :
    addtrll_thresh Rat.sqrt 2 2 1 1 qrU21 qrV21 (4 / 5) (fun _ => 0) = 50 := by
  obtain ⟨h0, h1, h2, h3⟩ := ex21_raw_flat
  show (4 / 5 : ℚ) * nrm2 Rat.sqrt (2 * 2)
      (addtrll_rmnd_svdInput 2 2 1 1 qrU21 qrV21 (fun _ => 0))
        / Rat.sqrt (((2 : Nat) : ℚ) * ((2 : Nat) : ℚ)) = 50
  have hs : ∑ t ∈ Finset.range (2 * 2),
      dcomp.normSq (addtrll_rmnd_svdInput 2 2 1 1 qrU21 qrV21 (fun _ => 0) t)
        = 125 * 125 := by
    show ∑ t ∈ Finset.range 4, _ = _
    rw [Finset.sum_range_succ, Finset.sum_range_succ, Finset.sum_range_succ,
      Finset.sum_range_one, h0, h1, h2, h3]
    simp only [dcomp.normSq, dcomp.ofReal]
    norm_num
  have h4 : ((2 : Nat) : ℚ) * ((2 : Nat) : ℚ) = 2 * 2 := by norm_num
  unfold nrm2
  rw [hs, h4, ratSqrt_sq 125 (by norm_num), ratSqrt_sq 2 (by norm_num)]
  norm_num

theorem ex21_thr (i j : Nat) (hi : i < 2) (hj : j < 2) :
    addtrll_svdInput Rat.sqrt 2 2 1 1 qrU21 qrV21 (4 / 5) (fun _ => 0) (i + j * 2)
      = dcomp.ofReal (if i = j then (if i = 0 then 91 else 84) else 0) := by
  have h := (addtrll_svdInput_apply Rat.sqrt 2 2 1 1 qrU21 qrV21 (4 / 5) (fun _ => 0)).1 i j
    hi hj
  have h2 : addtrll_svdInput Rat.sqrt 2 2 1 1 qrU21 qrV21 (4 / 5) (fun _ => 0) (i + j * 2)
      = if dcomp.abs Rat.sqrt (addtrll_rmnd_svdInput 2 2 1 1 qrU21 qrV21 (fun _ => 0)
            (i + j * 2))
          < addtrll_thresh Rat.sqrt 2 2 1 1 qrU21 qrV21 (4 / 5) (fun _ => 0) then 0
        else addtrll_rmnd_svdInput 2 2 1 1 qrU21 qrV21 (fun _ => 0) (i + j * 2) := h
  rw [h2, ex21_raw i j hi hj, ex21_thresh]
  interval_cases i <;> interval_cases j <;> simp [abs_ofReal] <;>
    first | rfl | norm_num [dcomp.ofReal, dcomp.ext_iff]

theorem ex21_thr_contract :
    gesvdContract 2 2 (addtrll_svdInput Rat.sqrt 2 2 1 1 qrU21 qrV21 (4 / 5) (fun _ => 0))
      blockId2.data svalsThr blockId2.data := by
  refine ⟨fun i j hi hj => ?_, fun l p hl hp => ?_, fun l p hl hp => ?_, fun l hl => ?_,
    fun l hl => ?_⟩
  · rw [ex21_thr i j hi hj]
    interval_cases i <;> interval_cases j <;>
      simp [blockId2, svalsThr, MIN, Finset.sum_range_succ, dcomp.ofReal, dcomp.ext_iff]
  · have hl2 : l < 2 := hl
    have hp2 : p < 2 := hp
    interval_cases l <;> interval_cases p <;> simp [blockId2, Finset.sum_range_succ]
  · have hl2 : l < 2 := hl
    have hp2 : p < 2 := hp
    interval_cases l <;> interval_cases p <;> simp [blockId2, MIN, Finset.sum_range_succ]
  · have hl2 : l + 1 < 2 := hl
    have : l = 0 := by omega
    subst this
    norm_num [svalsThr]
  · have hl2 : l < 2 := hl
    interval_cases l <;> norm_num [svalsThr]

theorem ex21_raw_contract :
    gesvdContract 2 2 (addtrll_rmnd_svdInput 2 2 1 1 qrU21 qrV21 (fun _ => 0))
      rotQ svalsRaw rotQT := by
  refine ⟨fun i j hi hj => ?_, fun l p hl hp => ?_, fun l p hl hp => ?_, fun l hl => ?_,
    fun l hl => ?_⟩
  · rw [ex21_raw i j hi hj]
    interval_cases i <;> interval_cases j <;>
      simp [rotQ, rotQT, svalsRaw, MIN, Finset.sum_range_succ, dcomp.ofReal,
        dcomp.ext_iff] <;> norm_num
  · have hl2 : l < 2 := hl
    have hp2 : p < 2 := hp
    interval_cases l <;> interval_cases p <;>
      simp [rotQ, Finset.sum_range_succ, dcomp.ext_iff] <;> norm_num
  · have hl2 : l < 2 := hl
    have hp2 : p < 2 := hp
    interval_cases l <;> interval_cases p <;>
      simp [rotQT, MIN, Finset.sum_range_succ, dcomp.ext_iff] <;> norm_num
  · have hl2 : l + 1 < 2 := hl
    have : l = 0 := by omega
    subst this
    norm_num [svalsRaw]
  · have hl2 : l < 2 := hl
    interval_cases l <;> norm_num [svalsRaw]

/-- C21 fails as stated: block `[U0 | V0]` with `U0 = (1, 0)`, `V0 = (625/7, 0)`, increment
`U = (1/7, 1)`, `V = (12, 84)` (both factors are upper triangular, so `geqrf` returns them),
`delta = 4/5`, `kgoal = 2`.  The product `R_A R_B^H` has rows `(91, 12)` and `(12, 84)` and
`thresh = (4/5) * 125 / 2 = 50`: `addtrll` zeroes the two entries `12` and hands
`diag(91, 84)` to `gesvd` (singular values `91, 84`, retained rank 2), `addtrll_rmnd` has no
elimination loop and hands the product itself to `gesvd` (singular values `100, 75`,
`75 <= (4/5) * 100`, retained rank 1). -/
theorem addtrll_rmnd_differs_from_addtrll :
    addtrll_svdInput Rat.sqrt 2 2 1 1 qrU21 qrV21 (4 / 5) (fun _ => 0) 1 = 0
    ∧ addtrll_rmnd_svdInput 2 2 1 1 qrU21 qrV21 (fun _ => 0) 1 = dcomp.ofReal 12
    ∧ addtrll_svdInput Rat.sqrt 2 2 1 1 qrU21 qrV21 (4 / 5) (fun _ => 0)
        ≠ addtrll_rmnd_svdInput 2 2 1 1 qrU21 qrV21 (fun _ => 0)
    ∧ addtrll_thresh Rat.sqrt 2 2 1 1 qrU21 qrV21 (4 / 5) (fun _ => 0) = 50
    ∧ gesvdContract 2 2 (addtrll_svdInput Rat.sqrt 2 2 1 1 qrU21 qrV21 (4 / 5) (fun _ => 0))
        blockId2.data svalsThr blockId2.data
    ∧ gesvdContract 2 2 (addtrll_rmnd_svdInput 2 2 1 1 qrU21 qrV21 (fun _ => 0))
        rotQ svalsRaw rotQT
    ∧ addtrll_kt 2 2 1 1 svalsThr (4 / 5) 2 = 2
    ∧ addtrll_rmnd_kt 2 2 1 1 svalsRaw (4 / 5) 2 = 1 := by
  have h1 : addtrll_svdInput Rat.sqrt 2 2 1 1 qrU21 qrV21 (4 / 5) (fun _ => 0) 1 = 0 := by
    have h := ex21_thr 1 0 (by decide) (by decide)
    rw [if_neg (by decide)] at h
    exact h
  have h2 : addtrll_rmnd_svdInput 2 2 1 1 qrU21 qrV21 (fun _ => 0) 1 = dcomp.ofReal 12 :=
    ex21_raw_flat.2.1
  refine ⟨h1, h2, ?_, ex21_thresh, ex21_thr_contract, ex21_raw_contract, ?_, ?_⟩
  · intro h
    have e := congrFun h 1
    rw [h1, h2] at e
    have := congrArg dcomp.re e
    simp [dcomp.ofReal] at this
  · norm_num [addtrll_kt, truncWhile, MIN, svalsThr, EPS0]
  · norm_num [addtrll_rmnd_kt, truncWhile, MIN, svalsRaw, EPS0]

/-! ## The complex Givens rotation for a real second argument (C18) -/

end AHMED
